import Mathlib

/-!
Shallow embedding of the B+ tree index of this repository
(src/src/storage/index/b_plus_tree.cpp and the page classes under
src/src/storage/page and src/src/include/storage/page).

Modelling conventions:
* Keys are `Int`; the generic comparator instantiated at integer keys is
  `comparator_`, returning -1 / 0 / 1 exactly as `GenericComparator` does.
* Values (RIDs) are `Int`.
* A tree page's flexible array member `array_[0]` is a total function
  `Int -> entry`; slots outside the initialized region hold junk that the
  code may read or write, exactly as the raw page bytes do.
* The buffer pool is a `Store`: the header page's `root_page_id_`, a partial
  map from page ids to pages, and the next page id `NewPageGuarded` hands out.
* Loops are embedded as fuel-indexed structural recursions; each call site
  supplies fuel that dominates the loop's trip count, so the embedded
  function agrees with the C++ loop on every input reached by the code.
-/

/-- GenericComparator at integer keys: -1 if a < b, 1 if a > b, 0 if equal. -/
def comparator_ (a b : Int) : Int :=
  if a < b then -1 else if b < a then 1 else 0

/-- The project-wide sentinel page id (INVALID_PAGE_ID). -/
def INVALID_PAGE_ID : Int := -1

/-- Leaf page payload: shared header fields (size, max size), the next-leaf
pointer, and the flexible (key, value) array (b_plus_tree_leaf_page.h). -/
structure LeafPage where
  size : Int
  maxSize : Int
  nextPageId : Int
  arr : Int → Int × Int

/-- Internal page payload: shared header fields and the flexible
(key, child page id) array; slot 0's key is logically unused
(b_plus_tree_internal_page.h). -/
structure InternalPage where
  size : Int
  maxSize : Int
  arr : Int → Int × Int

/-- BPlusTreeLeafPage::KeyAt. -/
def LeafPage.KeyAt (p : LeafPage) (index : Int) : Int :=
  (p.arr index).1

/-- BPlusTreeLeafPage::ValueAt. -/
def LeafPage.ValueAt (p : LeafPage) (index : Int) : Int :=
  (p.arr index).2

/-- BPlusTreeLeafPage::SetAt: writes (key, value) at `index` only when
0 <= index < GetSize(); otherwise it returns without touching the page. -/
def LeafPage.SetAt (p : LeafPage) (index : Int) (key : Int) (value : Int) : LeafPage :=
  if 0 ≤ index ∧ index < p.size then
    { p with arr := Function.update p.arr index (key, value) }
  else
    p

/-- BPlusTreeLeafPage::SetKeyAt (unguarded raw array write). -/
def LeafPage.SetKeyAt (p : LeafPage) (index : Int) (key : Int) : LeafPage :=
  { p with arr := Function.update p.arr index (key, (p.arr index).2) }

/-- BPlusTreeLeafPage::SetValueAt (unguarded raw array write). -/
def LeafPage.SetValueAt (p : LeafPage) (index : Int) (value : Int) : LeafPage :=
  { p with arr := Function.update p.arr index ((p.arr index).1, value) }

/-- BPlusTreeLeafPage::SetNextPageId. -/
def LeafPage.SetNextPageId (p : LeafPage) (next : Int) : LeafPage :=
  { p with nextPageId := next }

/-- BPlusTreePage::SetSize (field write; declared in b_plus_tree_page.h). -/
def LeafPage.SetSize (p : LeafPage) (n : Int) : LeafPage :=
  { p with size := n }

/-- BPlusTreePage::IncreaseSize (field write; declared in b_plus_tree_page.h). -/
def LeafPage.IncreaseSize (p : LeafPage) (amount : Int) : LeafPage :=
  { p with size := p.size + amount }

/-- Modelled from the spec: the body of BPlusTreePage::GetMinSize is not in
the repository sources (b_plus_tree_page.cpp is absent; only the declaration
in b_plus_tree_page.h is present). The spec fixes min_size = ceil(max/2) for
both page kinds; for the positive max sizes the tree uses, (max + 1) / 2
computes that ceiling. -/
def LeafPage.GetMinSize (p : LeafPage) : Int :=
  (p.maxSize + 1) / 2

/-- BPlusTreeLeafPage::Init: leaf type tag, size 0, the given max size, and
next page id INVALID_PAGE_ID. A freshly fetched buffer-pool frame is
zero-initialized (Page::Page calls ResetMemory), so the junk array is all
zeros. -/
def LeafPage.Init (maxSize : Int) : LeafPage :=
  { size := 0, maxSize := maxSize, nextPageId := INVALID_PAGE_ID, arr := fun _ => (0, 0) }

/-- Modelled from the spec: BPlusTreeInternalPage::KeyAt — the internal page
implementation file is absent from the sources (only
b_plus_tree_internal_page.h); the spec describes it as the key of the dense
(key, child) array at the slot. -/
def InternalPage.KeyAt (q : InternalPage) (index : Int) : Int :=
  (q.arr index).1

/-- Modelled from the spec: BPlusTreeInternalPage::ValueAt — the child page
id stored at the slot. -/
def InternalPage.ValueAt (q : InternalPage) (index : Int) : Int :=
  (q.arr index).2

/-- Modelled from the spec: BPlusTreeInternalPage::SetKeyAt — raw array
write of the key component at the slot. -/
def InternalPage.SetKeyAt (q : InternalPage) (index : Int) (key : Int) : InternalPage :=
  { q with arr := Function.update q.arr index (key, (q.arr index).2) }

/-- Modelled from the spec: BPlusTreeInternalPage::SetValueAt — raw array
write of the child-id component at the slot. -/
def InternalPage.SetValueAt (q : InternalPage) (index : Int) (value : Int) : InternalPage :=
  { q with arr := Function.update q.arr index ((q.arr index).1, value) }

/-- BPlusTreePage::SetSize for internal pages. -/
def InternalPage.SetSize (q : InternalPage) (n : Int) : InternalPage :=
  { q with size := n }

/-- BPlusTreePage::IncreaseSize for internal pages. -/
def InternalPage.IncreaseSize (q : InternalPage) (amount : Int) : InternalPage :=
  { q with size := q.size + amount }

/-- Modelled from the spec: BPlusTreePage::GetMinSize for internal pages,
ceil(max/2) as for leaves. -/
def InternalPage.GetMinSize (q : InternalPage) : Int :=
  (q.maxSize + 1) / 2

/-- Modelled from the spec: BPlusTreeInternalPage::Init — internal type tag,
size 0, the given max size; the fresh frame is zero-initialized. -/
def InternalPage.Init (maxSize : Int) : InternalPage :=
  { size := 0, maxSize := maxSize, arr := fun _ => (0, 0) }

/-- A B+ tree page is a leaf or an internal page; the page type tag of the
shared header is the constructor. -/
inductive BPage where
  | leaf (p : LeafPage) : BPage
  | internal (q : InternalPage) : BPage

/-- BPlusTreePage::IsLeafPage. -/
def BPage.IsLeafPage : BPage → Bool
  | BPage.leaf _ => true
  | BPage.internal _ => false

/-- BPlusTreePage::GetSize through the shared header. -/
def BPage.GetSize : BPage → Int
  | BPage.leaf p => p.size
  | BPage.internal q => q.size

/-- BPlusTreePage::GetMaxSize through the shared header. -/
def BPage.GetMaxSize : BPage → Int
  | BPage.leaf p => p.maxSize
  | BPage.internal q => q.maxSize

/-- The binary-search loop shared by both BPlusTree::BinaryFind overloads:
while (l < r) take mid = (l + r + 1) >> 1 and move l up to mid when
key_at(mid) <= target (comparator result is not 1), else move r below mid.
The C++ loop runs at most (r - l) iterations; `fuel` dominates that count at
every call site, so the embedding returns exactly what the loop returns
(the final value of r). -/
def bfLoop (keyAt : Int → Int) (key : Int) : Int → Int → Nat → Int
  | _, r, 0 => r
  | l, r, fuel + 1 =>
    if l < r then
      if comparator_ (keyAt ((l + r + 1) / 2)) key ≠ 1 then
        bfLoop keyAt key ((l + r + 1) / 2) r fuel
      else
        bfLoop keyAt key l ((l + r + 1) / 2 - 1) fuel
    else
      r

/-- BPlusTree::BinaryFind(LeafPage): binary search from l = 0, r = size - 1,
then report -1 when the found slot's key is still greater than the target. -/
def BPlusTree.BinaryFindLeaf (p : LeafPage) (key : Int) : Int :=
  let r := bfLoop p.KeyAt key 0 (p.size - 1) (p.size - 1).toNat
  if 0 ≤ r ∧ comparator_ (p.KeyAt r) key = 1 then -1 else r

/-- BPlusTree::BinaryFind(InternalPage): binary search from l = 1,
r = size - 1 (slot 0's key is unused), then clamp to slot 0 when r is -1 or
the found key is greater than the target. -/
def BPlusTree.BinaryFindInternal (q : InternalPage) (key : Int) : Int :=
  let r := bfLoop q.KeyAt key 1 (q.size - 1) (q.size - 1 - 1).toNat
  if r = -1 ∨ comparator_ (q.KeyAt r) key = 1 then 0 else r

/-- The buffer pool plus header page: the header's root_page_id_, the map
from page ids to tree pages, and the next id NewPageGuarded will return. -/
structure Store where
  rootPageId : Int
  pages : Int → Option BPage
  nextFresh : Int

/-- Writing one page through its (write) guard. -/
def Store.setPage (s : Store) (pid : Int) (page : BPage) : Store :=
  { s with pages := Function.update s.pages pid (some page) }

/-- The state right after the BPlusTree constructor ran: the header's root
page id is INVALID_PAGE_ID and no tree page exists yet. -/
def emptyStore : Store :=
  { rootPageId := INVALID_PAGE_ID, pages := fun _ => none, nextFresh := 0 }

/-- The construction parameters leaf_max_size_ and internal_max_size_. -/
structure Cfg where
  leafMax : Int
  internalMax : Int

/-- The latch state of a Context during insert: whether header_page_ still
holds the header write guard, and the page ids of write_set_ in order
(front first). -/
structure Ctx where
  header : Bool
  writeSet : List Int
deriving DecidableEq

/-- One step of the insert descent: the newly write-latched page id, the
value of Safe_Insert on it, and the Context right after the crabbing check
for that step. -/
structure DStep where
  pid : Int
  safe : Bool
  ctx : Ctx
deriving DecidableEq

/-- BPlusTree::Safe_Insert: a leaf is safe iff size + 1 < max, an internal
page iff size < max. -/
def BPlusTree.Safe_Insert (page : BPage) : Bool :=
  match page with
  | BPage.leaf p => p.size + 1 < p.maxSize
  | BPage.internal q => q.size < q.maxSize

/-- The descent loop of BPlusTree::GetValue: while the current page is not
a leaf, binary-search the internal page (returning false if the slot is -1)
and move to the child; at the leaf, binary-search and compare for equality,
pushing the value into the result vector on a hit. The returned list holds
exactly the values pushed into the caller's result vector. -/
def BPlusTree.getValueLoop (s : Store) (key : Int) : Int → Nat → Option (Bool × List Int)
  | _, 0 => none
  | pid, fuel + 1 =>
    match s.pages pid with
    | none => none
    | some (BPage.leaf leafPage) =>
      let slot := BPlusTree.BinaryFindLeaf leafPage key
      if slot ≠ -1 ∧ comparator_ (leafPage.KeyAt slot) key = 0 then
        some (true, [leafPage.ValueAt slot])
      else
        some (false, [])
    | some (BPage.internal q) =>
      let slot := BPlusTree.BinaryFindInternal q key
      if slot = -1 then
        some (false, [])
      else
        BPlusTree.getValueLoop s key (q.ValueAt slot) fuel

/-- BPlusTree::GetValue: empty tree reports a miss, otherwise descend from
the root. `fuel` bounds the descent depth (the C++ loop walks a finite
root-to-leaf path in any well-formed tree). -/
def BPlusTree.GetValue (s : Store) (key : Int) (fuel : Nat) : Option (Bool × List Int) :=
  if s.rootPageId = INVALID_PAGE_ID then
    some (false, [])
  else
    BPlusTree.getValueLoop s key s.rootPageId fuel

/-- The descent loop of BPlusTree::Begin(key): like GetValue's loop, but at
the leaf it returns the iterator (page id, slot) when the leaf binary search
found a slot, and End() = (INVALID_PAGE_ID, -1) otherwise. -/
def BPlusTree.beginKeyLoop (s : Store) (key : Int) : Int → Nat → Option (Int × Int)
  | _, 0 => none
  | pid, fuel + 1 =>
    match s.pages pid with
    | none => none
    | some (BPage.leaf leafPage) =>
      let slot := BPlusTree.BinaryFindLeaf leafPage key
      if slot ≠ -1 then some (pid, slot) else some (INVALID_PAGE_ID, -1)
    | some (BPage.internal q) =>
      let slot := BPlusTree.BinaryFindInternal q key
      if slot = -1 then
        some (INVALID_PAGE_ID, -1)
      else
        BPlusTree.beginKeyLoop s key (q.ValueAt slot) fuel

/-- BPlusTree::Begin(const KeyType &key): empty tree returns End(),
otherwise descend from the root. -/
def BPlusTree.BeginKey (s : Store) (key : Int) (fuel : Nat) : Option (Int × Int) :=
  if s.rootPageId = INVALID_PAGE_ID then
    some (INVALID_PAGE_ID, -1)
  else
    BPlusTree.beginKeyLoop s key s.rootPageId fuel

/-- BPlusTree::Remove: the body in the source consists only of the comment
"//Your code here"; the function performs no operation on any input. -/
def BPlusTree.Remove (s : Store) (key : Int) : Store :=
  s

/-- The descent loop of BPlusTree::Insert (the while over non-leaf pages):
at each internal page, binary-search, write-latch the child and push it on
write_set_; if the child is Safe_Insert, pop write_set_ from the front until
one guard is left. Produces the list of descent steps (for each newly
latched child: its id, its safety, and the Context right after the crab),
the final Context and the leaf page id. -/
def BPlusTree.insertDescentLoop (s : Store) (key : Int) : Ctx → Int → Nat → Option (List DStep × Ctx × Int)
  | _, _, 0 => none
  | ctx, cur, fuel + 1 =>
    match s.pages cur with
    | none => none
    | some (BPage.leaf _) => some ([], ctx, cur)
    | some (BPage.internal q) =>
      let slot := BPlusTree.BinaryFindInternal q key
      let next := q.ValueAt slot
      match s.pages next with
      | none => none
      | some child =>
        let safe := BPlusTree.Safe_Insert child
        let pushed : Ctx := { ctx with writeSet := ctx.writeSet ++ [next] }
        let ctx' : Ctx := if safe then { pushed with writeSet := [next] } else pushed
        match BPlusTree.insertDescentLoop s key ctx' next fuel with
        | none => none
        | some (tr, cf, leafPid) => some (⟨next, safe, ctx'⟩ :: tr, cf, leafPid)

/-- The descent phase of BPlusTree::Insert on a non-empty tree: write-latch
the root (pushing it on write_set_), release the header guard if the root is
Safe_Insert, then run the descent loop. The first trace entry is the root
step. -/
def BPlusTree.insertDescent (s : Store) (key : Int) (fuel : Nat) : Option (List DStep × Ctx × Int) :=
  match s.pages s.rootPageId with
  | none => none
  | some rootPage =>
    let ctx0 : Ctx := { header := true, writeSet := [s.rootPageId] }
    let ctx1 : Ctx := if BPlusTree.Safe_Insert rootPage then { ctx0 with header := false } else ctx0
    match BPlusTree.insertDescentLoop s key ctx1 s.rootPageId fuel with
    | none => none
    | some (tr, cf, leafPid) => some (⟨s.rootPageId, BPlusTree.Safe_Insert rootPage, ctx1⟩ :: tr, cf, leafPid)

/-- The entry-shift loop of BPlusTree::Insert:
for (int i = leaf->GetSize(); i > slot_num; --i) leaf->SetAt(i, KeyAt(i-1),
ValueAt(i-1)). `fuel` = number of loop iterations (i - slot_num).toNat. -/
def leafShiftLoop : LeafPage → Int → Int → Nat → LeafPage
  | p, _, _, 0 => p
  | p, slot, i, fuel + 1 =>
    if slot < i then
      leafShiftLoop (p.SetAt i (p.KeyAt (i - 1)) (p.ValueAt (i - 1))) slot (i - 1) fuel
    else
      p

/-- The copy loop of the leaf split in BPlusTree::Insert:
for (int i = leaf->GetMinSize(); i < leaf->GetSize(); ++i)
new_leaf->SetAt(i - leaf->GetMinSize(), leaf->KeyAt(i), leaf->ValueAt(i)). -/
def splitCopyLoop : LeafPage → LeafPage → Int → Nat → LeafPage
  | dst, _, _, 0 => dst
  | dst, src, i, fuel + 1 =>
    if i < src.size then
      splitCopyLoop (dst.SetAt (i - src.GetMinSize) (src.KeyAt i) (src.ValueAt i)) src (i + 1) fuel
    else
      dst

/-- The leaf-split block of BPlusTree::Insert (lines 203-220): allocate a
new leaf, give it the upper size - min_size entries, link it between the
full leaf and the old next leaf, shrink the full leaf to min_size, and read
the separator key new_leaf->KeyAt(0). Returns the updated store, the new
page id and the separator. -/
def BPlusTree.splitLeafStep (cfg : Cfg) (s : Store) (leafPid : Int) (p : LeafPage) : Store × Int × Int :=
  let newPid := s.nextFresh
  let newLeaf := ((LeafPage.Init cfg.leafMax).SetSize (p.size - p.GetMinSize)).SetNextPageId p.nextPageId
  let p1 := p.SetNextPageId newPid
  let newLeaf1 := splitCopyLoop newLeaf p1 p1.GetMinSize (p1.size - p1.GetMinSize).toNat
  let p2 := p1.SetSize p1.GetMinSize
  ({ ((s.setPage leafPid (BPage.leaf p2)).setPage newPid (BPage.leaf newLeaf1)) with
      nextFresh := s.nextFresh + 1 }, newPid, newLeaf1.KeyAt 0)

/-- The suffix-shift loop used on internal pages during Insert_Up, both the
in-place branch (for i = GetSize()-1; i > slot_num; --i, i.e. stop =
slot_num + 1) and the left/right split branches (for i = ...; i >= slot_num;
--i, i.e. stop = slot_num): each iteration copies slot i to slot i + 1. -/
def internalShiftUpLoop : InternalPage → Int → Int → Nat → InternalPage
  | q, _, _, 0 => q
  | q, stop, i, fuel + 1 =>
    if stop ≤ i then
      internalShiftUpLoop ((q.SetKeyAt (i + 1) (q.KeyAt i)).SetValueAt (i + 1) (q.ValueAt i)) stop (i - 1) fuel
    else
      q

/-- The copy loop of the internal split branches of BPlusTree::Insert_Up:
for (int i = change; i < father->GetSize(); ++i) copy father's slot i to the
new page's slot i - change + off, where off is 1 in the left/middle branches
and 0 in the right branch. -/
def internalCopyLoop : InternalPage → InternalPage → Int → Int → Int → Nat → InternalPage
  | dst, _, _, _, _, 0 => dst
  | dst, src, change, off, i, fuel + 1 =>
    if i < src.size then
      internalCopyLoop
        ((dst.SetKeyAt (i - change + off) (src.KeyAt i)).SetValueAt (i - change + off) (src.ValueAt i))
        src change off (i + 1) fuel
    else
      dst

/-- BPlusTree::Insert_Up(key, right_child, path), taking write_set_ in
reverse order (head = the page the separator comes from = write_set_.back(),
second = write_set_[size - 2], last = write_set_[0]). With a single element
the split node was the topmost latched page: allocate a new internal root
with the old root and right_child as children and update the header's root
page id (the code dereferences the held header guard there; if the header
guard had been released this would fault, modelled as none). Otherwise the
father either absorbs (key, right_child) after the binary-search slot, or is
split in three cases on the insertion position, recursing with the new
page's slot-0 key. -/
def BPlusTree.Insert_Up (cfg : Cfg) (s : Store) (key : Int) (rightChild : Int) (headerHeld : Bool) : List Int → Option Store
  | [] => none
  | [rootPid] =>
    if headerHeld then
      let newRootId := s.nextFresh
      let nr := ((((InternalPage.Init cfg.internalMax).SetSize 2).SetKeyAt 1 key).SetValueAt 0
          rootPid).SetValueAt 1 rightChild
      some { (s.setPage newRootId (BPage.internal nr)) with
              rootPageId := newRootId, nextFresh := s.nextFresh + 1 }
    else
      none
  | _ :: fatherPid :: rest =>
    match s.pages fatherPid with
    | some (BPage.internal father) =>
      if father.size < father.maxSize then
        let slot := BPlusTree.BinaryFindInternal father key
        let f1 := father.IncreaseSize 1
        let f2 := internalShiftUpLoop f1 (slot + 1) (f1.size - 1) (f1.size - 1 - slot).toNat
        let f3 := (f2.SetKeyAt (slot + 1) key).SetValueAt (slot + 1) rightChild
        some (s.setPage fatherPid (BPage.internal f3))
      else
        let newFatherId := s.nextFresh
        let slot := BPlusTree.BinaryFindInternal father key + 1
        let change := father.GetMinSize
        let newSize := father.maxSize + 1 - change
        let pairFN : InternalPage × InternalPage :=
          if slot < change then
            let nf := (InternalPage.Init cfg.internalMax).SetSize newSize
            let nf1 := internalCopyLoop nf father change 1 change (father.size - change).toNat
            let nf2 := (nf1.SetKeyAt 0 (father.KeyAt (change - 1))).SetValueAt 0
                (father.ValueAt (change - 1))
            let fa1 := internalShiftUpLoop father slot change (change - slot + 1).toNat
            let fa2 := (fa1.SetKeyAt slot key).SetValueAt slot rightChild
            (fa2, nf2)
          else if slot = change then
            let nf := (InternalPage.Init cfg.internalMax).SetSize newSize
            let nf1 := internalCopyLoop nf father change 1 change (father.size - change).toNat
            let nf2 := (nf1.SetKeyAt 0 key).SetValueAt 0 rightChild
            (father, nf2)
          else
            let nf := (InternalPage.Init cfg.internalMax).SetSize newSize
            let nf1 := internalCopyLoop nf father change 0 change (father.size - change).toNat
            let slot1 := slot - change
            let nf2 := internalShiftUpLoop nf1 slot1 nf1.size (nf1.size - slot1 + 1).toNat
            let nf3 := (nf2.SetKeyAt slot1 key).SetValueAt slot1 rightChild
            (father, nf3)
        let fatherFinal := pairFN.1.SetSize change
        let s1 := { ((s.setPage fatherPid (BPage.internal fatherFinal)).setPage newFatherId
            (BPage.internal pairFN.2)) with nextFresh := s.nextFresh + 1 }
        BPlusTree.Insert_Up cfg s1 (pairFN.2.KeyAt 0) newFatherId headerHeld (fatherPid :: rest)
    | _ => none

/-- BPlusTree::Insert. Empty tree: make a one-entry root leaf and return
true. Otherwise descend (write-latching with crabbing), return false on a
duplicate key without modifying anything, insert into the leaf by shifting
the suffix up, and when the leaf reaches max size split it and propagate the
separator with Insert_Up. `fuel` bounds only the descent depth. -/
def BPlusTree.Insert (cfg : Cfg) (s : Store) (key : Int) (value : Int) (fuel : Nat) : Option (Store × Bool) :=
  if s.rootPageId = INVALID_PAGE_ID then
    let rootId := s.nextFresh
    let leafPage := ((LeafPage.Init cfg.leafMax).SetSize 1).SetAt 0 key value
    some ({ (s.setPage rootId (BPage.leaf leafPage)) with
             rootPageId := rootId, nextFresh := s.nextFresh + 1 }, true)
  else
    match BPlusTree.insertDescent s key fuel with
    | none => none
    | some (_, ctx, leafPid) =>
      match s.pages leafPid with
      | some (BPage.leaf leafPage) =>
        let slot := BPlusTree.BinaryFindLeaf leafPage key
        if slot ≠ -1 ∧ comparator_ (leafPage.KeyAt slot) key = 0 then
          some (s, false)
        else
          let slot1 := slot + 1
          let l1 := leafPage.IncreaseSize 1
          let l2 := leafShiftLoop l1 slot1 l1.size (l1.size - slot1).toNat
          let l3 := l2.SetAt slot1 key value
          if l3.size < l3.maxSize then
            some (s.setPage leafPid (BPage.leaf l3), true)
          else
            let s1 := s.setPage leafPid (BPage.leaf l3)
            let res := BPlusTree.splitLeafStep cfg s1 leafPid l3
            match BPlusTree.Insert_Up cfg res.1 res.2.2 res.2.1 ctx.header ctx.writeSet.reverse with
            | none => none
            | some s3 => some (s3, true)
      | _ => none

/-- The key an iterator position (page id, slot) points at, read through the
leaf page, as IndexIterator dereferencing does. -/
def iterKeyOf (s : Store) (it : Int × Int) : Option Int :=
  match s.pages it.1 with
  | some (BPage.leaf p) => some (p.KeyAt it.2)
  | _ => none

/-- Insert a list of integer keys in order with value = RID(key), as the
InsertFromFile test harness does. -/
def insertAll (cfg : Cfg) (s : Store) (ks : List Int) : Store :=
  ks.foldl (fun acc k => ((BPlusTree.Insert cfg acc k k 20).map Prod.fst).getD acc) s

/-- The scenario configuration of the spec (leaf_max = 3, internal_max = 4). -/
def cfgS5 : Cfg :=
  { leafMax := 3, internalMax := 4 }

/-- The tree of spec scenario S5: insert 10, 20, 30, 40, 50 with the S5
configuration. -/
def demoTreeS5 : Store :=
  insertAll cfgS5 emptyStore [10, 20, 30, 40, 50]

/-- A one-key tree used to exercise Remove. -/
def demoTreeC1 : Store :=
  insertAll cfgS5 emptyStore [7]

/-- An internal root page that is not insert-safe: size = max = 2, children
page 1 (keys below 20) and page 2 (keys from 20 on). -/
def cexC5Root : InternalPage :=
  { size := 2, maxSize := 2, arr := fun i => if i = 1 then (20, 2) else (0, 1) }

/-- An insert-safe leaf (size 1, max 3) holding the single entry (5, 5). -/
def cexC5Leaf : LeafPage :=
  { size := 1, maxSize := 3, nextPageId := 2, arr := fun i => if i = 0 then (5, 5) else (0, 0) }

/-- The right sibling leaf holding the single entry (20, 20). -/
def cexC5Leaf2 : LeafPage :=
  { size := 1, maxSize := 3, nextPageId := INVALID_PAGE_ID
  , arr := fun i => if i = 0 then (20, 20) else (0, 0) }

/-- A two-level tree whose root is not insert-safe (internal, size = max =
2) while its left child leaf (size 1, max 3) is insert-safe: descending into
that child crabs the ancestors away but cannot release the header guard. -/
def cexC5Store : Store :=
  { rootPageId := 0
  , pages := fun pid =>
      if pid = 0 then some (BPage.internal cexC5Root)
      else if pid = 1 then some (BPage.leaf cexC5Leaf)
      else if pid = 2 then some (BPage.leaf cexC5Leaf2)
      else none
  , nextFresh := 3 }

/-- A full leaf (size = max = 3) inside a one-page store, used to exercise
the leaf-split block. -/
def c6Page : LeafPage :=
  { size := 3, maxSize := 3, nextPageId := 9
  , arr := fun i => if i = 0 then (1, 1) else if i = 1 then (2, 2) else if i = 2 then (3, 3) else (0, 0) }

/-- Store holding only c6Page at page id 0. -/
def c6Store : Store :=
  { rootPageId := 0, pages := fun pid => if pid = 0 then some (BPage.leaf c6Page) else none
  , nextFresh := 1 }

/-! ## Well-formedness invariant for claims C4 and C8 -/

/-- Lower bound check: none means minus infinity, some a means a <= k
(child ranges are inclusive below, matching the equal-goes-right routing of
the internal binary search). -/
def lowOk : Option Int → Int → Prop
  | none, _ => True
  | some a, k => a ≤ k

/-- Upper bound check: none means plus infinity, some b means k < b. -/
def highOk : Option Int → Int → Prop
  | none, _ => True
  | some b, k => k < b

/-- The lower bound of the subtree under child i of an internal page whose
own lower bound is lo: slot 0 inherits lo, slot i >= 1 starts at key i. -/
def childLow (q : InternalPage) (lo : Option Int) (i : Int) : Option Int :=
  if i = 0 then lo else some (q.KeyAt i)

/-- The upper bound of the subtree under child i of an internal page whose
own upper bound is hi: the last child inherits hi, others end below
key (i+1). -/
def childHigh (q : InternalPage) (hi : Option Int) (i : Int) : Option Int :=
  if i = q.size - 1 then hi else some (q.KeyAt (i + 1))

/-- Flatten a family of page-id lists indexed by child slot 0 .. n-1. -/
def idsFlat (idf : Int → List Int) (n : Int) : List Int :=
  ((List.range n.toNat).map (fun m => idf (Int.ofNat m))).flatten

/-- Well-formed B+ subtree in a store: pid holds a page of the right kind,
sizes are within the post-operation bounds the insert engine maintains,
keys are strictly ascending, all keys lie in [lo, hi), children partition
the range by the separator keys, and all subtrees have the same depth.
`ids` collects the page ids of the subtree (pid first). -/
inductive TreeWF (cfg : Cfg) (s : Store) : Int → Option Int → Option Int → Nat → List Int → Prop where
  | leaf (pid : Int) (lo hi : Option Int) (p : LeafPage)
      (hpage : s.pages pid = some (BPage.leaf p))
      (hmax : p.maxSize = cfg.leafMax)
      (hsz1 : 1 ≤ p.size) (hsz2 : p.size ≤ cfg.leafMax - 1)
      (hsorted : ∀ i j, 0 ≤ i → i < j → j < p.size → p.KeyAt i < p.KeyAt j)
      (hbounds : ∀ i, 0 ≤ i → i < p.size → lowOk lo (p.KeyAt i) ∧ highOk hi (p.KeyAt i)) :
      TreeWF cfg s pid lo hi 0 [pid]
  | internal (pid : Int) (lo hi : Option Int) (q : InternalPage) (d : Nat) (idf : Int → List Int)
      (hpage : s.pages pid = some (BPage.internal q))
      (hmax : q.maxSize = cfg.internalMax)
      (hsz1 : 1 ≤ q.size) (hsz2 : q.size ≤ cfg.internalMax)
      (hsorted : ∀ i j, 1 ≤ i → i < j → j < q.size → q.KeyAt i < q.KeyAt j)
      (hkeys : ∀ i, 1 ≤ i → i < q.size → lowOk lo (q.KeyAt i) ∧ highOk hi (q.KeyAt i))
      (hchild : ∀ i, 0 ≤ i → i < q.size →
        TreeWF cfg s (q.ValueAt i) (childLow q lo i) (childHigh q hi i) d (idf i)) :
      TreeWF cfg s pid lo hi (d + 1) (pid :: idsFlat idf q.size)

/-- A root-to-hole path context: the list is the chain of page ids from the
hole (head) up to the tree's root (last). The head's page itself is not
constrained (it is the hole); every other element is a well-formed internal
page all of whose other children are well-formed subtrees. lo, hi, e are
the bounds and depth expected of whatever fills the hole, and ctxIds are
the page ids of the context (everything except the hole's subtree). -/
inductive SpinePath (cfg : Cfg) (s : Store) : List Int → Option Int → Option Int → Nat → List Int → Prop where
  | root (pid : Int) (e : Nat)
      (hroot : s.rootPageId = pid) :
      SpinePath cfg s [pid] none none e []
  | cons (pid fatherPid : Int) (rest : List Int) (q : InternalPage) (j : Int)
      (flo fhi : Option Int) (e : Nat) (idf : Int → List Int) (ctxIds : List Int)
      (hpage : s.pages fatherPid = some (BPage.internal q))
      (hmax : q.maxSize = cfg.internalMax)
      (hsz1 : 1 ≤ q.size) (hsz2 : q.size ≤ cfg.internalMax)
      (hsorted : ∀ i j, 1 ≤ i → i < j → j < q.size → q.KeyAt i < q.KeyAt j)
      (hkeys : ∀ i, 1 ≤ i → i < q.size → lowOk flo (q.KeyAt i) ∧ highOk fhi (q.KeyAt i))
      (hj0 : 0 ≤ j) (hj1 : j < q.size)
      (hjv : q.ValueAt j = pid)
      (hjids : idf j = [])
      (hsib : ∀ i, 0 ≤ i → i < q.size → i ≠ j →
        TreeWF cfg s (q.ValueAt i) (childLow q flo i) (childHigh q fhi i) e (idf i))
      (htail : SpinePath cfg s (fatherPid :: rest) flo fhi (e + 1) ctxIds) :
      SpinePath cfg s (pid :: fatherPid :: rest) (childLow q flo j) (childHigh q fhi j) e
        (fatherPid :: (idsFlat idf q.size ++ ctxIds))

/-- The subtree reachable from pid contains the pair (k, v) in some leaf
slot, within the given depth fuel. -/
def subtreeHasKV (s : Store) (k v : Int) : Int → Nat → Prop
  | _, 0 => False
  | pid, fuel + 1 =>
    match s.pages pid with
    | some (BPage.leaf p) => ∃ j, 0 ≤ j ∧ j < p.size ∧ p.arr j = (k, v)
    | some (BPage.internal q) => ∃ i, 0 ≤ i ∧ i < q.size ∧ subtreeHasKV s k v (q.ValueAt i) fuel
    | none => False

/-- Keys of a single page are strictly ascending; internal pages over slots
1 .. size-1 (slot 0's key is unused). This is invariant P1/I1 of the spec. -/
def pageSorted : BPage → Prop
  | BPage.leaf p => ∀ i j, 0 ≤ i → i < j → j < p.size → p.KeyAt i < p.KeyAt j
  | BPage.internal q => ∀ i j, 1 ≤ i → i < j → j < q.size → q.KeyAt i < q.KeyAt j

/-- Global invariant of a tree store: either the tree is empty (sentinel
root id, no allocated page), or the root subtree is well formed, its page
ids are distinct and below the allocation counter, and every allocated page
belongs to the tree. -/
def StoreInv (cfg : Cfg) (s : Store) : Prop :=
  (s.rootPageId = INVALID_PAGE_ID ∧ ∀ pid, s.pages pid = none) ∨
  (∃ d ids, TreeWF cfg s s.rootPageId none none d ids ∧ ids.Nodup ∧
    (∀ pid, pid ∈ ids → 0 ≤ pid ∧ pid < s.nextFresh) ∧
    (∀ pid page, s.pages pid = some page → pid ∈ ids))

/-- Valid construction parameters: both fan-outs at least 2 (a leaf of max
size 1 could not split into two nonempty leaves, and a root-growth writes an
internal page of size 2). -/
def CfgOk (cfg : Cfg) : Prop :=
  2 ≤ cfg.leafMax ∧ 2 ≤ cfg.internalMax

/-- Stores reachable from the freshly constructed (empty) tree by Insert
calls. -/
inductive Reachable (cfg : Cfg) : Store → Prop where
  | empty : Reachable cfg emptyStore
  | insert (s s' : Store) (k v : Int) (fuel : Nat) (b : Bool)
      (hr : Reachable cfg s)
      (hstep : BPlusTree.Insert cfg s k v fuel = some (s', b)) : Reachable cfg s'

/-- The combined logical child sequence of an internal page after inserting
the pair (key, rightChild) at position pos (all slots from pos on shift up
one): the abstract result that both the in-place branch and the three split
branches of Insert_Up realize. -/
def insSeq (q : InternalPage) (pos : Int) (key rightChild : Int) : Int → Int × Int :=
  fun i => if i < pos then q.arr i else if i = pos then (key, rightChild) else q.arr (i - 1)

/-- Strict lower bound check: none means minus infinity, some a means a < k.
Separator keys promoted by splits are strictly above the lower bound of the
node they are inserted into, which keeps the father's keys strictly
ascending. -/
def lowStrict : Option Int → Int → Prop
  | none, _ => True
  | some a, k => a < k

/-- The leaf page produced by the non-duplicate branch of BPlusTree::Insert
before the possible split: IncreaseSize(1), shift the entries above slot_num
up by one, then SetAt(slot_num + 1, key, value). `slot1` is slot_num + 1. -/
def leafInsertResult (p : LeafPage) (slot1 key value : Int) : LeafPage :=
  (leafShiftLoop (p.IncreaseSize 1) slot1 (p.IncreaseSize 1).size
    ((p.IncreaseSize 1).size - slot1).toNat).SetAt slot1 key value

/-- The (father, new_father) pair built by the three split branches of
BPlusTree::Insert_Up before father is shrunk to GetMinSize; `slot` is the
insertion position BinaryFind(father, key) + 1. The three cases are the
insertion position lying left of, at, or right of the cut GetMinSize. -/
def insertUpSplitPair (cfg : Cfg) (father : InternalPage) (key rightChild slot : Int) :
    InternalPage × InternalPage :=
  let change := father.GetMinSize
  let newSize := father.maxSize + 1 - change
  if slot < change then
    let nf := (InternalPage.Init cfg.internalMax).SetSize newSize
    let nf1 := internalCopyLoop nf father change 1 change (father.size - change).toNat
    let nf2 := (nf1.SetKeyAt 0 (father.KeyAt (change - 1))).SetValueAt 0
        (father.ValueAt (change - 1))
    let fa1 := internalShiftUpLoop father slot change (change - slot + 1).toNat
    let fa2 := (fa1.SetKeyAt slot key).SetValueAt slot rightChild
    (fa2, nf2)
  else if slot = change then
    let nf := (InternalPage.Init cfg.internalMax).SetSize newSize
    let nf1 := internalCopyLoop nf father change 1 change (father.size - change).toNat
    let nf2 := (nf1.SetKeyAt 0 key).SetValueAt 0 rightChild
    (father, nf2)
  else
    let nf := (InternalPage.Init cfg.internalMax).SetSize newSize
    let nf1 := internalCopyLoop nf father change 0 change (father.size - change).toNat
    let slot1 := slot - change
    let nf2 := internalShiftUpLoop nf1 slot1 nf1.size (nf1.size - slot1 + 1).toNat
    let nf3 := (nf2.SetKeyAt slot1 key).SetValueAt slot1 rightChild
    (father, nf3)

/-- Lower bound of the subtree under slot i of the abstract inserted child
sequence insSeq q pos key rc (q extended by one slot). -/
def insChildLow (q : InternalPage) (pos key rc : Int) (flo : Option Int) (i : Int) : Option Int :=
  if i = 0 then flo else some (insSeq q pos key rc i).1

/-- Upper bound of the subtree under slot i of the abstract inserted child
sequence (the extended sequence has q.size + 1 slots, the last at index
q.size). -/
def insChildHigh (q : InternalPage) (pos key rc : Int) (fhi : Option Int) (i : Int) : Option Int :=
  if i = q.size then fhi else some (insSeq q pos key rc (i + 1)).1

/-! ## Basic lemmas about the comparator and page primitives -/

theorem comparator_eq_one_iff (a b : Int) : comparator_ a b = 1 ↔ b < a := by
  unfold comparator_
  split_ifs <;> simp <;> omega

theorem comparator_ne_one_iff (a b : Int) : comparator_ a b ≠ 1 ↔ a ≤ b := by
  unfold comparator_
  split_ifs <;> simp <;> omega

theorem comparator_eq_zero_iff (a b : Int) : comparator_ a b = 0 ↔ a = b := by
  unfold comparator_
  split_ifs <;> simp <;> omega

theorem LeafPage.SetAt_size (p : LeafPage) (i : Int) (k : Int) (v : Int) :
    (p.SetAt i k v).size = p.size := by
  unfold LeafPage.SetAt
  split <;> rfl

theorem LeafPage.SetAt_maxSize (p : LeafPage) (i : Int) (k : Int) (v : Int) :
    (p.SetAt i k v).maxSize = p.maxSize := by
  unfold LeafPage.SetAt
  split <;> rfl

theorem LeafPage.SetAt_nextPageId (p : LeafPage) (i : Int) (k : Int) (v : Int) :
    (p.SetAt i k v).nextPageId = p.nextPageId := by
  unfold LeafPage.SetAt
  split <;> rfl

theorem LeafPage.SetAt_arr_ne (p : LeafPage) (i : Int) (k : Int) (v : Int) (j : Int)
    (hj : j ≠ i) : (p.SetAt i k v).arr j = p.arr j := by
  unfold LeafPage.SetAt
  split
  · simp [Function.update_noteq hj]
  · rfl

theorem LeafPage.SetAt_arr_self (p : LeafPage) (i : Int) (k : Int) (v : Int)
    (h0 : 0 ≤ i) (h1 : i < p.size) : (p.SetAt i k v).arr i = (k, v) := by
  unfold LeafPage.SetAt
  rw [if_pos ⟨h0, h1⟩]
  simp

theorem LeafPage.SetAt_oob (p : LeafPage) (i : Int) (k : Int) (v : Int)
    (h : i < 0 ∨ p.size ≤ i) : p.SetAt i k v = p := by
  unfold LeafPage.SetAt
  rw [if_neg]
  omega

/-! ## The binary-search loop -/

theorem bfLoop_bounds (keyAt : Int → Int) (key : Int) :
    ∀ (fuel : Nat) (l r : Int), (r - l).toNat ≤ fuel → l ≤ r →
      l ≤ bfLoop keyAt key l r fuel ∧ bfLoop keyAt key l r fuel ≤ r := by
  intro fuel
  induction fuel with
  | zero =>
    intro l r hf hlr
    simp only [bfLoop]
    omega
  | succ n ih =>
    intro l r hf hlr
    simp only [bfLoop]
    by_cases hlt : l < r
    · rw [if_pos hlt]
      have hm1 : l + 1 ≤ (l + r + 1) / 2 := by omega
      have hm2 : (l + r + 1) / 2 ≤ r := by omega
      split
      · have h := ih ((l + r + 1) / 2) r (by omega) (by omega)
        omega
      · have h := ih l ((l + r + 1) / 2 - 1) (by omega) (by omega)
        omega
    · rw [if_neg hlt]
      omega

theorem bfLoop_spec (keyAt : Int → Int) (key : Int) :
    ∀ (fuel : Nat) (l r : Int), (r - l).toNat ≤ fuel → l ≤ r →
      (∀ i j, l ≤ i → i < j → j ≤ r → keyAt i < keyAt j) →
      (∀ j, bfLoop keyAt key l r fuel < j → j ≤ r → key < keyAt j) ∧
      (l < bfLoop keyAt key l r fuel → keyAt (bfLoop keyAt key l r fuel) ≤ key) := by
  intro fuel
  induction fuel with
  | zero =>
    intro l r hf hlr hsort
    simp only [bfLoop]
    constructor
    · intro j h1 h2
      omega
    · intro h
      omega
  | succ n ih =>
    intro l r hf hlr hsort
    simp only [bfLoop]
    by_cases hlt : l < r
    · rw [if_pos hlt]
      have hm1 : l + 1 ≤ (l + r + 1) / 2 := by omega
      have hm2 : (l + r + 1) / 2 ≤ r := by omega
      by_cases hc : comparator_ (keyAt ((l + r + 1) / 2)) key ≠ 1
      · rw [if_pos hc]
        have hmono : ∀ i j, (l + r + 1) / 2 ≤ i → i < j → j ≤ r → keyAt i < keyAt j := by
          intro i j hi hij hj
          exact hsort i j (by omega) hij hj
        have hb := bfLoop_bounds keyAt key n ((l + r + 1) / 2) r (by omega) (by omega)
        have h := ih ((l + r + 1) / 2) r (by omega) (by omega) hmono
        refine ⟨h.1, ?_⟩
        intro hlres
        rcases lt_or_eq_of_le hb.1 with hmlt | hmeq
        · exact h.2 hmlt
        · rw [← hmeq]
          exact (comparator_ne_one_iff _ _).mp hc
      · rw [if_neg hc]
        push_neg at hc
        have hkey : key < keyAt ((l + r + 1) / 2) := (comparator_eq_one_iff _ _).mp hc
        have hmono : ∀ i j, l ≤ i → i < j → j ≤ (l + r + 1) / 2 - 1 → keyAt i < keyAt j := by
          intro i j hi hij hj
          exact hsort i j hi hij (by omega)
        have hb := bfLoop_bounds keyAt key n l ((l + r + 1) / 2 - 1) (by omega) (by omega)
        have h := ih l ((l + r + 1) / 2 - 1) (by omega) (by omega) hmono
        refine ⟨?_, h.2⟩
        intro j h1 h2
        by_cases hjm : j ≤ (l + r + 1) / 2 - 1
        · exact h.1 j h1 hjm
        · rcases lt_or_eq_of_le (by omega : (l + r + 1) / 2 ≤ j) with hlt2 | heq
          · exact lt_trans hkey (hsort ((l + r + 1) / 2) j (by omega) hlt2 h2)
          · rw [← heq]
            exact hkey
    · rw [if_neg hlt]
      constructor
      · intro j h1 h2
        omega
      · intro h
        omega

/-- Characterization of the leaf binary search on a sorted leaf: it returns
the greatest slot whose key is at most the target, or -1 when every key is
greater. -/
theorem binaryFindLeaf_spec (p : LeafPage) (key : Int) (hsize : 0 ≤ p.size)
    (hsorted : ∀ i j, 0 ≤ i → i < j → j < p.size → p.KeyAt i < p.KeyAt j) :
    (BPlusTree.BinaryFindLeaf p key = -1 ∧ ∀ i, 0 ≤ i → i < p.size → key < p.KeyAt i) ∨
    (0 ≤ BPlusTree.BinaryFindLeaf p key ∧ BPlusTree.BinaryFindLeaf p key < p.size ∧
      p.KeyAt (BPlusTree.BinaryFindLeaf p key) ≤ key ∧
      ∀ i, BPlusTree.BinaryFindLeaf p key < i → i < p.size → key < p.KeyAt i) := by
  simp only [BPlusTree.BinaryFindLeaf]
  by_cases hsz : p.size = 0
  · left
    constructor
    · rw [hsz]
      norm_num [bfLoop]
    · intro i h1 h2
      omega
  · have hs1 : 1 ≤ p.size := by omega
    have hmono : ∀ i j, (0:Int) ≤ i → i < j → j ≤ p.size - 1 → p.KeyAt i < p.KeyAt j := by
      intro i j h1 h2 h3
      exact hsorted i j h1 h2 (by omega)
    have hb := bfLoop_bounds p.KeyAt key (p.size - 1).toNat 0 (p.size - 1) (by omega) (by omega)
    have hs := bfLoop_spec p.KeyAt key (p.size - 1).toNat 0 (p.size - 1) (by omega) (by omega) hmono
    set x := bfLoop p.KeyAt key 0 (p.size - 1) (p.size - 1).toNat with hx
    by_cases hc : comparator_ (p.KeyAt x) key = 1
    · left
      rw [if_pos ⟨hb.1, hc⟩]
      have hkx : key < p.KeyAt x := (comparator_eq_one_iff _ _).mp hc
      have hx0 : x = 0 := by
        by_contra hne
        have := hs.2 (by omega)
        omega
      refine ⟨rfl, ?_⟩
      intro i h1 h2
      rcases lt_or_eq_of_le h1 with h1' | h1'
      · exact hs.1 i (by omega) (by omega)
      · rw [← h1', ← hx0] at *
        exact hkx
    · right
      rw [if_neg (by tauto)]
      refine ⟨hb.1, by omega, (comparator_ne_one_iff _ _).mp hc, ?_⟩
      intro i h1 h2
      exact hs.1 i h1 (by omega)

/-- The internal binary search never returns a negative slot on a page with
a nonnegative size. -/
theorem binaryFindInternal_nonneg (q : InternalPage) (key : Int) (hsz : 0 ≤ q.size) :
    0 ≤ BPlusTree.BinaryFindInternal q key := by
  simp only [BPlusTree.BinaryFindInternal]
  by_cases hs2 : 2 ≤ q.size
  · have hb := bfLoop_bounds q.KeyAt key (q.size - 1 - 1).toNat 1 (q.size - 1) (by omega) (by omega)
    split
    · omega
    · omega
  · have hf : (q.size - 1 - 1).toNat = 0 := by omega
    rw [hf]
    simp only [bfLoop]
    split
    · omega
    · omega

/-! ## Claim C7: leaf binary search returns the greatest slot with key at
most the target -/

/-- C7: for every leaf page whose keys are strictly ascending (and whose
size is a valid count) and every target key, BinaryFind on the leaf returns
the largest slot i with 0 <= i < size whose key is <= the target, and -1
when no such slot exists (in particular on an empty leaf). -/
theorem C7_leaf_binary_find_greatest_le (p : LeafPage) (key : Int)
    (hsize : 0 ≤ p.size)
    (hsorted : ∀ i j, 0 ≤ i → i < j → j < p.size → p.KeyAt i < p.KeyAt j) :
    (BPlusTree.BinaryFindLeaf p key = -1 ∧ ∀ i, 0 ≤ i → i < p.size → key < p.KeyAt i) ∨
    (0 ≤ BPlusTree.BinaryFindLeaf p key ∧ BPlusTree.BinaryFindLeaf p key < p.size ∧
      p.KeyAt (BPlusTree.BinaryFindLeaf p key) ≤ key ∧
      ∀ i, BPlusTree.BinaryFindLeaf p key < i → i < p.size → key < p.KeyAt i) :=
  binaryFindLeaf_spec p key hsize hsorted

/-- Witness for C7 at the concrete full leaf (1, 2, 3) and target 2. -/
theorem C7_witness :
    0 ≤ c6Page.size ∧
    ((BPlusTree.BinaryFindLeaf c6Page 2 = -1 ∧ ∀ i, 0 ≤ i → i < c6Page.size → 2 < c6Page.KeyAt i) ∨
      (0 ≤ BPlusTree.BinaryFindLeaf c6Page 2 ∧ BPlusTree.BinaryFindLeaf c6Page 2 < c6Page.size ∧
        c6Page.KeyAt (BPlusTree.BinaryFindLeaf c6Page 2) ≤ 2 ∧
        ∀ i, BPlusTree.BinaryFindLeaf c6Page 2 < i → i < c6Page.size → 2 < c6Page.KeyAt i)) :=
  ⟨by decide, C7_leaf_binary_find_greatest_le c6Page 2 (by decide) (by
    intro i j h1 h2 h3
    have h3' : j < 3 := h3
    have h1' : 0 ≤ i := h1
    have hi3 : i < 3 := by omega
    interval_cases i <;> interval_cases j <;> decide)⟩

/-! ## Claim C10: internal binary search never returns -1 -/

/-- C10: for every internal page (with a valid, nonnegative size) and every
target key, the internal BinaryFind returns a slot >= 0 and in particular
never -1, so the error branches guarded by slot == -1 in GetValue and
Begin(key) cannot be taken. -/
theorem C10_internal_binary_find_nonneg (q : InternalPage) (key : Int) (hsz : 0 ≤ q.size) :
    0 ≤ BPlusTree.BinaryFindInternal q key ∧ BPlusTree.BinaryFindInternal q key ≠ -1 := by
  have h := binaryFindInternal_nonneg q key hsz
  exact ⟨h, by omega⟩

/-- Witness for C10 at the concrete root internal page and target 7. -/
theorem C10_witness :
    0 ≤ cexC5Root.size ∧
    (0 ≤ BPlusTree.BinaryFindInternal cexC5Root 7 ∧ BPlusTree.BinaryFindInternal cexC5Root 7 ≠ -1) :=
  ⟨by decide, C10_internal_binary_find_nonneg cexC5Root 7 (by decide)⟩

/-! ## Claim C9: LeafPage::SetAt out of [0, size) is a no-op -/

/-- C9: SetAt with an index outside [0, size) leaves the leaf page entirely
unchanged; in particular the first iteration of Insert's entry-shift loop,
which calls SetAt at index = the just-increased size, has no effect. -/
theorem C9_leaf_setat_out_of_range_noop :
    (∀ (p : LeafPage) (index k v : Int), index < 0 ∨ p.size ≤ index → p.SetAt index k v = p) ∧
    (∀ (p : LeafPage) (k v : Int), p.SetAt p.size k v = p) := by
  constructor
  · intro p index k v h
    exact p.SetAt_oob index k v h
  · intro p k v
    exact p.SetAt_oob p.size k v (Or.inr le_rfl)

/-- Witness for C9 at the concrete leaf (1, 2, 3): writes at index 5 and at
index = size are no-ops. -/
theorem C9_witness :
    (c6Page.size ≤ 5 ∧ c6Page.SetAt 5 9 9 = c6Page) ∧ c6Page.SetAt c6Page.size 8 8 = c6Page :=
  ⟨⟨by decide, C9_leaf_setat_out_of_range_noop.1 c6Page 5 9 9 (Or.inr (by decide))⟩,
    C9_leaf_setat_out_of_range_noop.2 c6Page 8 8⟩

/-! ## Claim C1: Remove is an unimplemented stub -/

/-- C1 (supporting theorem for the code bug): Remove's body is empty, so on
the concrete one-key tree {7} removing 7 leaves the store untouched and a
subsequent GetValue(7) still reports a hit with value 7, contradicting both
the spec's entry contract for remove and the function's own documentation
comment in the source. -/
theorem C1_remove_is_a_stub :
    BPlusTree.Remove demoTreeC1 7 = demoTreeC1 ∧
    BPlusTree.GetValue (BPlusTree.Remove demoTreeC1 7) 7 20 = some (true, [7]) :=
  ⟨rfl, by decide⟩

/-! ## Claim C2: Begin(key) -/

/-- C2 counterexample: after inserting 10, 20, 30, 40, 50 (leaf_max 3,
internal_max 4, the configuration of spec scenario S5), Begin(25) is the
iterator (page 0, slot 1) whose key is 20 — the largest stored key <= 25 in
the leaf reached by the descent — and not the iterator of key 30 as the
claim states. -/
theorem C2_counterexample :
    BPlusTree.BeginKey demoTreeS5 25 20 = some (0, 1) ∧
    iterKeyOf demoTreeS5 (0, 1) = some 20 ∧
    (BPlusTree.BeginKey demoTreeS5 25 20).bind (fun it => iterKeyOf demoTreeS5 it) ≠ some 30 :=
  ⟨by decide, by decide, by decide⟩

/-- C2 amended: when the keyed-iterator descent reaches a leaf page (with a
valid size and strictly ascending keys), Begin(key) returns the position of
the largest key that is <= the target within that leaf, and End() when every
key of that leaf is greater than the target. -/
theorem C2_amended_begin_key_greatest_le (s : Store) (key pid : Int) (p : LeafPage) (fuel : Nat)
    (hp : s.pages pid = some (BPage.leaf p))
    (hsize : 0 ≤ p.size)
    (hsorted : ∀ i j, 0 ≤ i → i < j → j < p.size → p.KeyAt i < p.KeyAt j) :
    (∃ slot, BPlusTree.beginKeyLoop s key pid (fuel + 1) = some (pid, slot) ∧
      0 ≤ slot ∧ slot < p.size ∧ p.KeyAt slot ≤ key ∧
      ∀ j, slot < j → j < p.size → key < p.KeyAt j) ∨
    (BPlusTree.beginKeyLoop s key pid (fuel + 1) = some (INVALID_PAGE_ID, -1) ∧
      ∀ j, 0 ≤ j → j < p.size → key < p.KeyAt j) := by
  have hchar := binaryFindLeaf_spec p key hsize hsorted
  simp only [BPlusTree.beginKeyLoop, hp]
  rcases hchar with ⟨hm1, hall⟩ | ⟨h0, h1, h2, h3⟩
  · right
    rw [hm1]
    norm_num
    exact hall
  · left
    refine ⟨BPlusTree.BinaryFindLeaf p key, ?_, h0, h1, h2, h3⟩
    rw [if_pos (by omega)]

/-- Witness for the amended C2 at the concrete leaf (5) of the two-level
store and target 7. -/
theorem C2_amended_witness :
    0 ≤ cexC5Leaf.size ∧
    ((∃ slot, BPlusTree.beginKeyLoop cexC5Store 7 1 (0 + 1) = some (1, slot) ∧
        0 ≤ slot ∧ slot < cexC5Leaf.size ∧ cexC5Leaf.KeyAt slot ≤ 7 ∧
        ∀ j, slot < j → j < cexC5Leaf.size → 7 < cexC5Leaf.KeyAt j) ∨
      (BPlusTree.beginKeyLoop cexC5Store 7 1 (0 + 1) = some (INVALID_PAGE_ID, -1) ∧
        ∀ j, 0 ≤ j → j < cexC5Leaf.size → 7 < cexC5Leaf.KeyAt j)) :=
  ⟨by decide, C2_amended_begin_key_greatest_le cexC5Store 7 1 cexC5Leaf 0 rfl (by decide) (by
    intro i j h1 h2 h3
    have h3' : j < 1 := h3
    omega)⟩

/-! ## Claim C5: crabbing during the insert descent -/

/-- C5 counterexample: inserting key 7 into the two-level tree whose root is
not insert-safe but whose left leaf is, the descent records a step with
safe = true whose Context still holds the header write guard — the in-loop
crab releases ancestor guards only, never the header guard. -/
theorem C5_counterexample :
    ∃ tr cf leafPid st, BPlusTree.insertDescent cexC5Store 7 10 = some (tr, cf, leafPid) ∧
      st ∈ tr ∧ st.safe = true ∧ st.ctx.header = true := by
  refine ⟨[⟨0, false, ⟨true, [0]⟩⟩, ⟨1, true, ⟨true, [1]⟩⟩], ⟨true, [1]⟩, 1,
    ⟨1, true, ⟨true, [1]⟩⟩, by decide, ?_, rfl, rfl⟩
  simp

/-- Helper: along the insert descent loop, the header flag of the Context is
never changed, and at every step whose newly latched child is insert-safe
the write set is crabbed down to exactly that child. -/
theorem insertDescentLoop_ctx_spec (s : Store) (key : Int) :
    ∀ (fuel : Nat) (ctx : Ctx) (cur : Int) (tr : List DStep) (cf : Ctx) (leafPid : Int),
      BPlusTree.insertDescentLoop s key ctx cur fuel = some (tr, cf, leafPid) →
      ∀ st ∈ tr, (st.safe = true → st.ctx.writeSet = [st.pid]) ∧ st.ctx.header = ctx.header := by
  intro fuel
  induction fuel with
  | zero =>
    intro ctx cur tr cf leafPid h
    simp [BPlusTree.insertDescentLoop] at h
  | succ n ih =>
    intro ctx cur tr cf leafPid h
    simp only [BPlusTree.insertDescentLoop] at h
    rcases hpg : s.pages cur with _ | pg
    · rw [hpg] at h
      simp at h
    · rw [hpg] at h
      rcases pg with p | q
      · simp at h
        obtain ⟨htr, _, _⟩ := h
        subst htr
        intro st hst
        simp at hst
      · simp only at h
        rcases hch : s.pages (q.ValueAt (BPlusTree.BinaryFindInternal q key)) with _ | child
        · rw [hch] at h
          simp at h
        · rw [hch] at h
          simp only at h
          rcases hrec : BPlusTree.insertDescentLoop s key
              (if BPlusTree.Safe_Insert child then
                ⟨ctx.header, [q.ValueAt (BPlusTree.BinaryFindInternal q key)]⟩
              else ⟨ctx.header, ctx.writeSet ++ [q.ValueAt (BPlusTree.BinaryFindInternal q key)]⟩)
              (q.ValueAt (BPlusTree.BinaryFindInternal q key)) n with _ | res
          · rw [hrec] at h
            simp at h
          · rw [hrec] at h
            obtain ⟨tr1, cf1, leafPid1⟩ := res
            simp at h
            obtain ⟨htr, _, _⟩ := h
            have hihctx : (if BPlusTree.Safe_Insert child then
                (⟨ctx.header, [q.ValueAt (BPlusTree.BinaryFindInternal q key)]⟩ : Ctx)
              else ⟨ctx.header, ctx.writeSet ++ [q.ValueAt (BPlusTree.BinaryFindInternal q key)]⟩).header
                = ctx.header := by
              split <;> rfl
            subst htr
            intro st hst
            rcases List.mem_cons.mp hst with hst1 | hst2
            · subst hst1
              constructor
              · intro hsafe
                simp only
                rw [if_pos hsafe]
              · simp only
                exact hihctx
            · have := ih _ _ _ _ _ hrec st hst2
              rw [hihctx] at this
              exact this

/-- C5 amended: during the descent phase of Insert, whenever the newly
write-latched node is insert-safe, the Context immediately afterwards holds
no write guards on any ancestor (write_set_ is exactly that node); the
header page write guard, however, is not touched by the in-loop crab — it is
held after every step exactly when the root was not insert-safe. -/
theorem C5_amended_crab_releases_ancestors_only (s : Store) (key : Int) (fuel : Nat)
    (tr : List DStep) (cf : Ctx) (leafPid : Int) (rootPage : BPage)
    (hroot : s.pages s.rootPageId = some rootPage)
    (h : BPlusTree.insertDescent s key fuel = some (tr, cf, leafPid)) :
    ∀ st ∈ tr, (st.safe = true → st.ctx.writeSet = [st.pid]) ∧
      st.ctx.header = !BPlusTree.Safe_Insert rootPage := by
  simp only [BPlusTree.insertDescent] at h
  split at h
  · simp at h
  · next rp hrp =>
    rw [hrp] at hroot
    injection hroot with hroot
    subst hroot
    split at h
    · simp at h
    · next tr1 cf1 lp1 hloop =>
      simp at h
      obtain ⟨htr, _, _⟩ := h
      subst htr
      intro st hst
      rcases List.mem_cons.mp hst with h1 | h2
      · subst h1
        refine ⟨?_, ?_⟩
        · intro hsafe
          simp only at hsafe ⊢
          cases hsf : BPlusTree.Safe_Insert rp
          · rw [hsf] at hsafe
            cases hsafe
          · simp
        · simp only
          cases hsf : BPlusTree.Safe_Insert rp <;> simp
      · have hspec := insertDescentLoop_ctx_spec s key fuel _ _ _ _ _ hloop st h2
        refine ⟨hspec.1, ?_⟩
        rw [hspec.2]
        cases hsf : BPlusTree.Safe_Insert rp <;> simp

/-- Witness for the amended C5 on the concrete two-level tree: both steps of
the descent for key 7 satisfy the amended property. -/
theorem C5_amended_witness :
    cexC5Store.pages cexC5Store.rootPageId = some (BPage.internal cexC5Root) ∧
    ∀ st ∈ [(⟨0, false, ⟨true, [0]⟩⟩ : DStep), ⟨1, true, ⟨true, [1]⟩⟩],
      (st.safe = true → st.ctx.writeSet = [st.pid]) ∧
      st.ctx.header = !BPlusTree.Safe_Insert (BPage.internal cexC5Root) :=
  ⟨rfl, C5_amended_crab_releases_ancestors_only cexC5Store 7 10 _ ⟨true, [1]⟩ 1
    (BPage.internal cexC5Root) rfl (by decide)⟩

/-! ## Claim C3: Insert returns false exactly on duplicates, leaving the
tree unchanged -/

/-- Helper: the insert descent and GetValue's read descent visit the same
pages (they run the same binary searches), so when the insert descent ends
at a leaf, GetValue computes exactly the leaf-level hit test of that leaf.
Internal sizes must be nonnegative so that GetValue's slot == -1 error
branch is not taken (claim C10). -/
theorem insertDescentLoop_getValue_align (s : Store) (key : Int)
    (hnn : ∀ pid q, s.pages pid = some (BPage.internal q) → 0 ≤ q.size) :
    ∀ (fuel : Nat) (ctx : Ctx) (cur : Int) (tr : List DStep) (cf : Ctx) (leafPid : Int),
      BPlusTree.insertDescentLoop s key ctx cur fuel = some (tr, cf, leafPid) →
      ∃ p, s.pages leafPid = some (BPage.leaf p) ∧
        BPlusTree.getValueLoop s key cur fuel =
          some (if BPlusTree.BinaryFindLeaf p key ≠ -1 ∧
              comparator_ (p.KeyAt (BPlusTree.BinaryFindLeaf p key)) key = 0 then
            (true, [p.ValueAt (BPlusTree.BinaryFindLeaf p key)])
          else (false, [])) := by
  intro fuel
  induction fuel with
  | zero =>
    intro ctx cur tr cf leafPid h
    simp [BPlusTree.insertDescentLoop] at h
  | succ n ih =>
    intro ctx cur tr cf leafPid h
    simp only [BPlusTree.insertDescentLoop] at h
    rcases hpg : s.pages cur with _ | pg
    · rw [hpg] at h
      simp at h
    · rw [hpg] at h
      rcases pg with p | q
      · simp at h
        obtain ⟨_, _, hlp⟩ := h
        refine ⟨p, ?_, ?_⟩
        · rw [← hlp]
          exact hpg
        · simp only [BPlusTree.getValueLoop, hpg]
          split <;> rfl
      · simp only at h
        rcases hch : s.pages (q.ValueAt (BPlusTree.BinaryFindInternal q key)) with _ | child
        · rw [hch] at h
          simp at h
        · rw [hch] at h
          simp only at h
          rcases hrec : BPlusTree.insertDescentLoop s key
              (if BPlusTree.Safe_Insert child then
                ⟨ctx.header, [q.ValueAt (BPlusTree.BinaryFindInternal q key)]⟩
              else ⟨ctx.header, ctx.writeSet ++ [q.ValueAt (BPlusTree.BinaryFindInternal q key)]⟩)
              (q.ValueAt (BPlusTree.BinaryFindInternal q key)) n with _ | res
          · rw [hrec] at h
            simp at h
          · rw [hrec] at h
            obtain ⟨tr1, cf1, lp1⟩ := res
            simp at h
            obtain ⟨_, _, hlp⟩ := h
            obtain ⟨p, hp, hgv⟩ := ih _ _ _ _ _ hrec
            refine ⟨p, ?_, ?_⟩
            · rw [← hlp]
              exact hp
            · have hsz := hnn cur q hpg
              have hslot := binaryFindInternal_nonneg q key hsz
              simp only [BPlusTree.getValueLoop, hpg]
              rw [if_neg (by omega)]
              exact hgv

/-- Helper: the full-descent version of the alignment, phrased against
GetValue on a non-empty tree. -/
theorem insertDescent_getValue_align (s : Store) (key : Int) (fuel : Nat)
    (tr : List DStep) (cf : Ctx) (leafPid : Int)
    (hroot : s.rootPageId ≠ INVALID_PAGE_ID)
    (hnn : ∀ pid q, s.pages pid = some (BPage.internal q) → 0 ≤ q.size)
    (h : BPlusTree.insertDescent s key fuel = some (tr, cf, leafPid)) :
    ∃ p, s.pages leafPid = some (BPage.leaf p) ∧
      BPlusTree.GetValue s key fuel =
        some (if BPlusTree.BinaryFindLeaf p key ≠ -1 ∧
            comparator_ (p.KeyAt (BPlusTree.BinaryFindLeaf p key)) key = 0 then
          (true, [p.ValueAt (BPlusTree.BinaryFindLeaf p key)])
        else (false, [])) := by
  simp only [BPlusTree.insertDescent] at h
  split at h
  · simp at h
  · next rp hrp =>
    split at h
    · simp at h
    · next tr1 cf1 lp1 hloop =>
      simp at h
      obtain ⟨_, _, hlp⟩ := h
      obtain ⟨p, hp, hgv⟩ := insertDescentLoop_getValue_align s key hnn fuel _ _ _ _ _ hloop
      refine ⟨p, ?_, ?_⟩
      · rw [← hlp]
        exact hp
      · unfold BPlusTree.GetValue
        rw [if_neg hroot]
        exact hgv

/-- C3: Insert returns false if and only if the key is already present (as
observed by GetValue on the pre-state), and on a false return the whole
store — every page, the header's root id and the allocation counter — is
unchanged; in every other successful case it returns true. Internal page
sizes are assumed nonnegative (they are counts). -/
theorem C3_insert_false_iff_duplicate_and_noop (cfg : Cfg) (s : Store) (key value : Int)
    (fuel : Nat) (s' : Store) (b : Bool)
    (hnn : ∀ pid q, s.pages pid = some (BPage.internal q) → 0 ≤ q.size)
    (h : BPlusTree.Insert cfg s key value fuel = some (s', b)) :
    (b = false ↔ ∃ vs, BPlusTree.GetValue s key fuel = some (true, vs)) ∧
    (b = false → s' = s) := by
  unfold BPlusTree.Insert at h
  by_cases hroot : s.rootPageId = INVALID_PAGE_ID
  · rw [if_pos hroot] at h
    simp at h
    obtain ⟨-, hb⟩ := h
    constructor
    · constructor
      · intro hb'
        rw [hb'] at hb
        cases hb
      · intro ⟨vs, hvs⟩
        unfold BPlusTree.GetValue at hvs
        rw [if_pos hroot] at hvs
        simp at hvs
    · intro hb'
      rw [hb'] at hb
      cases hb
  · rw [if_neg hroot] at h
    split at h
    · simp at h
    · next tr ctx leafPid hdesc =>
      obtain ⟨p, hp, hgv⟩ := insertDescent_getValue_align s key fuel tr ctx leafPid hroot hnn hdesc
      rw [hgv]
      clear hgv
      split at h
      next x hx =>
        rw [hp] at hx
        cases hx
        simp only [] at h
        split at h
        · next hdup =>
          injection h with h'
          injection h' with h1 h2
          cases h2
          cases h1
          rw [if_pos hdup]
          refine ⟨?_, fun _ => rfl⟩
          constructor
          · intro _
            exact ⟨[p.ValueAt (BPlusTree.BinaryFindLeaf p key)], rfl⟩
          · intro _
            rfl
        · next hdup =>
          rw [if_neg hdup]
          have hb : b = true := by
            split at h
            · injection h with h'
              injection h' with _ hb2
              exact hb2.symm
            · split at h
              · cases h
              · injection h with h'
                injection h' with _ hb2
                exact hb2.symm
          subst hb
          constructor
          · constructor
            · intro hcontra
              cases hcontra
            · intro hex
              obtain ⟨vs, hvs⟩ := hex
              injection hvs with hvs'
              injection hvs' with hb2 hvs2
              cases hb2
          · intro hcontra
            cases hcontra
      next x hx =>
        exact (hx p hp).elim

/-- Witness for C3: inserting the already-present key 5 into the concrete
two-level tree returns false, the duplicate is visible to GetValue, and the
store is returned unchanged. -/
theorem C3_witness :
    ((false = false) ↔ ∃ vs, BPlusTree.GetValue cexC5Store 5 10 = some (true, vs)) ∧
    ((false = false) → cexC5Store = cexC5Store) :=
  C3_insert_false_iff_duplicate_and_noop cfgS5 cexC5Store 5 5 10 cexC5Store false
    (by
      intro pid q hq
      simp only [cexC5Store] at hq
      by_cases h0 : pid = 0
      · rw [if_pos h0] at hq
        injection hq with hq'
        injection hq' with hq2
        rw [← hq2]
        decide
      · rw [if_neg h0] at hq
        by_cases h1 : pid = 1
        · rw [if_pos h1] at hq
          simp at hq
        · rw [if_neg h1] at hq
          by_cases h2 : pid = 2
          · rw [if_pos h2] at hq
            simp at hq
          · rw [if_neg h2] at hq
            exact Option.noConfusion hq)
    (by rfl)

/-! ## Claim C6: leaf split sizes, links and entry movement -/

/-- Characterization of the split copy loop: fields other than the array are
untouched, and the array holds the source entries at offset GetMinSize
wherever the loop wrote (within the destination's size guard), the old
destination content elsewhere. -/
theorem splitCopyLoop_spec (src : LeafPage) :
    ∀ (fuel : Nat) (dst : LeafPage) (i : Int), (src.size - i).toNat ≤ fuel →
      (splitCopyLoop dst src i fuel).size = dst.size ∧
      (splitCopyLoop dst src i fuel).maxSize = dst.maxSize ∧
      (splitCopyLoop dst src i fuel).nextPageId = dst.nextPageId ∧
      ∀ j, (splitCopyLoop dst src i fuel).arr j =
        if i ≤ j + src.GetMinSize ∧ j + src.GetMinSize < src.size ∧ 0 ≤ j ∧ j < dst.size then
          src.arr (j + src.GetMinSize)
        else
          dst.arr j := by
  intro fuel
  induction fuel with
  | zero =>
    intro dst i hf
    have hstop : splitCopyLoop dst src i 0 = dst := rfl
    rw [hstop]
    refine ⟨rfl, rfl, rfl, ?_⟩
    intro j
    rw [if_neg]
    omega
  | succ n ih =>
    intro dst i hf
    have hstep : splitCopyLoop dst src i (n + 1) =
        if i < src.size then
          splitCopyLoop (dst.SetAt (i - src.GetMinSize) (src.KeyAt i) (src.ValueAt i)) src (i + 1) n
        else dst := rfl
    rw [hstep]
    by_cases hlt : i < src.size
    · rw [if_pos hlt]
      obtain ⟨hsz, hmax, hnext, harr⟩ :=
        ih (dst.SetAt (i - src.GetMinSize) (src.KeyAt i) (src.ValueAt i)) (i + 1) (by omega)
      refine ⟨?_, ?_, ?_, ?_⟩
      · rw [hsz, LeafPage.SetAt_size]
      · rw [hmax, LeafPage.SetAt_maxSize]
      · rw [hnext, LeafPage.SetAt_nextPageId]
      · intro j
        rw [harr j, LeafPage.SetAt_size]
        by_cases hj : j = i - src.GetMinSize
        · subst hj
          by_cases hin : 0 ≤ i - src.GetMinSize ∧ i - src.GetMinSize < dst.size
          · rw [if_neg (by omega), if_pos (by omega)]
            have harr2 := dst.SetAt_arr_self (i - src.GetMinSize) (src.KeyAt i) (src.ValueAt i)
              hin.1 hin.2
            rw [harr2]
            have hidx : i - src.GetMinSize + src.GetMinSize = i := by omega
            rw [hidx]
            rfl
          · rw [if_neg (by omega), if_neg (by omega)]
            rw [dst.SetAt_oob (i - src.GetMinSize) (src.KeyAt i) (src.ValueAt i) (by omega)]
        · rw [dst.SetAt_arr_ne (i - src.GetMinSize) (src.KeyAt i) (src.ValueAt i) j hj]
          by_cases hcond : i + 1 ≤ j + src.GetMinSize ∧ j + src.GetMinSize < src.size ∧
              0 ≤ j ∧ j < dst.size
          · rw [if_pos hcond, if_pos (by omega)]
          · rw [if_neg hcond, if_neg (by omega)]
    · rw [if_neg hlt]
      refine ⟨rfl, rfl, rfl, ?_⟩
      intro j
      rw [if_neg]
      omega

/-- C6: when an insertion fills a leaf to size == max (>= 2), the split
block allocates a fresh page N, links it between L and L's former next
leaf, moves exactly the upper entries of L to N, and leaves |L| =
ceil(max/2) = GetMinSize and |N| = max - ceil(max/2); both sizes satisfy the
non-root leaf bounds ceil((max-1)/2) = max/2 <= size <= max - 1 of I3. -/
theorem C6_leaf_split (cfg : Cfg) (s : Store) (leafPid : Int) (p : LeafPage)
    (hfull : p.size = p.maxSize) (hmax : 2 ≤ p.maxSize) (hfresh : leafPid ≠ s.nextFresh) :
    ∃ L N,
      (BPlusTree.splitLeafStep cfg s leafPid p).2.1 = s.nextFresh ∧
      (BPlusTree.splitLeafStep cfg s leafPid p).1.pages leafPid = some (BPage.leaf L) ∧
      (BPlusTree.splitLeafStep cfg s leafPid p).1.pages s.nextFresh = some (BPage.leaf N) ∧
      L.size = (p.maxSize + 1) / 2 ∧
      N.size = p.maxSize - (p.maxSize + 1) / 2 ∧
      L.nextPageId = s.nextFresh ∧
      N.nextPageId = p.nextPageId ∧
      (∀ i, 0 ≤ i → i < L.size → L.arr i = p.arr i) ∧
      (∀ i, 0 ≤ i → i < N.size → N.arr i = p.arr (L.size + i)) ∧
      p.maxSize / 2 ≤ L.size ∧ L.size ≤ p.maxSize - 1 ∧
      p.maxSize / 2 ≤ N.size ∧ N.size ≤ p.maxSize - 1 := by
  have hmin : p.GetMinSize = (p.maxSize + 1) / 2 := rfl
  have hcopy := splitCopyLoop_spec (p.SetNextPageId s.nextFresh)
    ((p.SetNextPageId s.nextFresh).size - (p.SetNextPageId s.nextFresh).GetMinSize).toNat
    (((LeafPage.Init cfg.leafMax).SetSize (p.size - p.GetMinSize)).SetNextPageId p.nextPageId)
    (p.SetNextPageId s.nextFresh).GetMinSize le_rfl
  obtain ⟨hsz, hmax2, hnext, harr⟩ := hcopy
  refine ⟨(p.SetNextPageId s.nextFresh).SetSize (p.SetNextPageId s.nextFresh).GetMinSize,
    splitCopyLoop
      (((LeafPage.Init cfg.leafMax).SetSize (p.size - p.GetMinSize)).SetNextPageId p.nextPageId)
      (p.SetNextPageId s.nextFresh)
      (p.SetNextPageId s.nextFresh).GetMinSize
      ((p.SetNextPageId s.nextFresh).size - (p.SetNextPageId s.nextFresh).GetMinSize).toNat,
    rfl, ?_, ?_, ?_, ?_, ?_, ?_, ?_, ?_, ?_, ?_, ?_, ?_⟩
  · show (Function.update (Function.update s.pages leafPid _) s.nextFresh _) leafPid = _
    rw [Function.update_noteq hfresh, Function.update_same]
  · show (Function.update (Function.update s.pages leafPid _) s.nextFresh _) s.nextFresh = _
    rw [Function.update_same]
  · rfl
  · rw [hsz]
    show p.size - p.GetMinSize = _
    rw [hmin, hfull]
  · rfl
  · rw [hnext]
    rfl
  · intro i h0 hi
    rfl
  · intro i h0 hi
    have harr2 : ∀ j, (splitCopyLoop
        (((LeafPage.Init cfg.leafMax).SetSize (p.size - p.GetMinSize)).SetNextPageId p.nextPageId)
        (p.SetNextPageId s.nextFresh)
        (p.SetNextPageId s.nextFresh).GetMinSize
        ((p.SetNextPageId s.nextFresh).size - (p.SetNextPageId s.nextFresh).GetMinSize).toNat).arr j =
        if p.GetMinSize ≤ j + p.GetMinSize ∧ j + p.GetMinSize < p.size ∧ 0 ≤ j ∧
            j < p.size - p.GetMinSize then
          p.arr (j + p.GetMinSize)
        else
          ((0 : Int), (0 : Int)) := harr
    have hi2 : i < p.size - p.GetMinSize := by
      rw [hsz] at hi
      exact hi
    rw [harr2 i, if_pos ⟨by omega, by omega, h0, hi2⟩]
    show p.arr (i + p.GetMinSize) = p.arr (p.GetMinSize + i)
    rw [Int.add_comm]
  · show p.maxSize / 2 ≤ p.GetMinSize
    rw [hmin]
    omega
  · show p.GetMinSize ≤ p.maxSize - 1
    rw [hmin]
    omega
  · rw [hsz]
    show p.maxSize / 2 ≤ p.size - p.GetMinSize
    rw [hmin, hfull]
    omega
  · rw [hsz]
    show p.size - p.GetMinSize ≤ p.maxSize - 1
    rw [hmin, hfull]
    omega

/-- Witness for C6 at the concrete full leaf (1, 2, 3) with max 3 inside a
one-page store. -/
theorem C6_witness :
    c6Page.size = c6Page.maxSize ∧ 2 ≤ c6Page.maxSize ∧ (0 : Int) ≠ c6Store.nextFresh ∧
    ∃ L N,
      (BPlusTree.splitLeafStep cfgS5 c6Store 0 c6Page).2.1 = c6Store.nextFresh ∧
      (BPlusTree.splitLeafStep cfgS5 c6Store 0 c6Page).1.pages 0 = some (BPage.leaf L) ∧
      (BPlusTree.splitLeafStep cfgS5 c6Store 0 c6Page).1.pages c6Store.nextFresh =
        some (BPage.leaf N) ∧
      L.size = (c6Page.maxSize + 1) / 2 ∧
      N.size = c6Page.maxSize - (c6Page.maxSize + 1) / 2 ∧
      L.nextPageId = c6Store.nextFresh ∧
      N.nextPageId = c6Page.nextPageId ∧
      (∀ i, 0 ≤ i → i < L.size → L.arr i = c6Page.arr i) ∧
      (∀ i, 0 ≤ i → i < N.size → N.arr i = c6Page.arr (L.size + i)) ∧
      c6Page.maxSize / 2 ≤ L.size ∧ L.size ≤ c6Page.maxSize - 1 ∧
      c6Page.maxSize / 2 ≤ N.size ∧ N.size ≤ c6Page.maxSize - 1 :=
  ⟨by decide, by decide, by decide,
    C6_leaf_split cfgS5 c6Store 0 c6Page (by decide) (by decide) (by decide)⟩

/-! ## Structural lemmas about the well-formedness invariant -/

theorem idsFlat_mem (idf : Int → List Int) (n : Int) (x : Int) :
    x ∈ idsFlat idf n ↔ ∃ i, 0 ≤ i ∧ i < n ∧ x ∈ idf i := by
  unfold idsFlat
  simp only [List.mem_flatten, List.mem_map, List.mem_range]
  constructor
  · rintro ⟨l, ⟨m, hm, rfl⟩, hx⟩
    refine ⟨Int.ofNat m, by simp only [Int.ofNat_eq_coe]; omega,
      by simp only [Int.ofNat_eq_coe]; omega, hx⟩
  · rintro ⟨i, h0, h1, hx⟩
    refine ⟨idf i, ⟨i.toNat, by omega, ?_⟩, hx⟩
    have hcast : Int.ofNat i.toNat = i := by simp only [Int.ofNat_eq_coe]; omega
    rw [hcast]

theorem treeWF_head (cfg : Cfg) (s : Store) (pid : Int) (lo hi : Option Int) (d : Nat)
    (ids : List Int) (hw : TreeWF cfg s pid lo hi d ids) : ∃ t, ids = pid :: t := by
  cases hw with
  | leaf _ _ _ p hpage => exact ⟨[], rfl⟩
  | internal _ _ _ q d idf hpage => exact ⟨_, rfl⟩

theorem treeWF_self_mem (cfg : Cfg) (s : Store) (pid : Int) (lo hi : Option Int) (d : Nat)
    (ids : List Int) (hw : TreeWF cfg s pid lo hi d ids) : pid ∈ ids := by
  obtain ⟨t, ht⟩ := treeWF_head cfg s pid lo hi d ids hw
  rw [ht]
  exact List.mem_cons_self pid t

theorem treeWF_pages_sorted (cfg : Cfg) (s : Store) :
    ∀ (pid : Int) (lo hi : Option Int) (d : Nat) (ids : List Int),
      TreeWF cfg s pid lo hi d ids →
      ∀ x ∈ ids, ∃ page, s.pages x = some page ∧ pageSorted page := by
  intro pid lo hi d ids hw
  induction hw with
  | leaf pid lo hi p hpage hmax hsz1 hsz2 hsorted hbounds =>
    intro x hx
    rw [List.mem_singleton] at hx
    subst hx
    exact ⟨BPage.leaf p, hpage, hsorted⟩
  | internal pid lo hi q d idf hpage hmax hsz1 hsz2 hsorted hkeys hchild ih =>
    intro x hx
    rcases List.mem_cons.mp hx with hx1 | hx2
    · subst hx1
      exact ⟨BPage.internal q, hpage, hsorted⟩
    · rw [idsFlat_mem] at hx2
      obtain ⟨i, h0, h1, hxin⟩ := hx2
      exact ih i h0 h1 x hxin

theorem treeWF_mem_dom (cfg : Cfg) (s : Store) :
    ∀ (pid : Int) (lo hi : Option Int) (d : Nat) (ids : List Int),
      TreeWF cfg s pid lo hi d ids →
      ∀ x ∈ ids, ∃ page, s.pages x = some page := by
  intro pid lo hi d ids hw x hx
  obtain ⟨page, hp, _⟩ := treeWF_pages_sorted cfg s pid lo hi d ids hw x hx
  exact ⟨page, hp⟩

theorem treeWF_agree (cfg : Cfg) (s s2 : Store) :
    ∀ (pid : Int) (lo hi : Option Int) (d : Nat) (ids : List Int),
      TreeWF cfg s pid lo hi d ids →
      (∀ x ∈ ids, s2.pages x = s.pages x) →
      TreeWF cfg s2 pid lo hi d ids := by
  intro pid lo hi d ids hw
  induction hw with
  | leaf pid lo hi p hpage hmax hsz1 hsz2 hsorted hbounds =>
    intro hagree
    refine TreeWF.leaf pid lo hi p ?_ hmax hsz1 hsz2 hsorted hbounds
    rw [hagree pid (List.mem_singleton_self pid)]
    exact hpage
  | internal pid lo hi q d idf hpage hmax hsz1 hsz2 hsorted hkeys hchild ih =>
    intro hagree
    refine TreeWF.internal pid lo hi q d idf ?_ hmax hsz1 hsz2 hsorted hkeys ?_
    · rw [hagree pid (List.mem_cons_self _ _)]
      exact hpage
    · intro i h0 h1
      refine ih i h0 h1 ?_
      intro x hx
      refine hagree x ?_
      rw [List.mem_cons]
      right
      rw [idsFlat_mem]
      exact ⟨i, h0, h1, hx⟩

theorem spinePath_agree (cfg : Cfg) (s s2 : Store) :
    ∀ (l : List Int) (lo hi : Option Int) (e : Nat) (ctxIds : List Int),
      SpinePath cfg s l lo hi e ctxIds →
      (∀ x ∈ ctxIds, s2.pages x = s.pages x) →
      s2.rootPageId = s.rootPageId →
      SpinePath cfg s2 l lo hi e ctxIds := by
  intro l lo hi e ctxIds hsp
  induction hsp with
  | root pid e hroot =>
    intro hagree hroot2
    exact SpinePath.root pid e (hroot2.trans hroot)
  | cons pid fatherPid rest q j flo fhi e idf ctxIds hpage hmax hsz1 hsz2 hsorted hkeys hj0 hj1
      hjv hjids hsib htail ih =>
    intro hagree hroot2
    refine SpinePath.cons pid fatherPid rest q j flo fhi e idf ctxIds ?_ hmax hsz1 hsz2 hsorted
      hkeys hj0 hj1 hjv hjids ?_ ?_
    · rw [hagree fatherPid (List.mem_cons_self _ _)]
      exact hpage
    · intro i h0 h1 hne
      refine treeWF_agree cfg s s2 _ _ _ _ _ (hsib i h0 h1 hne) ?_
      intro x hx
      refine hagree x ?_
      rw [List.mem_cons]
      right
      rw [List.mem_append]
      left
      rw [idsFlat_mem]
      exact ⟨i, h0, h1, hx⟩
    · refine ih ?_ hroot2
      intro x hx
      refine hagree x ?_
      rw [List.mem_cons]
      right
      rw [List.mem_append]
      right
      exact hx

theorem subtreeHasKV_mono (s : Store) (k v : Int) :
    ∀ (f f' : Nat) (pid : Int), f ≤ f' → subtreeHasKV s k v pid f → subtreeHasKV s k v pid f' := by
  intro f
  induction f with
  | zero =>
    intro f' pid hle hm
    simp [subtreeHasKV] at hm
  | succ n ih =>
    intro f' pid hle hm
    obtain ⟨f2, rfl⟩ : ∃ f2, f' = f2 + 1 := ⟨f' - 1, by omega⟩
    rcases hpg : s.pages pid with _ | pg
    · simp only [subtreeHasKV, hpg] at hm
    · rcases pg with p | q
      · simp only [subtreeHasKV, hpg] at hm ⊢
        exact hm
      · simp only [subtreeHasKV, hpg] at hm ⊢
        obtain ⟨i, h0, h1, hsub⟩ := hm
        exact ⟨i, h0, h1, ih f2 _ (by omega) hsub⟩

theorem subtreeHasKV_agree (cfg : Cfg) (s s2 : Store) (k v : Int) :
    ∀ (pid : Int) (lo hi : Option Int) (d : Nat) (ids : List Int),
      TreeWF cfg s pid lo hi d ids →
      (∀ x ∈ ids, s2.pages x = s.pages x) →
      subtreeHasKV s k v pid (d + 1) →
      subtreeHasKV s2 k v pid (d + 1) := by
  intro pid lo hi d ids hw
  induction hw with
  | leaf pid lo hi p hpage hmax hsz1 hsz2 hsorted hbounds =>
    intro hagree hm
    have hpg2 : s2.pages pid = some (BPage.leaf p) := by
      rw [hagree pid (List.mem_singleton_self pid)]
      exact hpage
    simp only [subtreeHasKV, hpage] at hm
    simp only [subtreeHasKV, hpg2]
    exact hm
  | internal pid lo hi q d idf hpage hmax hsz1 hsz2 hsorted hkeys hchild ih =>
    intro hagree hm
    have hpg2 : s2.pages pid = some (BPage.internal q) := by
      rw [hagree pid (List.mem_cons_self _ _)]
      exact hpage
    simp only [subtreeHasKV, hpage] at hm
    simp only [subtreeHasKV, hpg2]
    obtain ⟨i, h0, h1, hsub⟩ := hm
    refine ⟨i, h0, h1, ?_⟩
    refine ih i h0 h1 ?_ hsub
    intro x hx
    refine hagree x ?_
    rw [List.mem_cons]
    right
    rw [idsFlat_mem]
    exact ⟨i, h0, h1, hx⟩

theorem lowOk_trans (lo : Option Int) (a k : Int) (h1 : lowOk lo a) (h2 : a ≤ k) :
    lowOk lo k := by
  cases lo with
  | none => trivial
  | some x =>
    simp only [lowOk] at h1 ⊢
    omega

theorem highOk_trans (hi : Option Int) (a k : Int) (h1 : k ≤ a) (h2 : highOk hi a) :
    highOk hi k := by
  cases hi with
  | none => trivial
  | some x =>
    simp only [highOk] at h2 ⊢
    omega

theorem treeWF_key_exists (cfg : Cfg) (s : Store) :
    ∀ (pid : Int) (lo hi : Option Int) (d : Nat) (ids : List Int),
      TreeWF cfg s pid lo hi d ids → ∃ k0, lowOk lo k0 ∧ highOk hi k0 := by
  intro pid lo hi d ids hw
  induction hw with
  | leaf pid lo hi p hpage hmax hsz1 hsz2 hsorted hbounds =>
    exact ⟨p.KeyAt 0, hbounds 0 le_rfl (by omega)⟩
  | internal pid lo hi q d idf hpage hmax hsz1 hsz2 hsorted hkeys hchild ih =>
    obtain ⟨k0, hk0lo, hk0hi⟩ := ih 0 le_rfl (by omega)
    rw [childLow, if_pos rfl] at hk0lo
    refine ⟨k0, hk0lo, ?_⟩
    rw [childHigh] at hk0hi
    by_cases hlast : (0 : Int) = q.size - 1
    · rw [if_pos hlast] at hk0hi
      exact hk0hi
    · rw [if_neg hlast] at hk0hi
      simp only [highOk] at hk0hi
      have hk1 := (hkeys 1 le_rfl (by omega)).2
      exact highOk_trans hi (q.KeyAt (0 + 1)) k0 (by omega) (by
        have h01 : (0 : Int) + 1 = 1 := by omega
        rw [h01]
        exact hk1)

theorem subtreeHasKV_bounds (cfg : Cfg) (s : Store) (k v : Int) :
    ∀ (pid : Int) (lo hi : Option Int) (d : Nat) (ids : List Int),
      TreeWF cfg s pid lo hi d ids →
      ∀ f, subtreeHasKV s k v pid f → lowOk lo k ∧ highOk hi k := by
  intro pid lo hi d ids hw
  induction hw with
  | leaf pid lo hi p hpage hmax hsz1 hsz2 hsorted hbounds =>
    intro f hm
    obtain ⟨f2, rfl⟩ : ∃ f2, f = f2 + 1 := by
      cases f with
      | zero => simp [subtreeHasKV] at hm
      | succ n => exact ⟨n, rfl⟩
    simp only [subtreeHasKV, hpage] at hm
    obtain ⟨j, h0, h1, harr⟩ := hm
    have hk : p.KeyAt j = k := by
      unfold LeafPage.KeyAt
      rw [harr]
    rw [← hk]
    exact hbounds j h0 h1
  | internal pid lo hi q d idf hpage hmax hsz1 hsz2 hsorted hkeys hchild ih =>
    intro f hm
    obtain ⟨f2, rfl⟩ : ∃ f2, f = f2 + 1 := by
      cases f with
      | zero => simp [subtreeHasKV] at hm
      | succ n => exact ⟨n, rfl⟩
    simp only [subtreeHasKV, hpage] at hm
    obtain ⟨i, h0, h1, hsub⟩ := hm
    obtain ⟨hclo, hchi⟩ := ih i h0 h1 f2 hsub
    constructor
    · rw [childLow] at hclo
      by_cases hi0 : i = 0
      · rw [if_pos hi0] at hclo
        exact hclo
      · rw [if_neg hi0] at hclo
        simp only [lowOk] at hclo
        exact lowOk_trans lo (q.KeyAt i) k (hkeys i (by omega) h1).1 hclo
    · rw [childHigh] at hchi
      by_cases hilast : i = q.size - 1
      · rw [if_pos hilast] at hchi
        exact hchi
      · rw [if_neg hilast] at hchi
        simp only [highOk] at hchi
        exact highOk_trans hi (q.KeyAt (i + 1)) k (by omega) (hkeys (i + 1) (by omega) (by omega)).2

/-- Full characterization of the internal binary search on a page of
nonempty size with strictly ascending separator keys. -/
theorem binaryFindInternal_spec (q : InternalPage) (key : Int) (hsz : 1 ≤ q.size)
    (hsorted : ∀ i j, 1 ≤ i → i < j → j < q.size → q.KeyAt i < q.KeyAt j) :
    (BPlusTree.BinaryFindInternal q key = 0 ∧ ∀ i, 1 ≤ i → i < q.size → key < q.KeyAt i) ∨
    (1 ≤ BPlusTree.BinaryFindInternal q key ∧ BPlusTree.BinaryFindInternal q key < q.size ∧
      q.KeyAt (BPlusTree.BinaryFindInternal q key) ≤ key ∧
      ∀ i, BPlusTree.BinaryFindInternal q key < i → i < q.size → key < q.KeyAt i) := by
  simp only [BPlusTree.BinaryFindInternal]
  by_cases hs1 : q.size = 1
  · left
    constructor
    · have hf : (q.size - 1 - 1).toNat = 0 := by omega
      rw [hf]
      have hr : bfLoop q.KeyAt key 1 (q.size - 1) 0 = q.size - 1 := rfl
      rw [hr, hs1]
      norm_num
    · intro i hi1 hi2
      omega
  · have hs2 : 2 ≤ q.size := by omega
    have hmono : ∀ i j, (1:Int) ≤ i → i < j → j ≤ q.size - 1 → q.KeyAt i < q.KeyAt j := by
      intro i j h1 h2 h3
      exact hsorted i j h1 h2 (by omega)
    have hb := bfLoop_bounds q.KeyAt key (q.size - 1 - 1).toNat 1 (q.size - 1) (by omega) (by omega)
    have hspec := bfLoop_spec q.KeyAt key (q.size - 1 - 1).toNat 1 (q.size - 1) (by omega)
      (by omega) hmono
    set x := bfLoop q.KeyAt key 1 (q.size - 1) (q.size - 1 - 1).toNat with hx
    by_cases hc : comparator_ (q.KeyAt x) key = 1
    · left
      rw [if_pos (Or.inr hc)]
      have hkx : key < q.KeyAt x := (comparator_eq_one_iff _ _).mp hc
      have hx1 : x = 1 := by
        by_contra hne
        have := hspec.2 (by omega)
        omega
      refine ⟨rfl, ?_⟩
      intro i h1 h2
      rcases lt_or_eq_of_le h1 with h1' | h1'
      · exact hspec.1 i (by omega) (by omega)
      · rw [← h1', ← hx1] at *
        exact hkx
    · right
      rw [if_neg (by push_neg; exact ⟨by omega, hc⟩)]
      refine ⟨by omega, by omega, (comparator_ne_one_iff _ _).mp hc, ?_⟩
      intro i h1 h2
      exact hspec.1 i h1 (by omega)

/-- Search correctness: in a well-formed subtree that contains (k, v),
GetValue's descent loop reports a hit with exactly the value v. -/
theorem getValueLoop_finds (cfg : Cfg) (s : Store) (k v : Int) :
    ∀ (pid : Int) (lo hi : Option Int) (d : Nat) (ids : List Int),
      TreeWF cfg s pid lo hi d ids →
      ∀ f, subtreeHasKV s k v pid f →
      BPlusTree.getValueLoop s k pid (d + 1) = some (true, [v]) := by
  intro pid lo hi d ids hw
  induction hw with
  | leaf pid lo hi p hpage hmax hsz1 hsz2 hsorted hbounds =>
    intro f hm
    obtain ⟨f2, rfl⟩ : ∃ f2, f = f2 + 1 := by
      cases f with
      | zero => simp [subtreeHasKV] at hm
      | succ n => exact ⟨n, rfl⟩
    simp only [subtreeHasKV, hpage] at hm
    obtain ⟨j, h0, h1, harr⟩ := hm
    have hkj : p.KeyAt j = k := by
      unfold LeafPage.KeyAt
      rw [harr]
    have hvj : p.ValueAt j = v := by
      unfold LeafPage.ValueAt
      rw [harr]
    rcases binaryFindLeaf_spec p k (by omega) hsorted with ⟨hm1, hall⟩ | ⟨hb0, hb1, hb2, hb3⟩
    · exact absurd (hkj ▸ hall j h0 h1) (lt_irrefl k)
    · have hslot : BPlusTree.BinaryFindLeaf p k = j := by
        by_contra hne
        rcases lt_or_gt_of_ne hne with hlt | hgt
        · have := hb3 j hlt h1
          omega
        · have := hsorted j (BPlusTree.BinaryFindLeaf p k) h0 hgt hb1
          omega
      simp only [BPlusTree.getValueLoop, hpage]
      rw [if_pos ⟨by omega, by rw [hslot, hkj]; exact (comparator_eq_zero_iff k k).mpr rfl⟩]
      rw [hslot, hvj]
  | internal pid lo hi q d idf hpage hmax hsz1 hsz2 hsorted hkeys hchild ih =>
    intro f hm
    obtain ⟨f2, rfl⟩ : ∃ f2, f = f2 + 1 := by
      cases f with
      | zero => simp [subtreeHasKV] at hm
      | succ n => exact ⟨n, rfl⟩
    simp only [subtreeHasKV, hpage] at hm
    obtain ⟨i, h0, h1, hsub⟩ := hm
    obtain ⟨hclo, hchi⟩ := subtreeHasKV_bounds cfg s k v _ _ _ _ _ (hchild i h0 h1) f2 hsub
    have hslot : BPlusTree.BinaryFindInternal q k = i := by
      rcases binaryFindInternal_spec q k (by omega) hsorted with ⟨hz, hall⟩ | ⟨hb0, hb1, hb2, hb3⟩
      · by_contra hne
        have hi1 : 1 ≤ i := by omega
        rw [childLow, if_neg (by omega)] at hclo
        simp only [lowOk] at hclo
        have := hall i hi1 h1
        omega
      · set x := BPlusTree.BinaryFindInternal q k with hxdef
        by_contra hne
        rcases lt_or_gt_of_ne hne with hlt | hgt
        · -- x < i, so key at i is above x hence key < K i, but K i <= k
          have hi1 : 1 ≤ i := by omega
          rw [childLow, if_neg (by omega)] at hclo
          simp only [lowOk] at hclo
          have := hb3 i hlt h1
          omega
        · -- i < x: childHigh i bounds k below K (i+1) <= K x <= k
          have hilast : i ≠ q.size - 1 := by omega
          rw [childHigh, if_neg hilast] at hchi
          simp only [highOk] at hchi
          have hle : q.KeyAt (i + 1) ≤ q.KeyAt x := by
            rcases lt_or_eq_of_le (by omega : i + 1 ≤ x) with hlt2 | heq2
            · exact le_of_lt (hsorted (i + 1) x (by omega) hlt2 hb1)
            · rw [heq2]
          omega
    simp only [BPlusTree.getValueLoop, hpage]
    rw [if_neg (by omega), hslot]
    exact ih i h0 h1 f2 hsub

/-- A pair present at the hole position of a path context is present in the
whole tree. -/
theorem spinePath_member_lift (cfg : Cfg) (s : Store) (k v : Int) :
    ∀ (l : List Int) (lo hi : Option Int) (e : Nat) (ctx : List Int),
      SpinePath cfg s l lo hi e ctx →
      ∀ pid rest, l = pid :: rest →
      subtreeHasKV s k v pid (e + 1) →
      ∃ F, subtreeHasKV s k v s.rootPageId F := by
  intro l lo hi e ctx hsp
  induction hsp with
  | root pid e hroot =>
    intro pid2 rest heq hm
    injection heq with heq1 heq2
    subst heq1
    rw [hroot]
    exact ⟨e + 1, hm⟩
  | cons pid fatherPid rest q j flo fhi e idf ctxIds hpage hmax hsz1 hsz2 hsorted hkeys hj0 hj1
      hjv hjids hsib htail ih =>
    intro pid2 rest2 heq hm
    injection heq with heq1 heq2
    subst heq1
    refine ih fatherPid rest rfl ?_
    simp only [subtreeHasKV, hpage]
    refine ⟨j, hj0, hj1, ?_⟩
    rw [hjv]
    exact hm

/-! ## Characterizations of the in-page loops of the insert engine -/

theorem InternalPage.setPair_size (q : InternalPage) (i k c : Int) :
    ((q.SetKeyAt i k).SetValueAt i c).size = q.size :=
  rfl

theorem InternalPage.setPair_maxSize (q : InternalPage) (i k c : Int) :
    ((q.SetKeyAt i k).SetValueAt i c).maxSize = q.maxSize :=
  rfl

theorem InternalPage.setPair_arr (q : InternalPage) (i k c : Int) (j : Int) :
    ((q.SetKeyAt i k).SetValueAt i c).arr j = if j = i then (k, c) else q.arr j := by
  unfold InternalPage.SetKeyAt InternalPage.SetValueAt
  by_cases hj : j = i
  · subst hj
    simp [Function.update_same]
  · rw [if_neg hj]
    simp [Function.update_noteq hj]

theorem leafShiftLoop_spec (slot : Int) :
    ∀ (fuel : Nat) (p : LeafPage) (i : Int), (i - slot).toNat ≤ fuel →
      (leafShiftLoop p slot i fuel).size = p.size ∧
      (leafShiftLoop p slot i fuel).maxSize = p.maxSize ∧
      (leafShiftLoop p slot i fuel).nextPageId = p.nextPageId ∧
      ∀ j, (leafShiftLoop p slot i fuel).arr j =
        if slot + 1 ≤ j ∧ j ≤ i ∧ 0 ≤ j ∧ j < p.size then p.arr (j - 1) else p.arr j := by
  intro fuel
  induction fuel with
  | zero =>
    intro p i hf
    have hstop : leafShiftLoop p slot i 0 = p := rfl
    rw [hstop]
    refine ⟨rfl, rfl, rfl, ?_⟩
    intro j
    rw [if_neg]
    omega
  | succ n ih =>
    intro p i hf
    have hstep : leafShiftLoop p slot i (n + 1) =
        if slot < i then
          leafShiftLoop (p.SetAt i (p.KeyAt (i - 1)) (p.ValueAt (i - 1))) slot (i - 1) n
        else p := rfl
    rw [hstep]
    by_cases hlt : slot < i
    · rw [if_pos hlt]
      obtain ⟨hsz, hmax, hnext, harr⟩ :=
        ih (p.SetAt i (p.KeyAt (i - 1)) (p.ValueAt (i - 1))) (i - 1) (by omega)
      refine ⟨?_, ?_, ?_, ?_⟩
      · rw [hsz, LeafPage.SetAt_size]
      · rw [hmax, LeafPage.SetAt_maxSize]
      · rw [hnext, LeafPage.SetAt_nextPageId]
      · intro j
        rw [harr j, LeafPage.SetAt_size]
        by_cases hj : j = i
        · subst hj
          rw [if_neg (by omega)]
          by_cases hin : 0 ≤ j ∧ j < p.size
          · rw [if_pos (by omega)]
            rw [p.SetAt_arr_self j (p.KeyAt (j - 1)) (p.ValueAt (j - 1)) hin.1 hin.2]
            rfl
          · rw [if_neg (by omega)]
            rw [p.SetAt_oob j (p.KeyAt (j - 1)) (p.ValueAt (j - 1)) (by omega)]
        · by_cases hcond : slot + 1 ≤ j ∧ j ≤ i - 1 ∧ 0 ≤ j ∧ j < p.size
          · rw [if_pos hcond,
              p.SetAt_arr_ne i (p.KeyAt (i - 1)) (p.ValueAt (i - 1)) (j - 1) (by omega),
              if_pos (show slot + 1 ≤ j ∧ j ≤ i ∧ 0 ≤ j ∧ j < p.size by omega)]
          · rw [if_neg hcond,
              p.SetAt_arr_ne i (p.KeyAt (i - 1)) (p.ValueAt (i - 1)) j hj,
              if_neg (show ¬(slot + 1 ≤ j ∧ j ≤ i ∧ 0 ≤ j ∧ j < p.size) by omega)]
    · rw [if_neg hlt]
      refine ⟨rfl, rfl, rfl, ?_⟩
      intro j
      rw [if_neg]
      omega

theorem internalShiftUpLoop_spec (stop : Int) :
    ∀ (fuel : Nat) (q : InternalPage) (i : Int), (i - stop + 1).toNat ≤ fuel →
      (internalShiftUpLoop q stop i fuel).size = q.size ∧
      (internalShiftUpLoop q stop i fuel).maxSize = q.maxSize ∧
      ∀ j, (internalShiftUpLoop q stop i fuel).arr j =
        if stop + 1 ≤ j ∧ j ≤ i + 1 then q.arr (j - 1) else q.arr j := by
  intro fuel
  induction fuel with
  | zero =>
    intro q i hf
    have hstop2 : internalShiftUpLoop q stop i 0 = q := rfl
    rw [hstop2]
    refine ⟨rfl, rfl, ?_⟩
    intro j
    rw [if_neg]
    omega
  | succ n ih =>
    intro q i hf
    have hstep : internalShiftUpLoop q stop i (n + 1) =
        if stop ≤ i then
          internalShiftUpLoop ((q.SetKeyAt (i + 1) (q.KeyAt i)).SetValueAt (i + 1) (q.ValueAt i))
            stop (i - 1) n
        else q := rfl
    rw [hstep]
    by_cases hle : stop ≤ i
    · rw [if_pos hle]
      obtain ⟨hsz, hmax, harr⟩ :=
        ih ((q.SetKeyAt (i + 1) (q.KeyAt i)).SetValueAt (i + 1) (q.ValueAt i)) (i - 1) (by omega)
      refine ⟨?_, ?_, ?_⟩
      · rw [hsz, InternalPage.setPair_size]
      · rw [hmax, InternalPage.setPair_maxSize]
      · intro j
        rw [harr j]
        by_cases hj : j = i + 1
        · subst hj
          rw [if_neg (by omega), if_pos (by omega)]
          rw [InternalPage.setPair_arr]
          rw [if_pos rfl]
          have : i + 1 - 1 = i := by omega
          rw [this]
          rfl
        · by_cases hcond : stop + 1 ≤ j ∧ j ≤ i - 1 + 1
          · rw [if_pos hcond, InternalPage.setPair_arr,
              if_neg (show ¬(j - 1 = i + 1) by omega),
              if_pos (show stop + 1 ≤ j ∧ j ≤ i + 1 by omega)]
          · rw [if_neg hcond, InternalPage.setPair_arr, if_neg hj,
              if_neg (show ¬(stop + 1 ≤ j ∧ j ≤ i + 1) by omega)]
    · rw [if_neg hle]
      refine ⟨rfl, rfl, ?_⟩
      intro j
      rw [if_neg]
      omega

theorem internalCopyLoop_spec (src : InternalPage) (change off : Int) :
    ∀ (fuel : Nat) (dst : InternalPage) (i : Int), (src.size - i).toNat ≤ fuel →
      (internalCopyLoop dst src change off i fuel).size = dst.size ∧
      (internalCopyLoop dst src change off i fuel).maxSize = dst.maxSize ∧
      ∀ j, (internalCopyLoop dst src change off i fuel).arr j =
        if i ≤ j + change - off ∧ j + change - off < src.size then
          src.arr (j + change - off)
        else dst.arr j := by
  intro fuel
  induction fuel with
  | zero =>
    intro dst i hf
    have hstop : internalCopyLoop dst src change off i 0 = dst := rfl
    rw [hstop]
    refine ⟨rfl, rfl, ?_⟩
    intro j
    rw [if_neg]
    omega
  | succ n ih =>
    intro dst i hf
    have hstep : internalCopyLoop dst src change off i (n + 1) =
        if i < src.size then
          internalCopyLoop
            ((dst.SetKeyAt (i - change + off) (src.KeyAt i)).SetValueAt (i - change + off)
              (src.ValueAt i)) src change off (i + 1) n
        else dst := rfl
    rw [hstep]
    by_cases hlt : i < src.size
    · rw [if_pos hlt]
      obtain ⟨hsz, hmax, harr⟩ :=
        ih ((dst.SetKeyAt (i - change + off) (src.KeyAt i)).SetValueAt (i - change + off)
          (src.ValueAt i)) (i + 1) (by omega)
      refine ⟨?_, ?_, ?_⟩
      · rw [hsz, InternalPage.setPair_size]
      · rw [hmax, InternalPage.setPair_maxSize]
      · intro j
        rw [harr j, InternalPage.setPair_arr]
        by_cases hj : j = i - change + off
        · subst hj
          rw [if_neg (by omega), if_pos rfl, if_pos (by omega)]
          have hidx : i - change + off + change - off = i := by omega
          rw [hidx]
          rfl
        · rw [if_neg hj]
          by_cases hcond : i + 1 ≤ j + change - off ∧ j + change - off < src.size
          · rw [if_pos hcond, if_pos (by omega)]
          · rw [if_neg hcond, if_neg (by omega)]
    · rw [if_neg hlt]
      refine ⟨rfl, rfl, ?_⟩
      intro j
      rw [if_neg]
      omega

/-! ## The leaf phase of Insert: characterization and well-formedness -/

theorem LeafPage.IncreaseSize_size (p : LeafPage) (a : Int) :
    (p.IncreaseSize a).size = p.size + a :=
  rfl

theorem LeafPage.IncreaseSize_arr (p : LeafPage) (a : Int) :
    (p.IncreaseSize a).arr = p.arr :=
  rfl

theorem LeafPage.IncreaseSize_maxSize (p : LeafPage) (a : Int) :
    (p.IncreaseSize a).maxSize = p.maxSize :=
  rfl

theorem LeafPage.IncreaseSize_nextPageId (p : LeafPage) (a : Int) :
    (p.IncreaseSize a).nextPageId = p.nextPageId :=
  rfl

theorem leafInsertResult_spec (p : LeafPage) (slot1 key value : Int)
    (h0 : 0 ≤ slot1) (h1 : slot1 ≤ p.size) :
    (leafInsertResult p slot1 key value).size = p.size + 1 ∧
    (leafInsertResult p slot1 key value).maxSize = p.maxSize ∧
    (leafInsertResult p slot1 key value).nextPageId = p.nextPageId ∧
    ∀ j, (leafInsertResult p slot1 key value).arr j =
      if j = slot1 then (key, value)
      else if slot1 + 1 ≤ j ∧ j ≤ p.size then p.arr (j - 1) else p.arr j := by
  obtain ⟨hsz, hmax, hnext, harr⟩ :=
    leafShiftLoop_spec slot1 ((p.IncreaseSize 1).size - slot1).toNat (p.IncreaseSize 1)
      (p.IncreaseSize 1).size le_rfl
  unfold leafInsertResult
  refine ⟨?_, ?_, ?_, ?_⟩
  · rw [LeafPage.SetAt_size, hsz, LeafPage.IncreaseSize_size]
  · rw [LeafPage.SetAt_maxSize, hmax, LeafPage.IncreaseSize_maxSize]
  · rw [LeafPage.SetAt_nextPageId, hnext, LeafPage.IncreaseSize_nextPageId]
  · intro j
    by_cases hj : j = slot1
    · rw [if_pos hj]
      have hlt : j < (leafShiftLoop (p.IncreaseSize 1) slot1 (p.IncreaseSize 1).size
          ((p.IncreaseSize 1).size - slot1).toNat).size := by
        rw [hsz, LeafPage.IncreaseSize_size]
        omega
      rw [hj] at hlt ⊢
      exact LeafPage.SetAt_arr_self _ slot1 key value h0 hlt
    · rw [if_neg hj, LeafPage.SetAt_arr_ne _ slot1 key value j hj, harr j,
        LeafPage.IncreaseSize_size, LeafPage.IncreaseSize_arr]
      by_cases hcond : slot1 + 1 ≤ j ∧ j ≤ p.size
      · rw [if_pos (show slot1 + 1 ≤ j ∧ j ≤ p.size + 1 ∧ 0 ≤ j ∧ j < p.size + 1 by omega),
          if_pos hcond]
      · rw [if_neg (show ¬(slot1 + 1 ≤ j ∧ j ≤ p.size + 1 ∧ 0 ≤ j ∧ j < p.size + 1) by omega),
          if_neg hcond]

theorem leafInsertResult_sorted (p : LeafPage) (slot1 key value : Int)
    (h0 : 0 ≤ slot1) (h1 : slot1 ≤ p.size)
    (hsorted : ∀ i j, 0 ≤ i → i < j → j < p.size → p.KeyAt i < p.KeyAt j)
    (hlow : ∀ i, 0 ≤ i → i < slot1 → p.KeyAt i < key)
    (hhigh : ∀ i, slot1 ≤ i → i < p.size → key < p.KeyAt i) :
    ∀ i j, 0 ≤ i → i < j → j < p.size + 1 →
      (leafInsertResult p slot1 key value).KeyAt i <
        (leafInsertResult p slot1 key value).KeyAt j := by
  obtain ⟨hsz, hmax, hnext, harr⟩ := leafInsertResult_spec p slot1 key value h0 h1
  intro i j hi hij hj
  unfold LeafPage.KeyAt
  rw [harr i, harr j]
  rcases lt_trichotomy i slot1 with hilt | hieq | higt
  · rw [if_neg (show ¬ i = slot1 by omega),
      if_neg (show ¬(slot1 + 1 ≤ i ∧ i ≤ p.size) by omega)]
    rcases lt_trichotomy j slot1 with hjlt | hjeq | hjgt
    · rw [if_neg (show ¬ j = slot1 by omega),
        if_neg (show ¬(slot1 + 1 ≤ j ∧ j ≤ p.size) by omega)]
      exact hsorted i j hi hij (by omega)
    · rw [if_pos hjeq]
      exact hlow i hi (by omega)
    · rw [if_neg (show ¬ j = slot1 by omega),
        if_pos (show slot1 + 1 ≤ j ∧ j ≤ p.size by omega)]
      exact hsorted i (j - 1) hi (by omega) (by omega)
  · rw [if_pos hieq, if_neg (show ¬ j = slot1 by omega),
      if_pos (show slot1 + 1 ≤ j ∧ j ≤ p.size by omega)]
    exact hhigh (j - 1) (by omega) (by omega)
  · rw [if_neg (show ¬ i = slot1 by omega),
      if_pos (show slot1 + 1 ≤ i ∧ i ≤ p.size by omega),
      if_neg (show ¬ j = slot1 by omega),
      if_pos (show slot1 + 1 ≤ j ∧ j ≤ p.size by omega)]
    exact hsorted (i - 1) (j - 1) (by omega) (by omega) (by omega)

theorem leafInsertResult_bounds (p : LeafPage) (slot1 key value : Int) (lo hi : Option Int)
    (h0 : 0 ≤ slot1) (h1 : slot1 ≤ p.size)
    (hb : ∀ i, 0 ≤ i → i < p.size → lowOk lo (p.KeyAt i) ∧ highOk hi (p.KeyAt i))
    (hk : lowOk lo key ∧ highOk hi key) :
    ∀ i, 0 ≤ i → i < p.size + 1 →
      lowOk lo ((leafInsertResult p slot1 key value).KeyAt i) ∧
      highOk hi ((leafInsertResult p slot1 key value).KeyAt i) := by
  obtain ⟨hsz, hmax, hnext, harr⟩ := leafInsertResult_spec p slot1 key value h0 h1
  intro i hi0 hi1
  unfold LeafPage.KeyAt
  rw [harr i]
  by_cases hie : i = slot1
  · rw [if_pos hie]
    exact hk
  · rw [if_neg hie]
    by_cases hcond : slot1 + 1 ≤ i ∧ i ≤ p.size
    · rw [if_pos hcond]
      exact hb (i - 1) (by omega) (by omega)
    · rw [if_neg hcond]
      exact hb i hi0 (by omega)

theorem leafInsertResult_new_mem (p : LeafPage) (slot1 key value : Int)
    (h0 : 0 ≤ slot1) (h1 : slot1 ≤ p.size) :
    ∃ j, 0 ≤ j ∧ j < (leafInsertResult p slot1 key value).size ∧
      (leafInsertResult p slot1 key value).arr j = (key, value) := by
  obtain ⟨hsz, hmax, hnext, harr⟩ := leafInsertResult_spec p slot1 key value h0 h1
  refine ⟨slot1, h0, ?_, ?_⟩
  · rw [hsz]
    omega
  · rw [harr slot1, if_pos rfl]

theorem leafInsert_wf (cfg : Cfg) (s2 : Store) (leafPid : Int) (p : LeafPage)
    (slot1 key value : Int) (lo hi : Option Int)
    (hpage : s2.pages leafPid = some (BPage.leaf (leafInsertResult p slot1 key value)))
    (hmax : p.maxSize = cfg.leafMax)
    (hsz1 : 1 ≤ p.size) (hszub : p.size + 1 ≤ cfg.leafMax - 1)
    (h0 : 0 ≤ slot1) (h1 : slot1 ≤ p.size)
    (hsorted : ∀ i j, 0 ≤ i → i < j → j < p.size → p.KeyAt i < p.KeyAt j)
    (hlow : ∀ i, 0 ≤ i → i < slot1 → p.KeyAt i < key)
    (hhigh : ∀ i, slot1 ≤ i → i < p.size → key < p.KeyAt i)
    (hbounds : ∀ i, 0 ≤ i → i < p.size → lowOk lo (p.KeyAt i) ∧ highOk hi (p.KeyAt i))
    (hkb : lowOk lo key ∧ highOk hi key) :
    TreeWF cfg s2 leafPid lo hi 0 [leafPid] := by
  obtain ⟨hsz, hmaxr, hnext, harr⟩ := leafInsertResult_spec p slot1 key value h0 h1
  refine TreeWF.leaf leafPid lo hi _ hpage ?_ ?_ ?_ ?_ ?_
  · rw [hmaxr, hmax]
  · rw [hsz]
    omega
  · rw [hsz]
    omega
  · intro i j hi hij hj
    rw [hsz] at hj
    exact leafInsertResult_sorted p slot1 key value h0 h1 hsorted hlow hhigh i j hi hij hj
  · intro i hi0 hi1
    rw [hsz] at hi1
    exact leafInsertResult_bounds p slot1 key value lo hi h0 h1 hbounds hkb i hi0 hi1

theorem splitLeafStep_spec (cfg : Cfg) (s : Store) (leafPid : Int) (p : LeafPage) :
    ∃ L N,
      BPlusTree.splitLeafStep cfg s leafPid p =
        ({ ((s.setPage leafPid (BPage.leaf L)).setPage s.nextFresh (BPage.leaf N)) with
            nextFresh := s.nextFresh + 1 }, s.nextFresh, N.KeyAt 0) ∧
      L.size = (p.maxSize + 1) / 2 ∧ L.maxSize = p.maxSize ∧ L.nextPageId = s.nextFresh ∧
      (∀ i, L.arr i = p.arr i) ∧
      N.size = p.size - (p.maxSize + 1) / 2 ∧ N.maxSize = cfg.leafMax ∧
      N.nextPageId = p.nextPageId ∧
      (∀ i, 0 ≤ i → i < p.size - (p.maxSize + 1) / 2 →
        N.arr i = p.arr ((p.maxSize + 1) / 2 + i)) := by
  obtain ⟨hsz, hmax2, hnext, harr⟩ := splitCopyLoop_spec (p.SetNextPageId s.nextFresh)
    ((p.SetNextPageId s.nextFresh).size - (p.SetNextPageId s.nextFresh).GetMinSize).toNat
    (((LeafPage.Init cfg.leafMax).SetSize (p.size - p.GetMinSize)).SetNextPageId p.nextPageId)
    (p.SetNextPageId s.nextFresh).GetMinSize le_rfl
  refine ⟨(p.SetNextPageId s.nextFresh).SetSize (p.SetNextPageId s.nextFresh).GetMinSize,
    splitCopyLoop
      (((LeafPage.Init cfg.leafMax).SetSize (p.size - p.GetMinSize)).SetNextPageId p.nextPageId)
      (p.SetNextPageId s.nextFresh)
      (p.SetNextPageId s.nextFresh).GetMinSize
      ((p.SetNextPageId s.nextFresh).size - (p.SetNextPageId s.nextFresh).GetMinSize).toNat,
    rfl, rfl, rfl, rfl, fun i => rfl, ?_, ?_, ?_, ?_⟩
  · rw [hsz]
    rfl
  · rw [hmax2]
    rfl
  · rw [hnext]
    rfl
  · intro i h0 hi
    have hmin : (p.SetNextPageId s.nextFresh).GetMinSize = (p.maxSize + 1) / 2 := rfl
    rw [harr i, if_pos]
    · show p.arr (i + (p.maxSize + 1) / 2) = p.arr ((p.maxSize + 1) / 2 + i)
      rw [Int.add_comm]
    · refine ⟨by rw [hmin]; omega, by rw [hmin]; simp only [LeafPage.SetNextPageId]; omega,
        h0, ?_⟩
      show i < p.size - p.GetMinSize
      have hmin2 : p.GetMinSize = (p.maxSize + 1) / 2 := rfl
      omega

theorem splitLeaf_wf (cfg : Cfg) (s2 : Store) (leafPid newPid : Int) (full L N : LeafPage)
    (lo hi : Option Int)
    (hL : s2.pages leafPid = some (BPage.leaf L))
    (hN : s2.pages newPid = some (BPage.leaf N))
    (hfullsz : full.size = cfg.leafMax)
    (hm : 2 ≤ cfg.leafMax)
    (hLsz : L.size = (cfg.leafMax + 1) / 2)
    (hLmax : L.maxSize = cfg.leafMax)
    (hLarr : ∀ i, L.arr i = full.arr i)
    (hNsz : N.size = cfg.leafMax - (cfg.leafMax + 1) / 2)
    (hNmax : N.maxSize = cfg.leafMax)
    (hNarr : ∀ i, 0 ≤ i → i < N.size → N.arr i = full.arr ((cfg.leafMax + 1) / 2 + i))
    (hsorted : ∀ i j, 0 ≤ i → i < j → j < full.size → full.KeyAt i < full.KeyAt j)
    (hbounds : ∀ i, 0 ≤ i → i < full.size →
      lowOk lo (full.KeyAt i) ∧ highOk hi (full.KeyAt i)) :
    TreeWF cfg s2 leafPid lo (some (N.KeyAt 0)) 0 [leafPid] ∧
    TreeWF cfg s2 newPid (some (N.KeyAt 0)) hi 0 [newPid] := by
  have hLkey : ∀ i, L.KeyAt i = full.KeyAt i := by
    intro i
    unfold LeafPage.KeyAt
    rw [hLarr i]
  have hNkey : ∀ i, 0 ≤ i → i < N.size → N.KeyAt i = full.KeyAt ((cfg.leafMax + 1) / 2 + i) := by
    intro i h0 hi
    unfold LeafPage.KeyAt
    rw [hNarr i h0 hi]
  have hsep : N.KeyAt 0 = full.KeyAt ((cfg.leafMax + 1) / 2) := by
    rw [hNkey 0 le_rfl (by omega), add_zero]
  constructor
  · refine TreeWF.leaf leafPid lo (some (N.KeyAt 0)) L hL hLmax (by omega) (by omega) ?_ ?_
    · intro i j hi hij hj
      rw [hLkey i, hLkey j]
      exact hsorted i j hi hij (by omega)
    · intro i hi0 hi1
      rw [hLkey i]
      constructor
      · exact (hbounds i hi0 (by omega)).1
      · show full.KeyAt i < N.KeyAt 0
        rw [hsep]
        exact hsorted i ((cfg.leafMax + 1) / 2) hi0 (by omega) (by omega)
  · refine TreeWF.leaf newPid (some (N.KeyAt 0)) hi N hN hNmax (by omega) (by omega) ?_ ?_
    · intro i j hi hij hj
      rw [hNkey i (by omega) (by omega), hNkey j (by omega) (by omega)]
      exact hsorted _ _ (by omega) (by omega) (by omega)
    · intro i hi0 hi1
      rw [hNkey i hi0 hi1]
      constructor
      · show N.KeyAt 0 ≤ full.KeyAt ((cfg.leafMax + 1) / 2 + i)
        rw [hsep]
        rcases eq_or_lt_of_le hi0 with heq | hlt
        · rw [← heq, add_zero]
        · exact le_of_lt (hsorted _ _ (by omega) (by omega) (by omega))
      · exact (hbounds _ (by omega) (by omega)).2

/-! ## Bookkeeping lemmas for subtree id lists and separator bounds -/

theorem idsFlat_update_perm (idf : Int → List Int) (n j : Int) (xs : List Int)
    (hj0 : 0 ≤ j) (hj1 : j < n) (hjnil : idf j = []) :
    List.Perm (idsFlat (Function.update idf j xs) n) (xs ++ idsFlat idf n) := by
  have hdecomp : ∀ h : Int → List Int,
      idsFlat h n = ((List.range j.toNat).map (fun m => h (Int.ofNat m))).flatten ++
        (h j ++
          ((List.range (n.toNat - j.toNat - 1)).map
            (fun m => h (Int.ofNat (j.toNat + (1 + m))))).flatten) := by
    intro h
    unfold idsFlat
    set b := n.toNat - j.toNat - 1 with hb
    have hsplit : n.toNat = j.toNat + (1 + b) := by omega
    rw [hsplit, List.range_add, List.map_append, List.flatten_append]
    congr 1
    rw [List.range_add, List.map_map, List.map_append, List.flatten_append]
    congr 1
    · have hr1 : List.range 1 = [0] := rfl
      rw [hr1]
      simp only [List.map_cons, List.map_nil, List.flatten_cons, List.flatten_nil,
        List.append_nil, Function.comp_apply]
      have hcast : Int.ofNat (j.toNat + 0) = j := by simp only [Int.ofNat_eq_coe]; omega
      rw [hcast]
    · rw [List.map_map]
      apply congrArg
      apply List.map_congr_left
      intro m hm
      rfl
  rw [hdecomp, hdecomp]
  rw [Function.update_same, hjnil]
  have hbelow : ((List.range j.toNat).map (fun m => Function.update idf j xs (Int.ofNat m))).flatten
      = ((List.range j.toNat).map (fun m => idf (Int.ofNat m))).flatten := by
    apply congrArg
    apply List.map_congr_left
    intro m hm
    rw [List.mem_range] at hm
    apply Function.update_noteq
    simp only [Int.ofNat_eq_coe]
    omega
  have habove : ((List.range (n.toNat - j.toNat - 1)).map
        (fun m => Function.update idf j xs (Int.ofNat (j.toNat + (1 + m))))).flatten
      = ((List.range (n.toNat - j.toNat - 1)).map
        (fun m => idf (Int.ofNat (j.toNat + (1 + m))))).flatten := by
    apply congrArg
    apply List.map_congr_left
    intro m hm
    apply Function.update_noteq
    simp only [Int.ofNat_eq_coe]
    omega
  rw [hbelow, habove, List.nil_append]
  rw [← List.append_assoc, ← List.append_assoc]
  exact List.perm_append_comm.append_right _

theorem idsFlat_congr (idf idf2 : Int → List Int) (n : Int)
    (h : ∀ i, 0 ≤ i → i < n → idf i = idf2 i) : idsFlat idf n = idsFlat idf2 n := by
  unfold idsFlat
  apply congrArg
  apply List.map_congr_left
  intro m hm
  rw [List.mem_range] at hm
  apply h
  · simp only [Int.ofNat_eq_coe]
    omega
  · simp only [Int.ofNat_eq_coe]
    omega

theorem lowStrict_weaken (lo : Option Int) (k : Int) (h : lowStrict lo k) : lowOk lo k := by
  cases lo with
  | none => trivial
  | some a =>
    simp only [lowStrict] at h
    simp only [lowOk]
    omega

theorem lowStrict_trans_le (lo : Option Int) (a k : Int) (h1 : lowStrict lo a) (h2 : a ≤ k) :
    lowStrict lo k := by
  cases lo with
  | none => trivial
  | some x =>
    simp only [lowStrict] at h1 ⊢
    omega

theorem lowOk_lt_strict (lo : Option Int) (a k : Int) (h1 : lowOk lo a) (h2 : a < k) :
    lowStrict lo k := by
  cases lo with
  | none => trivial
  | some x =>
    simp only [lowOk] at h1
    simp only [lowStrict]
    omega

/-- When the target key lies in the routing interval of child j (inclusive
below, exclusive above), the internal binary search returns exactly slot j. -/
theorem binaryFindInternal_localize (q : InternalPage) (key : Int) (flo fhi : Option Int)
    (j : Int)
    (hsz : 1 ≤ q.size)
    (hsorted : ∀ i j2, 1 ≤ i → i < j2 → j2 < q.size → q.KeyAt i < q.KeyAt j2)
    (hj0 : 0 ≤ j) (hj1 : j < q.size)
    (hklo : lowOk (childLow q flo j) key)
    (hkhi : highOk (childHigh q fhi j) key) :
    BPlusTree.BinaryFindInternal q key = j := by
  rcases binaryFindInternal_spec q key hsz hsorted with ⟨hz, hall⟩ | ⟨hb0, hb1, hb2, hb3⟩
  · by_contra hne
    have hj1' : 1 ≤ j := by omega
    rw [childLow, if_neg (by omega)] at hklo
    simp only [lowOk] at hklo
    have := hall j hj1' hj1
    omega
  · set x := BPlusTree.BinaryFindInternal q key with hxdef
    by_contra hne
    rcases lt_or_gt_of_ne hne with hlt | hgt
    · have hj1' : 1 ≤ j := by omega
      rw [childLow, if_neg (by omega)] at hklo
      simp only [lowOk] at hklo
      have := hb3 j hlt hj1
      omega
    · have hilast : j ≠ q.size - 1 := by omega
      rw [childHigh, if_neg hilast] at hkhi
      simp only [highOk] at hkhi
      have hle : q.KeyAt (j + 1) ≤ q.KeyAt x := by
        rcases lt_or_eq_of_le (by omega : j + 1 ≤ x) with hlt2 | heq2
        · exact le_of_lt (hsorted (j + 1) x (by omega) hlt2 hb1)
        · rw [heq2]
      omega

/-- The separator keys of an internal node are strictly above its lower
bound, provided every child below the last holds some key below the next
separator. -/
theorem internal_keys_lowStrict (q : InternalPage) (flo : Option Int)
    (hkeys : ∀ i, 1 ≤ i → i < q.size → lowOk flo (q.KeyAt i))
    (hwit : ∀ i, 0 ≤ i → i < q.size - 1 →
      ∃ k, lowOk (childLow q flo i) k ∧ k < q.KeyAt (i + 1)) :
    ∀ i, 1 ≤ i → i < q.size → lowStrict flo (q.KeyAt i) := by
  intro i hi1 hi2
  obtain ⟨k, hklo, hkhi⟩ := hwit (i - 1) (by omega) (by omega)
  have hik : i - 1 + 1 = i := by omega
  rw [hik] at hkhi
  by_cases hi1' : i - 1 = 0
  · rw [childLow, if_pos hi1'] at hklo
    exact lowOk_lt_strict flo k (q.KeyAt i) hklo hkhi
  · rw [childLow, if_neg hi1'] at hklo
    simp only [lowOk] at hklo
    have hflo := hkeys (i - 1) (by omega) (by omega)
    exact lowOk_lt_strict flo (q.KeyAt (i - 1)) (q.KeyAt i) hflo (by omega)

/-- The routing interval of the child the internal binary search selects
contains the target key. -/
theorem child_bounds_of_find (q : InternalPage) (key : Int) (lo hi : Option Int)
    (hsz : 1 ≤ q.size)
    (hsorted : ∀ i j, 1 ≤ i → i < j → j < q.size → q.KeyAt i < q.KeyAt j)
    (hklo : lowOk lo key) (hkhi : highOk hi key) :
    lowOk (childLow q lo (BPlusTree.BinaryFindInternal q key)) key ∧
    highOk (childHigh q hi (BPlusTree.BinaryFindInternal q key)) key := by
  rcases binaryFindInternal_spec q key hsz hsorted with ⟨hz, hall⟩ | ⟨hb0, hb1, hb2, hb3⟩
  · rw [hz]
    constructor
    · rw [childLow, if_pos rfl]
      exact hklo
    · rw [childHigh]
      by_cases hlast : (0 : Int) = q.size - 1
      · rw [if_pos hlast]
        exact hkhi
      · rw [if_neg hlast]
        simp only [highOk]
        exact hall 1 le_rfl (by omega)
  · constructor
    · rw [childLow, if_neg (by omega)]
      simp only [lowOk]
      exact hb2
    · rw [childHigh]
      by_cases hlast : BPlusTree.BinaryFindInternal q key = q.size - 1
      · rw [if_pos hlast]
        exact hkhi
      · rw [if_neg hlast]
        simp only [highOk]
        exact hb3 _ (by omega) (by omega)

/-- Removing one child list from a flattened id family is a permutation
split. -/
theorem idsFlat_hole_perm (idf : Int → List Int) (n j : Int)
    (hj0 : 0 ≤ j) (hj1 : j < n) :
    List.Perm (idsFlat idf n) (idf j ++ idsFlat (Function.update idf j []) n) := by
  have hcongr : idsFlat idf n = idsFlat (Function.update (Function.update idf j []) j (idf j)) n := by
    apply idsFlat_congr
    intro i h0 h1
    by_cases hij : i = j
    · subst hij
      rw [Function.update_same]
    · rw [Function.update_noteq hij, Function.update_noteq hij]
  rw [hcongr]
  exact idsFlat_update_perm (Function.update idf j []) n j (idf j) hj0 hj1
    (Function.update_same j [] idf)

/-- Along a successful insert descent from a well-formed node, the reversed
write set is the lower part of a root-to-leaf path context: the reached leaf
is well formed, its routing interval contains the key, the tree ids split
into the leaf plus the context ids, and the front guard of the write set is
either the root (with the header guard still held) or an insert-safe
page. -/
theorem insertDescentLoop_spine (cfg : Cfg) (s : Store) (key : Int) (ids0 : List Int) :
    ∀ (fuel : Nat) (ctx : Ctx) (cur : Int) (lo hi : Option Int) (e : Nat)
      (cids chain C wtail ext : List Int) (tr : List DStep) (cf : Ctx) (leafPid : Int),
      TreeWF cfg s cur lo hi e cids →
      SpinePath cfg s (cur :: chain) lo hi e C →
      List.Perm ids0 (cids ++ C) →
      ctx.writeSet.reverse = cur :: wtail →
      chain = wtail ++ ext →
      lowOk lo key → highOk hi key →
      ((ext = [] ∧ ctx.header = true) ∨
        (∃ x pg, ctx.writeSet.head? = some x ∧ s.pages x = some pg ∧
          BPlusTree.Safe_Insert pg = true)) →
      BPlusTree.insertDescentLoop s key ctx cur fuel = some (tr, cf, leafPid) →
      ∃ (p : LeafPage) (wtail2 ext2 : List Int) (lof hif : Option Int) (C2 : List Int),
        s.pages leafPid = some (BPage.leaf p) ∧
        cf.writeSet.reverse = leafPid :: wtail2 ∧
        SpinePath cfg s ((leafPid :: wtail2) ++ ext2) lof hif 0 C2 ∧
        TreeWF cfg s leafPid lof hif 0 [leafPid] ∧
        List.Perm ids0 (leafPid :: C2) ∧
        lowOk lof key ∧ highOk hif key ∧
        ((ext2 = [] ∧ cf.header = true) ∨
          (∃ x pg, cf.writeSet.head? = some x ∧ s.pages x = some pg ∧
            BPlusTree.Safe_Insert pg = true)) := by
  intro fuel
  induction fuel with
  | zero =>
    intro ctx cur lo hi e cids chain C wtail ext tr cf leafPid
      hw hsp hperm hwrev hchain hklo hkhi hlast h
    simp [BPlusTree.insertDescentLoop] at h
  | succ n ih =>
    intro ctx cur lo hi e cids chain C wtail ext tr cf leafPid
      hw hsp hperm hwrev hchain hklo hkhi hlast h
    simp only [BPlusTree.insertDescentLoop] at h
    cases hw with
    | leaf pid2 lo2 hi2 p hpage hmax hsz1 hsz2 hsorted hbounds =>
      rw [hpage] at h
      simp at h
      obtain ⟨htr, hcf, hleaf⟩ := h
      subst hcf
      subst hleaf
      refine ⟨p, wtail, ext, lo, hi, C, hpage, hwrev, ?_, ?_, ?_, hklo, hkhi, hlast⟩
      · rw [hchain] at hsp
        rw [List.cons_append]
        exact hsp
      · exact TreeWF.leaf cur lo hi p hpage hmax hsz1 hsz2 hsorted hbounds
      · exact hperm
    | internal pid2 lo2 hi2 q d idf hpage hmax hsz1 hsz2 hsorted hkeys hchild =>
      rw [hpage] at h
      simp only at h
      set slot := BPlusTree.BinaryFindInternal q key with hslotdef
      have hslotb : 0 ≤ slot ∧ slot < q.size := by
        rcases binaryFindInternal_spec q key (by omega) hsorted with ⟨hz, _⟩ | ⟨hb0, hb1, _, _⟩
        · rw [← hslotdef] at hz
          omega
        · rw [← hslotdef] at hb0 hb1
          omega
      have hcw := hchild slot hslotb.1 hslotb.2
      obtain ⟨childpg, hchpg⟩ := treeWF_mem_dom cfg s _ _ _ _ _ hcw _
        (treeWF_self_mem cfg s _ _ _ _ _ hcw)
      rw [hchpg] at h
      simp only at h
      rcases hrec : BPlusTree.insertDescentLoop s key
          (if BPlusTree.Safe_Insert childpg then
            ⟨ctx.header, [q.ValueAt slot]⟩
          else ⟨ctx.header, ctx.writeSet ++ [q.ValueAt slot]⟩)
          (q.ValueAt slot) n with _ | res
      · rw [hrec] at h
        simp at h
      · rw [hrec] at h
        obtain ⟨tr1, cf1, lp1⟩ := res
        simp at h
        obtain ⟨htr, hcf, hlp⟩ := h
        subst hcf
        subst hlp
        have hcb := child_bounds_of_find q key lo hi (by omega) hsorted hklo hkhi
        rw [← hslotdef] at hcb
        have hsib : ∀ i, 0 ≤ i → i < q.size → i ≠ slot →
            TreeWF cfg s (q.ValueAt i) (childLow q lo i) (childHigh q hi i) d
              (Function.update idf slot [] i) := by
          intro i h0 h1 hne
          rw [Function.update_noteq hne]
          exact hchild i h0 h1
        have hsp' : SpinePath cfg s (q.ValueAt slot :: cur :: chain)
            (childLow q lo slot) (childHigh q hi slot) d
            (cur :: (idsFlat (Function.update idf slot []) q.size ++ C)) :=
          SpinePath.cons (q.ValueAt slot) cur chain q slot lo hi d
            (Function.update idf slot []) C hpage hmax hsz1 hsz2 hsorted hkeys
            hslotb.1 hslotb.2 rfl (Function.update_same slot [] idf) hsib hsp
        have hperm' : List.Perm ids0
            (idf slot ++ (cur :: (idsFlat (Function.update idf slot []) q.size ++ C))) := by
          refine hperm.trans ?_
          refine List.Perm.trans ?_ List.perm_middle.symm
          rw [List.cons_append]
          refine List.Perm.cons cur ?_
          rw [← List.append_assoc]
          exact (idsFlat_hole_perm idf q.size slot hslotb.1 hslotb.2).append_right C
        by_cases hsafe : BPlusTree.Safe_Insert childpg = true
        · rw [if_pos hsafe] at hrec
          obtain ⟨p2, w2, e2, lof, hif, C2, a1, a2, a3, a4, a5, a6, a7, a8⟩ :=
            ih ⟨ctx.header, [q.ValueAt slot]⟩ (q.ValueAt slot)
              (childLow q lo slot) (childHigh q hi slot) d
              (idf slot) (cur :: chain)
              (cur :: (idsFlat (Function.update idf slot []) q.size ++ C))
              [] (cur :: chain) tr1 cf1 lp1
              hcw hsp' hperm' rfl rfl hcb.1 hcb.2
              (Or.inr ⟨q.ValueAt slot, childpg, rfl, hchpg, hsafe⟩) hrec
          exact ⟨p2, w2, e2, lof, hif, C2, a1, a2, a3, a4, a5, a6, a7, a8⟩
        · rw [if_neg hsafe] at hrec
          have hwrev' : (⟨ctx.header, ctx.writeSet ++ [q.ValueAt slot]⟩ : Ctx).writeSet.reverse =
              q.ValueAt slot :: cur :: wtail := by
            simp only
            rw [List.reverse_append, hwrev]
            rfl
          have hlast' : ((ext = [] ∧ (⟨ctx.header, ctx.writeSet ++ [q.ValueAt slot]⟩ : Ctx).header = true) ∨
              (∃ x pg, (⟨ctx.header, ctx.writeSet ++ [q.ValueAt slot]⟩ : Ctx).writeSet.head? = some x ∧
                s.pages x = some pg ∧ BPlusTree.Safe_Insert pg = true)) := by
            rcases hlast with ⟨hext, hhdr⟩ | ⟨x, pg, hx, hpg2, hsf⟩
            · exact Or.inl ⟨hext, hhdr⟩
            · refine Or.inr ⟨x, pg, ?_, hpg2, hsf⟩
              rcases hws0 : ctx.writeSet with _ | ⟨w0, wrest⟩
              · rw [hws0] at hwrev
                simp at hwrev
              · rw [hws0] at hx
                simp only [List.head?_cons] at hx
                show ((w0 :: wrest) ++ [q.ValueAt slot]).head? = some x
                rw [List.cons_append, List.head?_cons]
                exact hx
          obtain ⟨p2, w2, e2, lof, hif, C2, a1, a2, a3, a4, a5, a6, a7, a8⟩ :=
            ih ⟨ctx.header, ctx.writeSet ++ [q.ValueAt slot]⟩ (q.ValueAt slot)
              (childLow q lo slot) (childHigh q hi slot) d
              (idf slot) (cur :: chain)
              (cur :: (idsFlat (Function.update idf slot []) q.size ++ C))
              (cur :: wtail) ext tr1 cf1 lp1
              hcw hsp' hperm' hwrev' (by rw [hchain, List.cons_append]) hcb.1 hcb.2
              hlast' hrec
          exact ⟨p2, w2, e2, lof, hif, C2, a1, a2, a3, a4, a5, a6, a7, a8⟩

/-- The descent phase of Insert on a well-formed tree, stated from the root:
packaging of the loop-level spine lemma. -/
theorem insertDescent_spine (cfg : Cfg) (s : Store) (key : Int) (fuel : Nat)
    (d : Nat) (ids0 : List Int) (tr : List DStep) (cf : Ctx) (leafPid : Int)
    (hwf : TreeWF cfg s s.rootPageId none none d ids0)
    (hrun : BPlusTree.insertDescent s key fuel = some (tr, cf, leafPid)) :
    ∃ (p : LeafPage) (wtail2 ext2 : List Int) (lof hif : Option Int) (C2 : List Int),
      s.pages leafPid = some (BPage.leaf p) ∧
      cf.writeSet.reverse = leafPid :: wtail2 ∧
      SpinePath cfg s ((leafPid :: wtail2) ++ ext2) lof hif 0 C2 ∧
      TreeWF cfg s leafPid lof hif 0 [leafPid] ∧
      List.Perm ids0 (leafPid :: C2) ∧
      lowOk lof key ∧ highOk hif key ∧
      ((ext2 = [] ∧ cf.header = true) ∨
        (∃ x pg, cf.writeSet.head? = some x ∧ s.pages x = some pg ∧
          BPlusTree.Safe_Insert pg = true)) := by
  simp only [BPlusTree.insertDescent] at hrun
  split at hrun
  · simp at hrun
  · next rp hrp =>
    split at hrun
    · simp at hrun
    · next tr1 cf1 lp1 hloop =>
      simp at hrun
      obtain ⟨htr, hcf, hlp⟩ := hrun
      subst hcf
      subst hlp
      by_cases hsafe : BPlusTree.Safe_Insert rp = true
      · rw [if_pos hsafe] at hloop
        exact insertDescentLoop_spine cfg s key ids0 fuel ⟨false, [s.rootPageId]⟩ s.rootPageId
          none none d ids0 [] [] [] [] tr1 cf1 lp1 hwf (SpinePath.root s.rootPageId d rfl)
          (by simp) rfl rfl trivial trivial
          (Or.inr ⟨s.rootPageId, rp, rfl, hrp, hsafe⟩) hloop
      · rw [if_neg hsafe] at hloop
        exact insertDescentLoop_spine cfg s key ids0 fuel ⟨true, [s.rootPageId]⟩ s.rootPageId
          none none d ids0 [] [] [] [] tr1 cf1 lp1 hwf (SpinePath.root s.rootPageId d rfl)
          (by simp) rfl rfl trivial trivial
          (Or.inl ⟨rfl, rfl⟩) hloop

/-! ## Characterization of Insert_Up: in-place insertion and splits -/

theorem InternalPage.incSize_size (q : InternalPage) (a : Int) :
    (q.IncreaseSize a).size = q.size + a :=
  rfl

theorem InternalPage.incSize_arr (q : InternalPage) (a : Int) :
    (q.IncreaseSize a).arr = q.arr :=
  rfl

theorem InternalPage.incSize_maxSize (q : InternalPage) (a : Int) :
    (q.IncreaseSize a).maxSize = q.maxSize :=
  rfl

theorem InternalPage.SetSize_size (q : InternalPage) (n : Int) : (q.SetSize n).size = n :=
  rfl

theorem InternalPage.SetSize_maxSize (q : InternalPage) (n : Int) :
    (q.SetSize n).maxSize = q.maxSize :=
  rfl

theorem InternalPage.SetSize_arr (q : InternalPage) (n : Int) : (q.SetSize n).arr = q.arr :=
  rfl

/-- The in-place branch of Insert_Up: IncreaseSize(1), shift the slots above
slot_num up by one, write (key, right_child) at slot_num + 1. The resulting
page realizes the abstract inserted sequence on all its slots. -/
theorem insertUpInPlace_spec (q : InternalPage) (key rc slot : Int)
    (h0 : 0 ≤ slot) (h1 : slot < q.size) :
    ((((internalShiftUpLoop (q.IncreaseSize 1) (slot + 1) ((q.IncreaseSize 1).size - 1)
        ((q.IncreaseSize 1).size - 1 - slot).toNat).SetKeyAt (slot + 1) key).SetValueAt
        (slot + 1) rc).size = q.size + 1) ∧
    ((((internalShiftUpLoop (q.IncreaseSize 1) (slot + 1) ((q.IncreaseSize 1).size - 1)
        ((q.IncreaseSize 1).size - 1 - slot).toNat).SetKeyAt (slot + 1) key).SetValueAt
        (slot + 1) rc).maxSize = q.maxSize) ∧
    ∀ i, 0 ≤ i → i ≤ q.size →
      (((internalShiftUpLoop (q.IncreaseSize 1) (slot + 1) ((q.IncreaseSize 1).size - 1)
          ((q.IncreaseSize 1).size - 1 - slot).toNat).SetKeyAt (slot + 1) key).SetValueAt
          (slot + 1) rc).arr i = insSeq q (slot + 1) key rc i := by
  obtain ⟨hsz, hmax, harr⟩ := internalShiftUpLoop_spec (slot + 1)
    ((q.IncreaseSize 1).size - 1 - slot).toNat (q.IncreaseSize 1)
    ((q.IncreaseSize 1).size - 1) (by rw [InternalPage.incSize_size]; omega)
  refine ⟨?_, ?_, ?_⟩
  · rw [InternalPage.setPair_size, hsz, InternalPage.incSize_size]
  · rw [InternalPage.setPair_maxSize, hmax, InternalPage.incSize_maxSize]
  · intro i hi0 hi1
    rw [InternalPage.setPair_arr]
    unfold insSeq
    by_cases hie : i = slot + 1
    · rw [if_pos hie, if_neg (by omega), if_pos hie]
    · rw [if_neg hie, harr i, InternalPage.incSize_size, InternalPage.incSize_arr]
      by_cases hlt : i < slot + 1
      · rw [if_neg (by omega), if_pos hlt]
      · rw [if_pos (by omega), if_neg hlt, if_neg hie]

/-- Unfolding of the split branch of Insert_Up through insertUpSplitPair. -/
theorem insertUp_split_eq (cfg : Cfg) (s : Store) (key rc : Int) (hh : Bool)
    (w fatherPid : Int) (rest : List Int) (father : InternalPage)
    (hpage : s.pages fatherPid = some (BPage.internal father))
    (hfull : ¬ father.size < father.maxSize) :
    BPlusTree.Insert_Up cfg s key rc hh (w :: fatherPid :: rest) =
      BPlusTree.Insert_Up cfg
        { ((s.setPage fatherPid (BPage.internal
            ((insertUpSplitPair cfg father key rc
              (BPlusTree.BinaryFindInternal father key + 1)).1.SetSize
                father.GetMinSize))).setPage
            s.nextFresh (BPage.internal
            (insertUpSplitPair cfg father key rc
              (BPlusTree.BinaryFindInternal father key + 1)).2)) with
          nextFresh := s.nextFresh + 1 }
        ((insertUpSplitPair cfg father key rc
            (BPlusTree.BinaryFindInternal father key + 1)).2.KeyAt 0)
        s.nextFresh hh (fatherPid :: rest) := by
  simp only [BPlusTree.Insert_Up, hpage]
  rw [if_neg hfull]
  rfl

/-- In all three split branches, the shrunk father realizes the first
GetMinSize slots of the abstract inserted sequence and the new page the
remaining max + 1 - GetMinSize slots. -/
theorem insertUpSplitPair_spec (cfg : Cfg) (father : InternalPage) (key rc slot : Int)
    (hsz : father.size = father.maxSize) (hm2 : 2 ≤ father.maxSize)
    (hslot1 : 1 ≤ slot) (hslot2 : slot ≤ father.size) :
    ((insertUpSplitPair cfg father key rc slot).1.SetSize father.GetMinSize).size =
        father.GetMinSize ∧
    ((insertUpSplitPair cfg father key rc slot).1.SetSize father.GetMinSize).maxSize =
        father.maxSize ∧
    (∀ i, 0 ≤ i → i < father.GetMinSize →
      ((insertUpSplitPair cfg father key rc slot).1.SetSize father.GetMinSize).arr i =
        insSeq father slot key rc i) ∧
    (insertUpSplitPair cfg father key rc slot).2.size =
        father.maxSize + 1 - father.GetMinSize ∧
    (insertUpSplitPair cfg father key rc slot).2.maxSize = cfg.internalMax ∧
    (∀ t, 0 ≤ t → t < father.maxSize + 1 - father.GetMinSize →
      (insertUpSplitPair cfg father key rc slot).2.arr t =
        insSeq father slot key rc (father.GetMinSize + t)) := by
  have hmin : father.GetMinSize = (father.maxSize + 1) / 2 := rfl
  simp only [insertUpSplitPair]
  by_cases hc1 : slot < father.GetMinSize
  · rw [if_pos hc1]
    simp only []
    obtain ⟨hcsz, hcmax, hcarr⟩ := internalCopyLoop_spec father father.GetMinSize 1
      (father.size - father.GetMinSize).toNat
      ((InternalPage.Init cfg.internalMax).SetSize (father.maxSize + 1 - father.GetMinSize))
      father.GetMinSize le_rfl
    obtain ⟨hssz, hsmax, hsarr⟩ := internalShiftUpLoop_spec slot
      (father.GetMinSize - slot + 1).toNat father father.GetMinSize le_rfl
    refine ⟨rfl, ?_, ?_, ?_, ?_, ?_⟩
    · rw [InternalPage.SetSize_maxSize, InternalPage.setPair_maxSize, hsmax]
    · intro i hi0 hi1
      rw [InternalPage.SetSize_arr, InternalPage.setPair_arr]
      simp only [insSeq]
      by_cases hie : i = slot
      · rw [if_pos hie, if_neg (by omega), if_pos hie]
      · rw [if_neg hie, hsarr i]
        by_cases hlt : i < slot
        · rw [if_neg (by omega), if_pos hlt]
        · rw [if_pos (by omega), if_neg hlt, if_neg hie]
    · rw [InternalPage.setPair_size, hcsz, InternalPage.SetSize_size]
    · rw [InternalPage.setPair_maxSize, hcmax, InternalPage.SetSize_maxSize]
      rfl
    · intro t ht0 ht1
      rw [InternalPage.setPair_arr]
      simp only [insSeq]
      rw [if_neg (show ¬(father.GetMinSize + t < slot) by omega),
        if_neg (show ¬(father.GetMinSize + t = slot) by omega)]
      by_cases hte : t = 0
      · subst hte
        rw [if_pos rfl]
        have hidx : father.GetMinSize + 0 - 1 = father.GetMinSize - 1 := by omega
        rw [hidx]
        rfl
      · rw [if_neg hte, hcarr t, if_pos (by omega)]
        have hidx : t + father.GetMinSize - 1 = father.GetMinSize + t - 1 := by omega
        rw [hidx]
  · rw [if_neg hc1]
    by_cases hc2 : slot = father.GetMinSize
    · rw [if_pos hc2]
      simp only []
      obtain ⟨hcsz, hcmax, hcarr⟩ := internalCopyLoop_spec father father.GetMinSize 1
        (father.size - father.GetMinSize).toNat
        ((InternalPage.Init cfg.internalMax).SetSize (father.maxSize + 1 - father.GetMinSize))
        father.GetMinSize le_rfl
      refine ⟨rfl, rfl, ?_, ?_, ?_, ?_⟩
      · intro i hi0 hi1
        rw [InternalPage.SetSize_arr]
        simp only [insSeq]
        rw [if_pos (by omega)]
      · rw [InternalPage.setPair_size, hcsz, InternalPage.SetSize_size]
      · rw [InternalPage.setPair_maxSize, hcmax, InternalPage.SetSize_maxSize]
        rfl
      · intro t ht0 ht1
        rw [InternalPage.setPair_arr]
        simp only [insSeq]
        by_cases hte : t = 0
        · subst hte
          rw [if_pos rfl, if_neg (by omega), if_pos (by omega)]
        · rw [if_neg hte, hcarr t, if_pos (by omega),
            if_neg (by omega), if_neg (by omega)]
          have hidx : t + father.GetMinSize - 1 = father.GetMinSize + t - 1 := by omega
          rw [hidx]
    · rw [if_neg hc2]
      simp only []
      obtain ⟨hcsz, hcmax, hcarr⟩ := internalCopyLoop_spec father father.GetMinSize 0
        (father.size - father.GetMinSize).toNat
        ((InternalPage.Init cfg.internalMax).SetSize (father.maxSize + 1 - father.GetMinSize))
        father.GetMinSize le_rfl
      rw [InternalPage.SetSize_size] at hcsz
      set nf1 := internalCopyLoop
        ((InternalPage.Init cfg.internalMax).SetSize (father.maxSize + 1 - father.GetMinSize))
        father father.GetMinSize 0 father.GetMinSize
        (father.size - father.GetMinSize).toNat with hnf1
      obtain ⟨hssz, hsmax, hsarr⟩ := internalShiftUpLoop_spec (slot - father.GetMinSize)
        (nf1.size - (slot - father.GetMinSize) + 1).toNat nf1 nf1.size le_rfl
      refine ⟨rfl, rfl, ?_, ?_, ?_, ?_⟩
      · intro i hi0 hi1
        rw [InternalPage.SetSize_arr]
        simp only [insSeq]
        rw [if_pos (by omega)]
      · rw [InternalPage.setPair_size, hssz, hcsz]
      · rw [InternalPage.setPair_maxSize, hsmax, hcmax, InternalPage.SetSize_maxSize]
        rfl
      · intro t ht0 ht1
        rw [InternalPage.setPair_arr]
        simp only [insSeq]
        by_cases hte : t = slot - father.GetMinSize
        · rw [if_pos hte, if_neg (by omega), if_pos (by omega)]
        · rw [if_neg hte, hsarr t]
          by_cases htlt : t < slot - father.GetMinSize
          · rw [if_neg (by omega), hcarr t, if_pos (by omega),
              if_pos (by omega)]
            have hidx : t + father.GetMinSize - 0 = father.GetMinSize + t := by omega
            rw [hidx]
          · rw [if_pos (by rw [hcsz]; omega), hcarr (t - 1), if_pos (by omega),
              if_neg (by omega), if_neg (by omega)]
            have hidx : t - 1 + father.GetMinSize - 0 = father.GetMinSize + t - 1 := by omega
            rw [hidx]

/-! ## Keys of the abstract inserted child sequence -/

theorem insSeq_keys_sorted (q : InternalPage) (j key rc : Int) (flo fhi : Option Int)
    (hq1 : 1 ≤ q.size) (hj0 : 0 ≤ j) (hj1 : j < q.size)
    (hsorted : ∀ a b, 1 ≤ a → a < b → b < q.size → q.KeyAt a < q.KeyAt b)
    (hstrictK : lowStrict (childLow q flo j) key)
    (hkhi : highOk (childHigh q fhi j) key) :
    ∀ a b, 1 ≤ a → a < b → b ≤ q.size →
      (insSeq q (j + 1) key rc a).1 < (insSeq q (j + 1) key rc b).1 := by
  intro a b ha hab hb
  have hkj : 1 ≤ j → q.KeyAt j < key := by
    intro hj
    rw [childLow, if_neg (by omega)] at hstrictK
    simp only [lowStrict] at hstrictK
    exact hstrictK
  have hkeyhi : j + 1 < q.size → key < q.KeyAt (j + 1) := by
    intro hjs
    rw [childHigh, if_neg (by omega)] at hkhi
    simp only [highOk] at hkhi
    exact hkhi
  simp only [insSeq]
  rcases lt_trichotomy a (j + 1) with halt | haeq | hagt
  · rw [if_pos halt]
    rcases lt_trichotomy b (j + 1) with hblt | hbeq | hbgt
    · rw [if_pos hblt]
      exact hsorted a b ha hab (by omega)
    · rw [if_neg (by omega), if_pos hbeq]
      have hj1' : 1 ≤ j := by omega
      rcases lt_or_eq_of_le (show a ≤ j by omega) with hlt | heq
      · exact lt_trans (hsorted a j ha hlt (by omega)) (hkj hj1')
      · rw [heq]
        exact hkj hj1'
    · rw [if_neg (by omega), if_neg (by omega)]
      exact hsorted a (b - 1) ha (by omega) (by omega)
  · rw [if_neg (by omega), if_pos haeq]
    rw [if_neg (by omega), if_neg (show ¬ b = j + 1 by omega)]
    have hjs : j + 1 < q.size := by omega
    rcases lt_or_eq_of_le (show j + 1 ≤ b - 1 by omega) with hlt | heq
    · exact lt_trans (hkeyhi hjs) (hsorted (j + 1) (b - 1) (by omega) hlt (by omega))
    · rw [← heq]
      exact hkeyhi hjs
  · rw [if_neg (by omega), if_neg (show ¬ a = j + 1 by omega),
      if_neg (by omega), if_neg (show ¬ b = j + 1 by omega)]
    exact hsorted (a - 1) (b - 1) (by omega) (by omega) (by omega)

theorem insSeq_keys_bounds (q : InternalPage) (j key rc : Int) (flo fhi : Option Int)
    (hq1 : 1 ≤ q.size) (hj0 : 0 ≤ j) (hj1 : j < q.size)
    (hkeys : ∀ i, 1 ≤ i → i < q.size → lowOk flo (q.KeyAt i) ∧ highOk fhi (q.KeyAt i))
    (hstrictK : lowStrict (childLow q flo j) key)
    (hkhi : highOk (childHigh q fhi j) key) :
    ∀ i, 1 ≤ i → i ≤ q.size →
      lowOk flo ((insSeq q (j + 1) key rc i).1) ∧
      highOk fhi ((insSeq q (j + 1) key rc i).1) := by
  intro i hi1 hi2
  simp only [insSeq]
  rcases lt_trichotomy i (j + 1) with hlt | heq | hgt
  · rw [if_pos hlt]
    exact hkeys i hi1 (by omega)
  · rw [if_neg (by omega), if_pos heq]
    constructor
    · by_cases hj : j = 0
      · rw [childLow, if_pos hj] at hstrictK
        exact lowStrict_weaken flo key hstrictK
      · rw [childLow, if_neg hj] at hstrictK
        simp only [lowStrict] at hstrictK
        exact lowOk_trans flo (q.KeyAt j) key (hkeys j (by omega) (by omega)).1 (by omega)
    · by_cases hjlast : j = q.size - 1
      · rw [childHigh, if_pos hjlast] at hkhi
        exact hkhi
      · rw [childHigh, if_neg hjlast] at hkhi
        simp only [highOk] at hkhi
        exact highOk_trans fhi (q.KeyAt (j + 1)) key (le_of_lt hkhi)
          (hkeys (j + 1) (by omega) (by omega)).2
  · rw [if_neg (by omega), if_neg (show ¬ i = j + 1 by omega)]
    exact hkeys (i - 1) (by omega) (by omega)

theorem insSeq_keys_lowStrict (q : InternalPage) (j key rc : Int) (flo fhi : Option Int)
    (hq1 : 1 ≤ q.size) (hj0 : 0 ≤ j) (hj1 : j < q.size)
    (hkeys : ∀ i, 1 ≤ i → i < q.size → lowOk flo (q.KeyAt i) ∧ highOk fhi (q.KeyAt i))
    (hstrictAll : ∀ i, 1 ≤ i → i < q.size → lowStrict flo (q.KeyAt i))
    (hstrictK : lowStrict (childLow q flo j) key) :
    ∀ i, 1 ≤ i → i ≤ q.size → lowStrict flo ((insSeq q (j + 1) key rc i).1) := by
  intro i hi1 hi2
  simp only [insSeq]
  rcases lt_trichotomy i (j + 1) with hlt | heq | hgt
  · rw [if_pos hlt]
    exact hstrictAll i hi1 (by omega)
  · rw [if_neg (by omega), if_pos heq]
    by_cases hj : j = 0
    · rw [childLow, if_pos hj] at hstrictK
      exact hstrictK
    · rw [childLow, if_neg hj] at hstrictK
      simp only [lowStrict] at hstrictK
      exact lowStrict_trans_le flo (q.KeyAt j) key (hstrictAll j (by omega) (by omega)) (by omega)
  · rw [if_neg (by omega), if_neg (show ¬ i = j + 1 by omega)]
    exact hstrictAll (i - 1) (by omega) (by omega)

/-- The children of the abstract inserted sequence are well-formed subtrees
on exactly the intervals the extended separator keys induce: the old
siblings keep their intervals, the split left part sits below the promoted
key, the split right part above it. -/
theorem insSeq_children_wf (cfg : Cfg) (s2 : Store) (q : InternalPage)
    (j key rc : Int) (flo fhi : Option Int) (e : Nat)
    (idf : Int → List Int) (idsL idsR : List Int)
    (hq1 : 1 ≤ q.size) (hj0 : 0 ≤ j) (hj1 : j < q.size)
    (hsib2 : ∀ i, 0 ≤ i → i < q.size → i ≠ j →
      TreeWF cfg s2 (q.ValueAt i) (childLow q flo i) (childHigh q fhi i) e (idf i))
    (hleft2 : TreeWF cfg s2 (q.ValueAt j) (childLow q flo j) (some key) e idsL)
    (hright2 : TreeWF cfg s2 rc (some key) (childHigh q fhi j) e idsR) :
    ∀ i, 0 ≤ i → i ≤ q.size →
      TreeWF cfg s2 ((insSeq q (j + 1) key rc i).2)
        (insChildLow q (j + 1) key rc flo i)
        (insChildHigh q (j + 1) key rc fhi i) e
        (if i < j + 1 then (if i = j then idsL else idf i)
         else if i = j + 1 then idsR else idf (i - 1)) := by
  intro i hi0 hi2
  rcases lt_trichotomy i j with hlt | heq | hgt
  · have h2 : (insSeq q (j + 1) key rc i).2 = q.ValueAt i := by
      simp only [insSeq]
      rw [if_pos (by omega)]
      rfl
    have hlo : insChildLow q (j + 1) key rc flo i = childLow q flo i := by
      unfold insChildLow childLow
      by_cases hz : i = 0
      · rw [if_pos hz, if_pos hz]
      · rw [if_neg hz, if_neg hz]
        simp only [insSeq]
        rw [if_pos (by omega)]
        rfl
    have hhi : insChildHigh q (j + 1) key rc fhi i = childHigh q fhi i := by
      unfold insChildHigh childHigh
      rw [if_neg (show ¬ i = q.size by omega), if_neg (show ¬ i = q.size - 1 by omega)]
      simp only [insSeq]
      rw [if_pos (by omega)]
      rfl
    rw [h2, hlo, hhi, if_pos (by omega), if_neg (show ¬ i = j by omega)]
    exact hsib2 i hi0 (by omega) (by omega)
  · subst heq
    have h2 : (insSeq q (i + 1) key rc i).2 = q.ValueAt i := by
      simp only [insSeq]
      rw [if_pos (by omega)]
      rfl
    have hlo : insChildLow q (i + 1) key rc flo i = childLow q flo i := by
      unfold insChildLow childLow
      by_cases hz : i = 0
      · rw [if_pos hz, if_pos hz]
      · rw [if_neg hz, if_neg hz]
        simp only [insSeq]
        rw [if_pos (by omega)]
        rfl
    have hhi : insChildHigh q (i + 1) key rc fhi i = some key := by
      unfold insChildHigh
      rw [if_neg (show ¬ i = q.size by omega)]
      simp only [insSeq]
      rw [if_neg (by omega), if_pos trivial]
    rw [h2, hlo, hhi, if_pos (by omega), if_pos rfl]
    exact hleft2
  · rcases lt_or_eq_of_le (show j + 1 ≤ i by omega) with hgt2 | heq2
    · have h2 : (insSeq q (j + 1) key rc i).2 = q.ValueAt (i - 1) := by
        simp only [insSeq]
        rw [if_neg (by omega), if_neg (show ¬ i = j + 1 by omega)]
        rfl
      have hlo : insChildLow q (j + 1) key rc flo i = childLow q flo (i - 1) := by
        unfold insChildLow childLow
        rw [if_neg (show ¬ i = 0 by omega), if_neg (show ¬ i - 1 = 0 by omega)]
        simp only [insSeq]
        rw [if_neg (by omega), if_neg (show ¬ i = j + 1 by omega)]
        rfl
      have hhi : insChildHigh q (j + 1) key rc fhi i = childHigh q fhi (i - 1) := by
        unfold insChildHigh childHigh
        by_cases hz : i = q.size
        · rw [if_pos hz, if_pos (show i - 1 = q.size - 1 by omega)]
        · rw [if_neg hz, if_neg (show ¬ i - 1 = q.size - 1 by omega)]
          simp only [insSeq]
          rw [if_neg (by omega), if_neg (show ¬ i + 1 = j + 1 by omega)]
          have hidx : i + 1 - 1 = i - 1 + 1 := by omega
          rw [hidx]
          rfl
      rw [h2, hlo, hhi, if_neg (show ¬ i < j + 1 by omega),
        if_neg (show ¬ i = j + 1 by omega)]
      exact hsib2 (i - 1) (by omega) (by omega) (by omega)
    · rw [← heq2]
      have h2 : (insSeq q (j + 1) key rc (j + 1)).2 = rc := by
        simp only [insSeq]
        rw [if_neg (by omega), if_pos trivial]
      have hlo : insChildLow q (j + 1) key rc flo (j + 1) = some key := by
        unfold insChildLow
        rw [if_neg (show ¬ j + 1 = 0 by omega)]
        simp only [insSeq]
        rw [if_neg (by omega), if_pos trivial]
      have hhi : insChildHigh q (j + 1) key rc fhi (j + 1) = childHigh q fhi j := by
        unfold insChildHigh childHigh
        by_cases hz : j = q.size - 1
        · rw [if_pos (show j + 1 = q.size by omega), if_pos hz]
        · rw [if_neg (show ¬ j + 1 = q.size by omega), if_neg hz]
          simp only [insSeq]
          rw [if_neg (by omega), if_neg (show ¬ j + 1 + 1 = j + 1 by omega)]
          have hidx : j + 1 + 1 - 1 = j + 1 := by omega
          rw [hidx]
          rfl
      rw [h2, hlo, hhi, if_neg (show ¬ j + 1 < j + 1 by omega), if_pos rfl]
      exact hright2

/-- An internal page realizing a window [base, base + sz) of the abstract
inserted sequence is a well-formed subtree on the interval the window's edge
separators induce. With base 0 and the full width this is the in-place
result; with the cut at GetMinSize it is the two halves of a split. -/
theorem insSeq_window_wf (cfg : Cfg) (s2 : Store) (pid : Int) (f q : InternalPage)
    (j key rc : Int) (flo fhi : Option Int) (e : Nat) (cidf : Int → List Int)
    (base sz : Int)
    (hpage2 : s2.pages pid = some (BPage.internal f))
    (hfsz : f.size = sz)
    (hfmax : f.maxSize = cfg.internalMax)
    (hsz1 : 1 ≤ sz) (hsz2 : sz ≤ cfg.internalMax)
    (hbase0 : 0 ≤ base) (hwin : base + sz ≤ q.size + 1)
    (hq1 : 1 ≤ q.size) (hj0 : 0 ≤ j) (hj1 : j < q.size)
    (hfarr : ∀ t, 0 ≤ t → t < sz → f.arr t = insSeq q (j + 1) key rc (base + t))
    (hKsorted : ∀ a b, 1 ≤ a → a < b → b ≤ q.size →
      (insSeq q (j + 1) key rc a).1 < (insSeq q (j + 1) key rc b).1)
    (hKbounds : ∀ i, 1 ≤ i → i ≤ q.size →
      lowOk flo ((insSeq q (j + 1) key rc i).1) ∧
      highOk fhi ((insSeq q (j + 1) key rc i).1))
    (hchildS : ∀ i, 0 ≤ i → i ≤ q.size →
      TreeWF cfg s2 ((insSeq q (j + 1) key rc i).2)
        (insChildLow q (j + 1) key rc flo i)
        (insChildHigh q (j + 1) key rc fhi i) e (cidf i)) :
    TreeWF cfg s2 pid
      (insChildLow q (j + 1) key rc flo base)
      (insChildHigh q (j + 1) key rc fhi (base + sz - 1))
      (e + 1) (pid :: idsFlat (fun t => cidf (base + t)) sz) := by
  have hKey : ∀ t, 0 ≤ t → t < sz → f.KeyAt t = (insSeq q (j + 1) key rc (base + t)).1 := by
    intro t h0 h1
    unfold InternalPage.KeyAt
    rw [hfarr t h0 h1]
  have hVal : ∀ t, 0 ≤ t → t < sz → f.ValueAt t = (insSeq q (j + 1) key rc (base + t)).2 := by
    intro t h0 h1
    unfold InternalPage.ValueAt
    rw [hfarr t h0 h1]
  have hids : idsFlat (fun t => cidf (base + t)) sz = idsFlat (fun t => cidf (base + t)) f.size := by
    rw [hfsz]
  rw [hids]
  refine TreeWF.internal pid _ _ f e (fun t => cidf (base + t)) hpage2 hfmax
    (by omega) (by omega) ?_ ?_ ?_
  · intro a b ha hab hb
    rw [hfsz] at hb
    rw [hKey a (by omega) (by omega), hKey b (by omega) (by omega)]
    exact hKsorted (base + a) (base + b) (by omega) (by omega) (by omega)
  · intro t ht1 ht2
    rw [hfsz] at ht2
    rw [hKey t (by omega) (by omega)]
    constructor
    · unfold insChildLow
      by_cases hb0 : base = 0
      · rw [if_pos hb0]
        have hb0' : base + t = 0 + t := by omega
        exact (hKbounds (base + t) (by omega) (by omega)).1
      · rw [if_neg hb0]
        simp only [lowOk]
        exact le_of_lt (hKsorted base (base + t) (by omega) (by omega) (by omega))
    · unfold insChildHigh
      by_cases hblast : base + sz - 1 = q.size
      · rw [if_pos hblast]
        exact (hKbounds (base + t) (by omega) (by omega)).2
      · rw [if_neg hblast]
        simp only [highOk]
        have hidx : base + sz - 1 + 1 = base + sz := by omega
        rw [hidx]
        exact hKsorted (base + t) (base + sz) (by omega) (by omega) (by omega)
  · intro t ht0 ht1
    rw [hfsz] at ht1
    have h2 := hchildS (base + t) (by omega) (by omega)
    have hclow : childLow f (insChildLow q (j + 1) key rc flo base) t =
        insChildLow q (j + 1) key rc flo (base + t) := by
      unfold childLow
      by_cases ht0' : t = 0
      · rw [if_pos ht0']
        subst ht0'
        rw [add_zero]
      · rw [if_neg ht0']
        unfold insChildLow
        rw [if_neg (show ¬ base + t = 0 by omega)]
        rw [hKey t (by omega) (by omega)]
    have hchigh : childHigh f (insChildHigh q (j + 1) key rc fhi (base + sz - 1)) t =
        insChildHigh q (j + 1) key rc fhi (base + t) := by
      unfold childHigh
      by_cases htlast : t = f.size - 1
      · rw [if_pos htlast]
        have hidx : base + sz - 1 = base + t := by omega
        rw [hidx]
      · rw [if_neg htlast]
        unfold insChildHigh
        rw [if_neg (show ¬ base + t = q.size by omega)]
        rw [hKey (t + 1) (by omega) (by omega)]
        have hidx : base + (t + 1) = base + t + 1 := by omega
        rw [hidx]
    rw [hclow, hchigh, hVal t (by omega) (by omega)]
    exact h2

/-- Grafting a well-formed subtree into the hole of a root-to-hole path
context yields a well-formed tree at the root whose ids are the subtree's
ids plus the context's ids. -/
theorem spine_graft (cfg : Cfg) (s2 : Store) :
    ∀ (chain : List Int) (flo fhi : Option Int) (e : Nat) (C : List Int),
      SpinePath cfg s2 chain flo fhi e C →
      ∀ hd rest, chain = hd :: rest →
      ∀ idsH, TreeWF cfg s2 hd flo fhi e idsH →
      ∃ D ids2, TreeWF cfg s2 s2.rootPageId none none D ids2 ∧
        List.Perm ids2 (idsH ++ C) := by
  intro chain flo fhi e C hsp
  induction hsp with
  | root pid e hroot =>
    intro hd rest heq idsH hw
    injection heq with h1 h2
    subst h1
    refine ⟨e, idsH, ?_, by simp⟩
    rw [hroot]
    exact hw
  | cons pid fatherPid rest q j flo fhi e idf C hpage hmax hsz1 hsz2 hsorted hkeys hj0 hj1
      hjv hjids hsib htail ih =>
    intro hd rest2 heq idsH hw
    injection heq with h1 h2
    subst h1
    have hchild2 : ∀ i, 0 ≤ i → i < q.size →
        TreeWF cfg s2 (q.ValueAt i) (childLow q flo i) (childHigh q fhi i) e
          (Function.update idf j idsH i) := by
      intro i h0 h1'
      by_cases hij : i = j
      · subst hij
        rw [Function.update_same, hjv]
        exact hw
      · rw [Function.update_noteq hij]
        exact hsib i h0 h1' hij
    have hwf2 : TreeWF cfg s2 fatherPid flo fhi (e + 1)
        (fatherPid :: idsFlat (Function.update idf j idsH) q.size) :=
      TreeWF.internal fatherPid flo fhi q e (Function.update idf j idsH) hpage hmax hsz1 hsz2
        hsorted hkeys hchild2
    obtain ⟨D, ids2, hroot2, hperm2⟩ := ih fatherPid rest rfl _ hwf2
    refine ⟨D, ids2, hroot2, ?_⟩
    refine hperm2.trans ?_
    have hp1 : List.Perm (idsFlat (Function.update idf j idsH) q.size)
        (idsH ++ idsFlat idf q.size) :=
      idsFlat_update_perm idf q.size j idsH hj0 hj1 hjids
    rw [List.cons_append]
    refine List.Perm.trans (List.Perm.cons fatherPid (hp1.append_right C)) ?_
    rw [List.append_assoc]
    exact List.perm_middle.symm

theorem idsFlat_split (h : Int → List Int) (n j : Int) (hj0 : 0 ≤ j) (hj1 : j < n) :
    idsFlat h n = idsFlat h j ++ (h j ++ idsFlat (fun t => h (j + 1 + t)) (n - j - 1)) := by
  unfold idsFlat
  set b := n.toNat - j.toNat - 1 with hb
  have hsplit : n.toNat = j.toNat + (1 + b) := by omega
  rw [hsplit, List.range_add, List.map_append, List.flatten_append]
  congr 1
  rw [List.map_map, List.range_add, List.map_append, List.flatten_append]
  congr 1
  · have hr1 : List.range 1 = [0] := rfl
    rw [hr1]
    simp only [List.map_cons, List.map_nil, List.flatten_cons, List.flatten_nil,
      List.append_nil, Function.comp_apply]
    have hcast : Int.ofNat (j.toNat + 0) = j := by simp only [Int.ofNat_eq_coe]; omega
    rw [hcast]
  · rw [List.map_map]
    have hbn : (n - j - 1).toNat = b := by omega
    rw [hbn]
    apply congrArg
    apply List.map_congr_left
    intro m hm
    show h (Int.ofNat (j.toNat + (1 + m))) = h (j + 1 + Int.ofNat m)
    have hcast : Int.ofNat (j.toNat + (1 + m)) = j + 1 + Int.ofNat m := by
      simp only [Int.ofNat_eq_coe]
      omega
    rw [hcast]

theorem idsFlat_zero (h : Int → List Int) : idsFlat h 0 = [] := rfl

theorem idsFlat_insert_perm (idf : Int → List Int) (n j : Int) (idsL idsR : List Int)
    (hj0 : 0 ≤ j) (hj1 : j < n) (hjnil : idf j = []) :
    List.Perm
      (idsFlat (fun t => if t < j + 1 then (if t = j then idsL else idf t)
        else if t = j + 1 then idsR else idf (t - 1)) (n + 1))
      (idsL ++ (idsR ++ idsFlat idf n)) := by
  have hsplitg : idsFlat (fun t => if t < j + 1 then (if t = j then idsL else idf t)
        else if t = j + 1 then idsR else idf (t - 1)) (n + 1) =
      idsFlat (fun t => if t < j + 1 then (if t = j then idsL else idf t)
        else if t = j + 1 then idsR else idf (t - 1)) (j + 1) ++
      ((if j + 1 < j + 1 then (if j + 1 = j then idsL else idf (j + 1))
          else if j + 1 = j + 1 then idsR else idf (j + 1 - 1)) ++
        idsFlat (fun t => if j + 1 + 1 + t < j + 1 then
            (if j + 1 + 1 + t = j then idsL else idf (j + 1 + 1 + t))
          else if j + 1 + 1 + t = j + 1 then idsR else idf (j + 1 + 1 + t - 1))
          (n + 1 - (j + 1) - 1)) :=
    idsFlat_split _ (n + 1) (j + 1) (by omega) (by omega)
  have hsplitg2 : idsFlat (fun t => if t < j + 1 then (if t = j then idsL else idf t)
        else if t = j + 1 then idsR else idf (t - 1)) (j + 1) =
      idsFlat (fun t => if t < j + 1 then (if t = j then idsL else idf t)
        else if t = j + 1 then idsR else idf (t - 1)) j ++
      ((if j < j + 1 then (if j = j then idsL else idf j)
          else if j = j + 1 then idsR else idf (j - 1)) ++
        idsFlat (fun t => if j + 1 + t < j + 1 then
            (if j + 1 + t = j then idsL else idf (j + 1 + t))
          else if j + 1 + t = j + 1 then idsR else idf (j + 1 + t - 1)) (j + 1 - j - 1)) :=
    idsFlat_split _ (j + 1) j (by omega) (by omega)
  have hz : (j + 1 - j - 1 : Int) = 0 := by omega
  rw [hz, idsFlat_zero, List.append_nil] at hsplitg2
  have hgj : (if j < j + 1 then (if j = j then idsL else idf j)
      else if j = j + 1 then idsR else idf (j - 1)) = idsL := by
    rw [if_pos (show j < j + 1 by omega), if_pos rfl]
  have hgj1 : (if j + 1 < j + 1 then (if j + 1 = j then idsL else idf (j + 1))
      else if j + 1 = j + 1 then idsR else idf (j + 1 - 1)) = idsR := by
    rw [if_neg (show ¬ j + 1 < j + 1 by omega), if_pos rfl]
  have hgA : idsFlat (fun t => if t < j + 1 then (if t = j then idsL else idf t)
      else if t = j + 1 then idsR else idf (t - 1)) j = idsFlat idf j := by
    apply idsFlat_congr
    intro i h0 h1
    show (if i < j + 1 then (if i = j then idsL else idf i)
      else if i = j + 1 then idsR else idf (i - 1)) = idf i
    rw [if_pos (by omega), if_neg (by omega)]
  have hgD : idsFlat (fun t => if j + 1 + 1 + t < j + 1 then
        (if j + 1 + 1 + t = j then idsL else idf (j + 1 + 1 + t))
      else if j + 1 + 1 + t = j + 1 then idsR else idf (j + 1 + 1 + t - 1))
        (n + 1 - (j + 1) - 1) =
      idsFlat (fun t => idf (j + 1 + t)) (n - j - 1) := by
    have hlen : (n + 1 - (j + 1) - 1 : Int) = n - j - 1 := by omega
    rw [hlen]
    apply idsFlat_congr
    intro i h0 h1
    show (if j + 1 + 1 + i < j + 1 then (if j + 1 + 1 + i = j then idsL else idf (j + 1 + 1 + i))
      else if j + 1 + 1 + i = j + 1 then idsR else idf (j + 1 + 1 + i - 1)) = idf (j + 1 + i)
    rw [if_neg (by omega), if_neg (by omega)]
    have hidx : j + 1 + 1 + i - 1 = j + 1 + i := by omega
    rw [hidx]
  have hsplitf : idsFlat idf n =
      idsFlat idf j ++ (idf j ++ idsFlat (fun t => idf (j + 1 + t)) (n - j - 1)) :=
    idsFlat_split idf n j hj0 hj1
  rw [hsplitg, hsplitg2, hgj, hgj1, hgA, hgD, hsplitf, hjnil, List.nil_append]
  have hstep1 : List.Perm
      ((idsFlat idf j ++ idsL) ++ (idsR ++ idsFlat (fun t => idf (j + 1 + t)) (n - j - 1)))
      ((idsL ++ idsFlat idf j) ++ (idsR ++ idsFlat (fun t => idf (j + 1 + t)) (n - j - 1))) :=
    List.perm_append_comm.append_right _
  refine hstep1.trans ?_
  rw [List.append_assoc]
  refine List.Perm.append_left idsL ?_
  rw [← List.append_assoc, ← List.append_assoc]
  exact List.perm_append_comm.append_right _

/-- Every page id strictly above the hole on a path context belongs to the
context ids. -/
theorem spinePath_tail_sub (cfg : Cfg) (s : Store) :
    ∀ (l : List Int) (lo hi : Option Int) (e : Nat) (C : List Int),
      SpinePath cfg s l lo hi e C → ∀ x, x ∈ l.tail → x ∈ C := by
  intro l lo hi e C hsp
  induction hsp with
  | root pid e hroot =>
    intro x hx
    simp at hx
  | cons pid fatherPid rest q j flo fhi e idf C hpage hmax hsz1 hsz2 hsorted hkeys hj0 hj1
      hjv hjids hsib htail ih =>
    intro x hx
    simp only [List.tail_cons] at hx
    rcases List.mem_cons.mp hx with hx1 | hx2
    · subst hx1
      exact List.mem_cons_self _ _
    · have := ih x (by simpa using hx2)
      exact List.mem_cons_of_mem _ (List.mem_append_right _ this)

/-- Safe_Insert on an internal page decides size < max size. -/
theorem safe_insert_internal (q : InternalPage) :
    BPlusTree.Safe_Insert (BPage.internal q) = true ↔ q.size < q.maxSize := by
  simp [BPlusTree.Safe_Insert]

/-- Safe_Insert on a leaf decides size + 1 < max size. -/
theorem safe_insert_leaf (p : LeafPage) :
    BPlusTree.Safe_Insert (BPage.leaf p) = true ↔ p.size + 1 < p.maxSize := by
  simp [BPlusTree.Safe_Insert]

/-- At a path-context node whose hole subtree is bounded above by the
separator being inserted, all separator keys are strictly above the node's
lower bound. -/
theorem spine_node_strict (cfg : Cfg) (s : Store) (q : InternalPage) (j key : Int)
    (flo fhi : Option Int) (e : Nat) (idf : Int → List Int) (idsL : List Int)
    (hj0 : 0 ≤ j) (hj1 : j < q.size)
    (hkeys : ∀ i, 1 ≤ i → i < q.size → lowOk flo (q.KeyAt i) ∧ highOk fhi (q.KeyAt i))
    (hsib : ∀ i, 0 ≤ i → i < q.size → i ≠ j →
      TreeWF cfg s (q.ValueAt i) (childLow q flo i) (childHigh q fhi i) e (idf i))
    (hleft : TreeWF cfg s (q.ValueAt j) (childLow q flo j) (some key) e idsL)
    (hkhi : highOk (childHigh q fhi j) key) :
    ∀ i, 1 ≤ i → i < q.size → lowStrict flo (q.KeyAt i) := by
  apply internal_keys_lowStrict q flo (fun i a b => (hkeys i a b).1)
  intro i h0 h1
  by_cases hij : i = j
  · subst hij
    obtain ⟨kk, hk1, hk2⟩ := treeWF_key_exists cfg s _ _ _ _ _ hleft
    refine ⟨kk, hk1, ?_⟩
    simp only [highOk] at hk2
    have hkk := hkhi
    rw [childHigh, if_neg (show ¬ i = q.size - 1 by omega)] at hkk
    simp only [highOk] at hkk
    omega
  · obtain ⟨kk, hk1, hk2⟩ := treeWF_key_exists cfg s _ _ _ _ _ (hsib i h0 (by omega) hij)
    refine ⟨kk, hk1, ?_⟩
    rw [childHigh, if_neg (show ¬ i = q.size - 1 by omega)] at hk2
    simp only [highOk] at hk2
    exact hk2

/-- The root-growth step of Insert_Up: a fresh internal root over the old
root and the split-off right sibling yields a well-formed store whose tree
holds everything it held before plus the routed pair. -/
theorem insertUp_root_grow (cfg : Cfg) (k v key rc : Int) (hcfg : CfgOk cfg)
    (s : Store) (w : Int) (e : Nat) (idsL idsR : List Int)
    (hnf0 : 0 ≤ s.nextFresh)
    (hleft : TreeWF cfg s w none (some key) e idsL)
    (hright : TreeWF cfg s rc (some key) none e idsR)
    (hmem : subtreeHasKV s k v w (e + 1) ∨ subtreeHasKV s k v rc (e + 1))
    (hNodup : (idsL ++ (idsR ++ ([] : List Int))).Nodup)
    (hFresh : ∀ x, x ∈ idsL ++ (idsR ++ ([] : List Int)) → 0 ≤ x ∧ x < s.nextFresh)
    (hDom : ∀ pid page, s.pages pid = some page → pid ∈ idsL ++ (idsR ++ ([] : List Int))) :
    ∃ D ids2,
      TreeWF cfg
        { (s.setPage s.nextFresh (BPage.internal
            (((((InternalPage.Init cfg.internalMax).SetSize 2).SetKeyAt 1 key).SetValueAt 0
              w).SetValueAt 1 rc))) with
          rootPageId := s.nextFresh, nextFresh := s.nextFresh + 1 }
        s.nextFresh none none D ids2 ∧
      ids2.Nodup ∧
      (∀ x, x ∈ ids2 → 0 ≤ x ∧ x < s.nextFresh + 1) ∧
      (∀ pid page,
        ({ (s.setPage s.nextFresh (BPage.internal
            (((((InternalPage.Init cfg.internalMax).SetSize 2).SetKeyAt 1 key).SetValueAt 0
              w).SetValueAt 1 rc))) with
          rootPageId := s.nextFresh, nextFresh := s.nextFresh + 1 } : Store).pages pid =
            some page → pid ∈ ids2) ∧
      (∃ F, subtreeHasKV
        { (s.setPage s.nextFresh (BPage.internal
            (((((InternalPage.Init cfg.internalMax).SetSize 2).SetKeyAt 1 key).SetValueAt 0
              w).SetValueAt 1 rc))) with
          rootPageId := s.nextFresh, nextFresh := s.nextFresh + 1 }
        k v s.nextFresh F) := by
  set nr : InternalPage :=
    ((((InternalPage.Init cfg.internalMax).SetSize 2).SetKeyAt 1 key).SetValueAt 0
      w).SetValueAt 1 rc with hnr
  set s2 : Store :=
    { (s.setPage s.nextFresh (BPage.internal nr)) with
      rootPageId := s.nextFresh, nextFresh := s.nextFresh + 1 } with hs2
  have hp2 : s2.pages s.nextFresh = some (BPage.internal nr) := by
    show Function.update s.pages s.nextFresh (some (BPage.internal nr)) s.nextFresh = _
    exact Function.update_same _ _ _
  have hagree : ∀ x, x ∈ idsL ++ (idsR ++ ([] : List Int)) → s2.pages x = s.pages x := by
    intro x hx
    show Function.update s.pages s.nextFresh (some (BPage.internal nr)) x = s.pages x
    exact Function.update_noteq (by have := hFresh x hx; omega) _ _
  have hnrsz : nr.size = 2 := rfl
  have hnrmax : nr.maxSize = cfg.internalMax := rfl
  have hv0 : nr.ValueAt 0 = w := by
    rw [hnr]
    simp [InternalPage.Init, InternalPage.SetSize, InternalPage.SetKeyAt,
      InternalPage.SetValueAt, InternalPage.ValueAt, Function.update]
  have hv1 : nr.ValueAt 1 = rc := by
    rw [hnr]
    simp [InternalPage.Init, InternalPage.SetSize, InternalPage.SetKeyAt,
      InternalPage.SetValueAt, InternalPage.ValueAt, Function.update]
  have hk1 : nr.KeyAt 1 = key := by
    rw [hnr]
    simp [InternalPage.Init, InternalPage.SetSize, InternalPage.SetKeyAt,
      InternalPage.SetValueAt, InternalPage.KeyAt, Function.update]
  have hleft2 : TreeWF cfg s2 w none (some key) e idsL :=
    treeWF_agree cfg s s2 _ _ _ _ _ hleft
      (fun x hx => hagree x (List.mem_append_left _ hx))
  have hright2 : TreeWF cfg s2 rc (some key) none e idsR :=
    treeWF_agree cfg s s2 _ _ _ _ _ hright
      (fun x hx => hagree x (List.mem_append_right _ (List.mem_append_left _ hx)))
  have hwfRoot : TreeWF cfg s2 s.nextFresh none none (e + 1)
      (s.nextFresh :: idsFlat
        (fun i => if i = 0 then idsL else if i = 1 then idsR else []) 2) := by
    refine TreeWF.internal s.nextFresh none none nr e
      (fun i => if i = 0 then idsL else if i = 1 then idsR else []) hp2 hnrmax
      (by rw [hnrsz]; omega) (by rw [hnrsz]; exact hcfg.2) ?_ ?_ ?_
    · intro a b ha hab hb
      rw [hnrsz] at hb
      exact absurd hab (by omega)
    · intro i h1 h2
      exact ⟨trivial, trivial⟩
    · intro i h0 h1
      rw [hnrsz] at h1
      by_cases hi0 : i = 0
      · subst hi0
        have hcl : childLow nr none 0 = none := by
          unfold childLow
          rw [if_pos rfl]
        have hch : childHigh nr none 0 = some key := by
          unfold childHigh
          rw [if_neg (show ¬ (0 : Int) = nr.size - 1 by rw [hnrsz]; omega)]
          rw [show (0 : Int) + 1 = 1 from rfl, hk1]
        rw [hv0, hcl, hch]
        show TreeWF cfg s2 w none (some key) e
          (if (0 : Int) = 0 then idsL else if (0 : Int) = 1 then idsR else [])
        rw [if_pos rfl]
        exact hleft2
      · have hi1 : i = 1 := by omega
        subst hi1
        have hcl : childLow nr none 1 = some key := by
          unfold childLow
          rw [if_neg (by omega), hk1]
        have hch : childHigh nr none 1 = none := by
          unfold childHigh
          rw [if_pos (show (1 : Int) = nr.size - 1 by omega)]
        rw [hv1, hcl, hch]
        show TreeWF cfg s2 rc (some key) none e
          (if (1 : Int) = 0 then idsL else if (1 : Int) = 1 then idsR else [])
        rw [if_neg (by omega), if_pos rfl]
        exact hright2
  have hflat : idsFlat (fun i => if i = 0 then idsL else if i = 1 then idsR else []) 2 =
      idsL ++ (idsR ++ []) := rfl
  refine ⟨e + 1, s.nextFresh :: (idsL ++ (idsR ++ [])), ?_, ?_, ?_, ?_, ?_⟩
  · rw [← hflat]
    exact hwfRoot
  · rw [List.nodup_cons]
    refine ⟨?_, hNodup⟩
    intro hc
    have := hFresh _ hc
    omega
  · intro x hx
    rcases List.mem_cons.mp hx with hx1 | hx2
    · omega
    · have := hFresh x hx2
      omega
  · intro pid page hpg
    by_cases hpn : pid = s.nextFresh
    · subst hpn
      exact List.mem_cons_self _ _
    · refine List.mem_cons_of_mem _ (hDom pid page ?_)
      rw [← hpg]
      show s.pages pid = Function.update s.pages s.nextFresh (some (BPage.internal nr)) pid
      rw [Function.update_noteq hpn]
  · refine ⟨e + 1 + 1, ?_⟩
    show subtreeHasKV s2 k v s.nextFresh (e + 1 + 1)
    have hp2b : (s.setPage s.nextFresh (BPage.internal nr)).pages s.nextFresh =
        some (BPage.internal nr) := hp2
    simp only [subtreeHasKV, hp2b]
    rcases hmem with hm | hm
    · refine ⟨0, le_rfl, by rw [hnrsz]; omega, ?_⟩
      rw [hv0]
      exact subtreeHasKV_agree cfg s s2 k v _ _ _ _ _ hleft
        (fun x hx => hagree x (List.mem_append_left _ hx)) hm
    · refine ⟨1, by omega, by rw [hnrsz]; omega, ?_⟩
      rw [hv1]
      exact subtreeHasKV_agree cfg s s2 k v _ _ _ _ _ hright
        (fun x hx => hagree x (List.mem_append_right _ (List.mem_append_left _ hx))) hm

theorem mem_of_getLast_opt (l : List Int) (a : Int) (h : l.getLast? = some a) : a ∈ l := by
  cases l with
  | nil => simp at h
  | cons b t =>
    have h2 := List.getLast?_eq_getLast (b :: t) (by simp)
    rw [h] at h2
    injection h2 with h3
    rw [h3]
    exact List.getLast_mem _

/-- Partial correctness of Insert_Up along the reversed write set: given the
path context for the write set, the two well-formed halves produced by the
split below, and the bookkeeping invariants, a successful Insert_Up yields a
well-formed store that contains the routed pair. -/
theorem insertUp_ok (cfg : Cfg) (k v : Int) (hcfg : CfgOk cfg) :
    ∀ (Ltail : List Int) (w : Int) (s : Store) (key rc : Int) (hh : Bool)
      (extra : List Int) (lo hi : Option Int) (e : Nat) (C idsL idsR : List Int) (s2 : Store),
      BPlusTree.Insert_Up cfg s key rc hh (w :: Ltail) = some s2 →
      SpinePath cfg s ((w :: Ltail) ++ extra) lo hi e C →
      TreeWF cfg s w lo (some key) e idsL →
      TreeWF cfg s rc (some key) hi e idsR →
      lowStrict lo key →
      highOk hi key →
      (subtreeHasKV s k v w (e + 1) ∨ subtreeHasKV s k v rc (e + 1)) →
      (idsL ++ (idsR ++ C)).Nodup →
      (∀ x, x ∈ idsL ++ (idsR ++ C) → 0 ≤ x ∧ x < s.nextFresh) →
      (∀ pid page, s.pages pid = some page → pid ∈ idsL ++ (idsR ++ C)) →
      0 ≤ s.nextFresh →
      ((extra = [] ∧ hh = true) ∨
        (∃ x pg, (w :: Ltail).getLast? = some x ∧ s.pages x = some pg ∧
          BPlusTree.Safe_Insert pg = true ∧ Ltail ≠ [])) →
      ∃ D ids2, TreeWF cfg s2 s2.rootPageId none none D ids2 ∧
        ids2.Nodup ∧
        (∀ x, x ∈ ids2 → 0 ≤ x ∧ x < s2.nextFresh) ∧
        (∀ pid page, s2.pages pid = some page → pid ∈ ids2) ∧
        (∃ F, subtreeHasKV s2 k v s2.rootPageId F) ∧
        s.nextFresh ≤ s2.nextFresh := by
  intro Ltail
  induction Ltail with
  | nil =>
    intro w s key rc hh extra lo hi e C idsL idsR s2 hrun hsp hleft hright hstrict hkhi hmem
      hNodup hFresh hDom hnf0 hcarry
    rcases hcarry with ⟨hext, hhh⟩ | ⟨x, pg, hxl, hxp, hxs, hne⟩
    swap
    · exact absurd rfl hne
    subst hext
    rw [List.append_nil] at hsp
    cases hsp with
    | root pid2 e2 hroot =>
      simp only [BPlusTree.Insert_Up] at hrun
      rw [if_pos hhh] at hrun
      injection hrun with hs2
      subst hs2
      obtain ⟨D, ids2, h1, h2, h3, h4, h5⟩ :=
        insertUp_root_grow cfg k v key rc hcfg s w e idsL idsR hnf0 hleft hright hmem
          hNodup hFresh hDom
      refine ⟨D, ids2, h1, h2, h3, h4, h5, ?_⟩
      show s.nextFresh ≤ s.nextFresh + 1
      omega
  | cons fatherPid rest ih =>
    intro w s key rc hh extra lo hi e C idsL idsR s2 hrun hsp hleft hright hstrict hkhi hmem
      hNodup hFresh hDom hnf0 hcarry
    rw [List.cons_append, List.cons_append] at hsp
    cases hsp with
    | cons pid2 fp2 rest2 q j flo fhi e2 idf C2 hpage hmax hsz1 hsz2 hsorted hkeys
        hj0 hj1 hjv hjids hsib htail =>
      have hslot : BPlusTree.BinaryFindInternal q key = j :=
        binaryFindInternal_localize q key flo fhi j (by omega) hsorted hj0 hj1
          (lowStrict_weaken _ _ hstrict) hkhi
      have hnR : (idsR ++ (fatherPid :: (idsFlat idf q.size ++ C2))).Nodup :=
        hNodup.of_append_right
      have hnC : (fatherPid :: (idsFlat idf q.size ++ C2)).Nodup := hnR.of_append_right
      have hfpC : fatherPid ∉ idsFlat idf q.size ++ C2 := (List.nodup_cons.mp hnC).1
      have hdLR : idsL.Disjoint (idsR ++ (fatherPid :: (idsFlat idf q.size ++ C2))) :=
        List.disjoint_of_nodup_append hNodup
      have hdRC : idsR.Disjoint (fatherPid :: (idsFlat idf q.size ++ C2)) :=
        List.disjoint_of_nodup_append hnR
      have hfpL : fatherPid ∉ idsL := fun hc =>
        hdLR hc (List.mem_append_right _ (List.mem_cons_self _ _))
      have hfpR : fatherPid ∉ idsR := fun hc => hdRC hc (List.mem_cons_self _ _)
      have hfpFlat : ∀ i, 0 ≤ i → i < q.size → fatherPid ∉ idf i := by
        intro i h0 h1 hc
        exact hfpC (List.mem_append_left _ ((idsFlat_mem idf q.size fatherPid).mpr ⟨i, h0, h1, hc⟩))
      have hfpC2 : fatherPid ∉ C2 := fun hc => hfpC (List.mem_append_right _ hc)
      have hfpFresh : 0 ≤ fatherPid ∧ fatherPid < s.nextFresh :=
        hFresh fatherPid (List.mem_append_right _
          (List.mem_append_right _ (List.mem_cons_self _ _)))
      have hmemFlat : ∀ i, 0 ≤ i → i < q.size → ∀ x, x ∈ idf i →
          x ∈ idsL ++ (idsR ++ (fatherPid :: (idsFlat idf q.size ++ C2))) := by
        intro i h0 h1 x hx
        exact List.mem_append_right _ (List.mem_append_right _ (List.mem_cons_of_mem _
          (List.mem_append_left _ ((idsFlat_mem idf q.size x).mpr ⟨i, h0, h1, hx⟩))))
      have hmemC2 : ∀ x, x ∈ C2 →
          x ∈ idsL ++ (idsR ++ (fatherPid :: (idsFlat idf q.size ++ C2))) := by
        intro x hx
        exact List.mem_append_right _ (List.mem_append_right _
          (List.mem_cons_of_mem _ (List.mem_append_right _ hx)))
      set cidf : Int → List Int := fun i => if i < j + 1 then (if i = j then idsL else idf i)
        else if i = j + 1 then idsR else idf (i - 1) with hcidf
      by_cases hfull : q.size < q.maxSize
      · -- in-place absorption at the father
        simp only [BPlusTree.Insert_Up, hpage] at hrun
        rw [hslot, if_pos hfull] at hrun
        injection hrun with hs2
        subst hs2
        obtain ⟨hf3sz, hf3max, hf3arr⟩ := insertUpInPlace_spec q key rc j hj0 hj1
        set F3 : InternalPage := (((internalShiftUpLoop (q.IncreaseSize 1) (j + 1)
          ((q.IncreaseSize 1).size - 1) ((q.IncreaseSize 1).size - 1 - j).toNat).SetKeyAt
          (j + 1) key).SetValueAt (j + 1) rc) with hF3
        set sN : Store := s.setPage fatherPid (BPage.internal F3) with hsN
        have hpageN : sN.pages fatherPid = some (BPage.internal F3) := by
          show Function.update s.pages fatherPid (some (BPage.internal F3)) fatherPid = _
          exact Function.update_same _ _ _
        have hagreeN : ∀ x, x ≠ fatherPid → sN.pages x = s.pages x := by
          intro x hx
          show Function.update s.pages fatherPid (some (BPage.internal F3)) x = s.pages x
          exact Function.update_noteq hx _ _
        have hsib2 : ∀ i, 0 ≤ i → i < q.size → i ≠ j →
            TreeWF cfg sN (q.ValueAt i) (childLow q flo i) (childHigh q fhi i) e (idf i) :=
          fun i h0 h1 hne => treeWF_agree cfg s sN _ _ _ _ _ (hsib i h0 h1 hne)
            (fun x hx => hagreeN x (fun hc => hfpFlat i h0 h1 (hc ▸ hx)))
        have hleft2 : TreeWF cfg sN (q.ValueAt j) (childLow q flo j) (some key) e idsL := by
          rw [hjv]
          exact treeWF_agree cfg s sN _ _ _ _ _ hleft
            (fun x hx => hagreeN x (fun hc => hfpL (hc ▸ hx)))
        have hright2 : TreeWF cfg sN rc (some key) (childHigh q fhi j) e idsR :=
          treeWF_agree cfg s sN _ _ _ _ _ hright
            (fun x hx => hagreeN x (fun hc => hfpR (hc ▸ hx)))
        have hchildS := insSeq_children_wf cfg sN q j key rc flo fhi e idf idsL idsR
          (by omega) hj0 hj1 hsib2 hleft2 hright2
        have hwfF := insSeq_window_wf cfg sN fatherPid F3 q j key rc flo fhi e cidf
          0 (q.size + 1) hpageN hf3sz (by rw [hf3max, hmax]) (by omega) (by omega)
          le_rfl (by omega) (by omega) hj0 hj1
          (fun t h0 h1 => by
            rw [hf3arr t h0 (by omega)]
            have hz : (0 : Int) + t = t := by omega
            rw [hz])
          (insSeq_keys_sorted q j key rc flo fhi (by omega) hj0 hj1 hsorted hstrict hkhi)
          (insSeq_keys_bounds q j key rc flo fhi (by omega) hj0 hj1 hkeys hstrict hkhi)
          (fun i h0 h1 => hchildS i h0 h1)
        have hlo0 : insChildLow q (j + 1) key rc flo 0 = flo := by
          unfold insChildLow
          rw [if_pos rfl]
        have hhiN : insChildHigh q (j + 1) key rc fhi (0 + (q.size + 1) - 1) = fhi := by
          unfold insChildHigh
          rw [if_pos (by omega)]
        rw [hlo0, hhiN] at hwfF
        have htail2 : SpinePath cfg sN (fatherPid :: (rest ++ extra)) flo fhi (e + 1) C2 :=
          spinePath_agree cfg s sN _ _ _ _ _ htail
            (fun x hx => hagreeN x (fun hc => hfpC2 (hc ▸ hx))) rfl
        obtain ⟨D, ids2, hrootwf, hperm⟩ := spine_graft cfg sN _ _ _ _ _ htail2 fatherPid
          (rest ++ extra) rfl _ hwfF
        have hcongr0 : idsFlat (fun t => cidf (0 + t)) (q.size + 1) =
            idsFlat cidf (q.size + 1) := by
          apply idsFlat_congr
          intro i h0 h1
          have hz : (0 : Int) + i = i := by omega
          rw [hz]
        have hins : List.Perm (idsFlat cidf (q.size + 1))
            (idsL ++ (idsR ++ idsFlat idf q.size)) :=
          idsFlat_insert_perm idf q.size j idsL idsR hj0 hj1 hjids
        have hP : List.Perm ((fatherPid :: idsFlat (fun t => cidf (0 + t)) (q.size + 1)) ++ C2)
            (idsL ++ (idsR ++ (fatherPid :: (idsFlat idf q.size ++ C2)))) := by
          rw [List.cons_append, hcongr0]
          refine List.Perm.trans (List.Perm.cons fatherPid (hins.append_right C2)) ?_
          rw [List.append_assoc, List.append_assoc]
          refine List.Perm.trans List.perm_middle.symm ?_
          refine List.Perm.append_left idsL ?_
          exact List.perm_middle.symm
        have hpermFull : List.Perm ids2
            (idsL ++ (idsR ++ (fatherPid :: (idsFlat idf q.size ++ C2)))) := hperm.trans hP
        have hmemN : subtreeHasKV sN k v fatherPid (e + 1 + 1) := by
          simp only [subtreeHasKV, hpageN]
          rcases hmem with hm | hm
          · refine ⟨j, hj0, by rw [hf3sz]; omega, ?_⟩
            have hv : F3.ValueAt j = w := by
              unfold InternalPage.ValueAt
              rw [hf3arr j hj0 (by omega)]
              simp only [insSeq]
              rw [if_pos (by omega)]
              exact hjv
            rw [hv]
            exact subtreeHasKV_agree cfg s sN k v _ _ _ _ _ hleft
              (fun x hx => hagreeN x (fun hc => hfpL (hc ▸ hx))) hm
          · refine ⟨j + 1, by omega, by rw [hf3sz]; omega, ?_⟩
            have hv : F3.ValueAt (j + 1) = rc := by
              unfold InternalPage.ValueAt
              rw [hf3arr (j + 1) (by omega) (by omega)]
              simp only [insSeq]
              rw [if_neg (by omega), if_pos trivial]
            rw [hv]
            exact subtreeHasKV_agree cfg s sN k v _ _ _ _ _ hright
              (fun x hx => hagreeN x (fun hc => hfpR (hc ▸ hx))) hm
        obtain ⟨F, hmemRoot⟩ := spinePath_member_lift cfg sN k v _ _ _ _ _ htail2 fatherPid
          (rest ++ extra) rfl hmemN
        refine ⟨D, ids2, hrootwf, hpermFull.nodup_iff.mpr hNodup, ?_, ?_, ⟨F, hmemRoot⟩, le_rfl⟩
        · intro x hx
          exact hFresh x (hpermFull.mem_iff.mp hx)
        · intro pid page hpg
          by_cases hpidf : pid = fatherPid
          · subst hpidf
            exact hpermFull.mem_iff.mpr (List.mem_append_right _
              (List.mem_append_right _ (List.mem_cons_self _ _)))
          · have hold : s.pages pid = some page := by
              rw [← hagreeN pid hpidf]
              exact hpg
            exact hpermFull.mem_iff.mpr (hDom pid page hold)
      · -- the father is full: split it and recurse
        rw [insertUp_split_eq cfg s key rc hh w fatherPid rest q hpage hfull, hslot] at hrun
        have hsizeq : q.size = q.maxSize := by omega
        have hm2 : 2 ≤ q.maxSize := by
          rw [hmax]
          exact hcfg.2
        have hmin : q.GetMinSize = (q.maxSize + 1) / 2 := rfl
        obtain ⟨hP1sz, hP1max, hP1arr, hP2sz, hP2max, hP2arr⟩ :=
          insertUpSplitPair_spec cfg q key rc (j + 1) hsizeq hm2 (by omega) (by omega)
        set P1 : InternalPage :=
          (insertUpSplitPair cfg q key rc (j + 1)).1.SetSize q.GetMinSize with hP1
        set P2 : InternalPage := (insertUpSplitPair cfg q key rc (j + 1)).2 with hP2
        set s1 : Store :=
          { ((s.setPage fatherPid (BPage.internal P1)).setPage s.nextFresh
              (BPage.internal P2)) with nextFresh := s.nextFresh + 1 } with hs1
        have hpagesfun : s1.pages = Function.update
            (Function.update s.pages fatherPid (some (BPage.internal P1))) s.nextFresh
            (some (BPage.internal P2)) := rfl
        have hpF : s1.pages fatherPid = some (BPage.internal P1) := by
          rw [hpagesfun, Function.update_noteq (show fatherPid ≠ s.nextFresh by omega),
            Function.update_same]
        have hpN : s1.pages s.nextFresh = some (BPage.internal P2) := by
          rw [hpagesfun, Function.update_same]
        have hpFb : ((s.setPage fatherPid (BPage.internal P1)).setPage s.nextFresh
            (BPage.internal P2)).pages fatherPid = some (BPage.internal P1) := hpF
        have hpNb : ((s.setPage fatherPid (BPage.internal P1)).setPage s.nextFresh
            (BPage.internal P2)).pages s.nextFresh = some (BPage.internal P2) := hpN
        have hagree1 : ∀ x, x ≠ fatherPid → x < s.nextFresh → s1.pages x = s.pages x := by
          intro x h1 h2
          rw [hpagesfun, Function.update_noteq (by omega), Function.update_noteq h1]
        have hagL : ∀ x, x ∈ idsL → s1.pages x = s.pages x := fun x hx =>
          hagree1 x (fun hc => hfpL (hc ▸ hx)) (hFresh x (List.mem_append_left _ hx)).2
        have hagR : ∀ x, x ∈ idsR → s1.pages x = s.pages x := fun x hx =>
          hagree1 x (fun hc => hfpR (hc ▸ hx))
            (hFresh x (List.mem_append_right _ (List.mem_append_left _ hx))).2
        have hagFlat : ∀ i, 0 ≤ i → i < q.size → ∀ x, x ∈ idf i →
            s1.pages x = s.pages x := fun i h0 h1 x hx =>
          hagree1 x (fun hc => hfpFlat i h0 h1 (hc ▸ hx))
            (hFresh x (hmemFlat i h0 h1 x hx)).2
        have hagC2 : ∀ x, x ∈ C2 → s1.pages x = s.pages x := fun x hx =>
          hagree1 x (fun hc => hfpC2 (hc ▸ hx)) (hFresh x (hmemC2 x hx)).2
        have hsib2 : ∀ i, 0 ≤ i → i < q.size → i ≠ j →
            TreeWF cfg s1 (q.ValueAt i) (childLow q flo i) (childHigh q fhi i) e (idf i) :=
          fun i h0 h1 hne => treeWF_agree cfg s s1 _ _ _ _ _ (hsib i h0 h1 hne)
            (fun x hx => hagFlat i h0 h1 x hx)
        have hleft2 : TreeWF cfg s1 (q.ValueAt j) (childLow q flo j) (some key) e idsL := by
          rw [hjv]
          exact treeWF_agree cfg s s1 _ _ _ _ _ hleft hagL
        have hright2 : TreeWF cfg s1 rc (some key) (childHigh q fhi j) e idsR :=
          treeWF_agree cfg s s1 _ _ _ _ _ hright hagR
        have hchildS := insSeq_children_wf cfg s1 q j key rc flo fhi e idf idsL idsR
          (by omega) hj0 hj1 hsib2 hleft2 hright2
        have hstrictAll : ∀ i, 1 ≤ i → i < q.size → lowStrict flo (q.KeyAt i) :=
          spine_node_strict cfg s q j key flo fhi e idf idsL hj0 hj1 hkeys hsib
            (by rw [hjv]; exact hleft) hkhi
        have hKsorted := insSeq_keys_sorted q j key rc flo fhi (by omega) hj0 hj1 hsorted
          hstrict hkhi
        have hKbounds := insSeq_keys_bounds q j key rc flo fhi (by omega) hj0 hj1 hkeys
          hstrict hkhi
        have hkey0 : P2.KeyAt 0 = (insSeq q (j + 1) key rc q.GetMinSize).1 := by
          unfold InternalPage.KeyAt
          rw [hP2arr 0 le_rfl (by omega), add_zero]
        have hstrict' : lowStrict flo (P2.KeyAt 0) := by
          rw [hkey0]
          exact insSeq_keys_lowStrict q j key rc flo fhi (by omega) hj0 hj1 hkeys hstrictAll
            hstrict q.GetMinSize (by omega) (by omega)
        have hkhi' : highOk fhi (P2.KeyAt 0) := by
          rw [hkey0]
          exact (hKbounds q.GetMinSize (by omega) (by omega)).2
        have hwfL := insSeq_window_wf cfg s1 fatherPid P1 q j key rc flo fhi e cidf
          0 q.GetMinSize hpF hP1sz (by rw [hP1max, hmax]) (by omega) (by omega)
          le_rfl (by omega) (by omega) hj0 hj1
          (fun t h0 h1 => by
            rw [hP1arr t h0 h1]
            have hz : (0 : Int) + t = t := by omega
            rw [hz])
          hKsorted hKbounds (fun i h0 h1 => hchildS i h0 h1)
        have hlo0 : insChildLow q (j + 1) key rc flo 0 = flo := by
          unfold insChildLow
          rw [if_pos rfl]
        have hhiL : insChildHigh q (j + 1) key rc fhi (0 + q.GetMinSize - 1) =
            some (P2.KeyAt 0) := by
          unfold insChildHigh
          rw [if_neg (by omega), hkey0]
          have hidx : 0 + q.GetMinSize - 1 + 1 = q.GetMinSize := by omega
          rw [hidx]
        rw [hlo0, hhiL] at hwfL
        have hwfR := insSeq_window_wf cfg s1 s.nextFresh P2 q j key rc flo fhi e cidf
          q.GetMinSize (q.maxSize + 1 - q.GetMinSize) hpN hP2sz hP2max (by omega) (by omega)
          (by omega) (by omega) (by omega) hj0 hj1
          (fun t h0 h1 => hP2arr t h0 h1)
          hKsorted hKbounds (fun i h0 h1 => hchildS i h0 h1)
        have hloR : insChildLow q (j + 1) key rc flo q.GetMinSize = some (P2.KeyAt 0) := by
          unfold insChildLow
          rw [if_neg (by omega), hkey0]
        have hhiR : insChildHigh q (j + 1) key rc fhi
            (q.GetMinSize + (q.maxSize + 1 - q.GetMinSize) - 1) = fhi := by
          unfold insChildHigh
          rw [if_pos (by omega)]
        rw [hloR, hhiR] at hwfR
        have htail2 : SpinePath cfg s1 (fatherPid :: (rest ++ extra)) flo fhi (e + 1) C2 :=
          spinePath_agree cfg s s1 _ _ _ _ _ htail (fun x hx => hagC2 x hx) rfl
        have hmem' : subtreeHasKV s1 k v fatherPid (e + 1 + 1) ∨
            subtreeHasKV s1 k v s.nextFresh (e + 1 + 1) := by
          rcases hmem with hm | hm
          · by_cases hjc : j < q.GetMinSize
            · left
              simp only [subtreeHasKV, hpFb]
              refine ⟨j, hj0, by rw [hP1sz]; omega, ?_⟩
              have hv : P1.ValueAt j = w := by
                unfold InternalPage.ValueAt
                rw [hP1arr j hj0 hjc]
                simp only [insSeq]
                rw [if_pos (by omega)]
                exact hjv
              rw [hv]
              exact subtreeHasKV_agree cfg s s1 k v _ _ _ _ _ hleft hagL hm
            · right
              simp only [subtreeHasKV, hpNb]
              refine ⟨j - q.GetMinSize, by omega, by rw [hP2sz]; omega, ?_⟩
              have hv : P2.ValueAt (j - q.GetMinSize) = w := by
                unfold InternalPage.ValueAt
                rw [hP2arr (j - q.GetMinSize) (by omega) (by omega)]
                have hidx : q.GetMinSize + (j - q.GetMinSize) = j := by omega
                rw [hidx]
                simp only [insSeq]
                rw [if_pos (by omega)]
                exact hjv
              rw [hv]
              exact subtreeHasKV_agree cfg s s1 k v _ _ _ _ _ hleft hagL hm
          · by_cases hjc : j + 1 < q.GetMinSize
            · left
              simp only [subtreeHasKV, hpFb]
              refine ⟨j + 1, by omega, by rw [hP1sz]; omega, ?_⟩
              have hv : P1.ValueAt (j + 1) = rc := by
                unfold InternalPage.ValueAt
                rw [hP1arr (j + 1) (by omega) hjc]
                simp only [insSeq]
                rw [if_neg (by omega), if_pos trivial]
              rw [hv]
              exact subtreeHasKV_agree cfg s s1 k v _ _ _ _ _ hright hagR hm
            · right
              simp only [subtreeHasKV, hpNb]
              refine ⟨j + 1 - q.GetMinSize, by omega, by rw [hP2sz]; omega, ?_⟩
              have hv : P2.ValueAt (j + 1 - q.GetMinSize) = rc := by
                unfold InternalPage.ValueAt
                rw [hP2arr (j + 1 - q.GetMinSize) (by omega) (by omega)]
                have hidx : q.GetMinSize + (j + 1 - q.GetMinSize) = j + 1 := by omega
                rw [hidx]
                simp only [insSeq]
                rw [if_neg (by omega), if_pos trivial]
              rw [hv]
              exact subtreeHasKV_agree cfg s s1 k v _ _ _ _ _ hright hagR hm
        have hcongr0 : idsFlat (fun t => cidf (0 + t)) q.GetMinSize =
            idsFlat cidf q.GetMinSize := by
          apply idsFlat_congr
          intro i h0 h1
          have hz : (0 : Int) + i = i := by omega
          rw [hz]
        have hB : idsFlat (fun t => cidf (q.GetMinSize + t)) (q.maxSize + 1 - q.GetMinSize) =
            cidf q.GetMinSize ++
              idsFlat (fun t => cidf (q.GetMinSize + 1 + t))
                (q.maxSize + 1 - q.GetMinSize - 1) := by
          rw [idsFlat_split (fun t => cidf (q.GetMinSize + t))
            (q.maxSize + 1 - q.GetMinSize) 0 le_rfl (by omega)]
          rw [idsFlat_zero, List.nil_append]
          congr 1
          · show cidf (q.GetMinSize + 0) = cidf q.GetMinSize
            rw [add_zero]
          · have hlen : (q.maxSize + 1 - q.GetMinSize - 0 - 1 : Int) =
                q.maxSize + 1 - q.GetMinSize - 1 := by omega
            rw [hlen]
            apply idsFlat_congr
            intro i h0 h1
            show cidf (q.GetMinSize + (0 + 1 + i)) = cidf (q.GetMinSize + 1 + i)
            have hz : q.GetMinSize + (0 + 1 + i) = q.GetMinSize + 1 + i := by omega
            rw [hz]
        have hsplitFull : idsFlat cidf (q.size + 1) =
            idsFlat cidf q.GetMinSize ++
              idsFlat (fun t => cidf (q.GetMinSize + t)) (q.maxSize + 1 - q.GetMinSize) := by
          rw [hB, idsFlat_split cidf (q.size + 1) q.GetMinSize (by omega) (by omega)]
          congr 2
          have hlen : (q.size + 1 - q.GetMinSize - 1 : Int) =
              q.maxSize + 1 - q.GetMinSize - 1 := by omega
          rw [hlen]
        have hins : List.Perm (idsFlat cidf (q.size + 1))
            (idsL ++ (idsR ++ idsFlat idf q.size)) :=
          idsFlat_insert_perm idf q.size j idsL idsR hj0 hj1 hjids
        have h2m : List.Perm
            (idsFlat (fun t => cidf (0 + t)) q.GetMinSize ++
              (s.nextFresh :: (idsFlat (fun t => cidf (q.GetMinSize + t))
                (q.maxSize + 1 - q.GetMinSize) ++ C2)))
            (s.nextFresh :: (idsFlat (fun t => cidf (0 + t)) q.GetMinSize ++
              (idsFlat (fun t => cidf (q.GetMinSize + t))
                (q.maxSize + 1 - q.GetMinSize) ++ C2))) := List.perm_middle
        have h3e : idsFlat (fun t => cidf (0 + t)) q.GetMinSize ++
            (idsFlat (fun t => cidf (q.GetMinSize + t)) (q.maxSize + 1 - q.GetMinSize) ++ C2) =
            idsFlat cidf (q.size + 1) ++ C2 := by
          rw [hcongr0, ← List.append_assoc, ← hsplitFull]
        have h4p : List.Perm (idsFlat cidf (q.size + 1) ++ C2)
            (idsL ++ (idsR ++ (idsFlat idf q.size ++ C2))) := by
          have h4a := hins.append_right C2
          rw [List.append_assoc, List.append_assoc] at h4a
          exact h4a
        have h5p : List.Perm
            (fatherPid :: (idsFlat (fun t => cidf (0 + t)) q.GetMinSize ++
              (idsFlat (fun t => cidf (q.GetMinSize + t))
                (q.maxSize + 1 - q.GetMinSize) ++ C2)))
            (idsL ++ (idsR ++ (fatherPid :: (idsFlat idf q.size ++ C2)))) := by
          rw [h3e]
          refine List.Perm.trans (List.Perm.cons fatherPid h4p) ?_
          refine List.Perm.trans List.perm_middle.symm ?_
          refine List.Perm.append_left idsL ?_
          exact List.perm_middle.symm
        have hPermBig : List.Perm
            ((fatherPid :: idsFlat (fun t => cidf (0 + t)) q.GetMinSize) ++
              ((s.nextFresh :: idsFlat (fun t => cidf (q.GetMinSize + t))
                (q.maxSize + 1 - q.GetMinSize)) ++ C2))
            (s.nextFresh ::
              (idsL ++ (idsR ++ (fatherPid :: (idsFlat idf q.size ++ C2))))) := by
          rw [List.cons_append, List.cons_append]
          refine List.Perm.trans (List.Perm.cons fatherPid h2m) ?_
          refine List.Perm.trans (List.Perm.swap s.nextFresh fatherPid _) ?_
          exact List.Perm.cons s.nextFresh h5p
        have hNodup' : ((fatherPid :: idsFlat (fun t => cidf (0 + t)) q.GetMinSize) ++
            ((s.nextFresh :: idsFlat (fun t => cidf (q.GetMinSize + t))
              (q.maxSize + 1 - q.GetMinSize)) ++ C2)).Nodup := by
          refine hPermBig.nodup_iff.mpr ?_
          rw [List.nodup_cons]
          refine ⟨?_, hNodup⟩
          intro hc
          have := hFresh _ hc
          omega
        have hFresh' : ∀ x, x ∈ (fatherPid :: idsFlat (fun t => cidf (0 + t)) q.GetMinSize) ++
            ((s.nextFresh :: idsFlat (fun t => cidf (q.GetMinSize + t))
              (q.maxSize + 1 - q.GetMinSize)) ++ C2) → 0 ≤ x ∧ x < s1.nextFresh := by
          intro x hx
          have hx2 := hPermBig.mem_iff.mp hx
          rcases List.mem_cons.mp hx2 with hx3 | hx3
          · subst hx3
            show 0 ≤ s.nextFresh ∧ s.nextFresh < s.nextFresh + 1
            omega
          · have := hFresh x hx3
            show 0 ≤ x ∧ x < s.nextFresh + 1
            omega
        have hDom' : ∀ pid page, s1.pages pid = some page →
            pid ∈ (fatherPid :: idsFlat (fun t => cidf (0 + t)) q.GetMinSize) ++
              ((s.nextFresh :: idsFlat (fun t => cidf (q.GetMinSize + t))
                (q.maxSize + 1 - q.GetMinSize)) ++ C2) := by
          intro pid page hpg
          by_cases hp1 : pid = s.nextFresh
          · subst hp1
            exact hPermBig.mem_iff.mpr (List.mem_cons_self _ _)
          · by_cases hp2 : pid = fatherPid
            · subst hp2
              exact hPermBig.mem_iff.mpr (List.mem_cons_of_mem _ (List.mem_append_right _
                (List.mem_append_right _ (List.mem_cons_self _ _))))
            · have hold : s.pages pid = some page := by
                rw [hpagesfun, Function.update_noteq hp1, Function.update_noteq hp2] at hpg
                exact hpg
              exact hPermBig.mem_iff.mpr (List.mem_cons_of_mem _ (hDom pid page hold))
        have hnf1 : (0 : Int) ≤ s1.nextFresh := by
          show (0 : Int) ≤ s.nextFresh + 1
          omega
        have hcarry' : (extra = [] ∧ hh = true) ∨
            (∃ x pg, (fatherPid :: rest).getLast? = some x ∧ s1.pages x = some pg ∧
              BPlusTree.Safe_Insert pg = true ∧ rest ≠ []) := by
          rcases hcarry with ⟨hext, hhh⟩ | ⟨x, pg, hxl0, hxp, hxs, hne⟩
          · exact Or.inl ⟨hext, hhh⟩
          · have hxl1 : (fatherPid :: rest).getLast? = some x := by
              rw [List.getLast?_cons_cons] at hxl0
              exact hxl0
            cases rest with
            | nil =>
              rw [List.getLast?_singleton] at hxl1
              injection hxl1 with hxf
              subst hxf
              rw [hpage] at hxp
              injection hxp with hpgq
              subst hpgq
              exact absurd ((safe_insert_internal q).mp hxs) hfull
            | cons r rs =>
              have hxl2 : (r :: rs : List Int).getLast? = some x := by
                rw [List.getLast?_cons_cons] at hxl1
                exact hxl1
              have hxmem : x ∈ (r :: rs : List Int) := mem_of_getLast_opt _ _ hxl2
              have hxC2 : x ∈ C2 := by
                refine spinePath_tail_sub cfg s _ _ _ _ _ htail x ?_
                show x ∈ (r :: rs : List Int) ++ extra
                exact List.mem_append_left extra hxmem
              refine Or.inr ⟨x, pg, hxl1, ?_, hxs, List.cons_ne_nil r rs⟩
              rw [hagC2 x hxC2]
              exact hxp
        have hsp1 : SpinePath cfg s1 ((fatherPid :: rest) ++ extra) flo fhi (e + 1) C2 := by
          rw [List.cons_append]
          exact htail2
        obtain ⟨D, ids2, hA, hB2, hC2a, hD2, hE2, hF2⟩ :=
          ih fatherPid s1 (P2.KeyAt 0) s.nextFresh hh extra flo fhi (e + 1) C2
            (fatherPid :: idsFlat (fun t => cidf (0 + t)) q.GetMinSize)
            (s.nextFresh :: idsFlat (fun t => cidf (q.GetMinSize + t))
              (q.maxSize + 1 - q.GetMinSize))
            s2 hrun hsp1 hwfL hwfR hstrict' hkhi' hmem' hNodup' hFresh' hDom' hnf1 hcarry'
        refine ⟨D, ids2, hA, hB2, hC2a, hD2, hE2, ?_⟩
        have hstep : s1.nextFresh = s.nextFresh + 1 := rfl
        omega

/-- One Insert call preserves the global store invariant and keeps the
allocation counter nonnegative; when it returns true the inserted pair is
stored in the tree. -/
theorem insert_preserves (cfg : Cfg) (k v : Int) (fuel : Nat) (hcfg : CfgOk cfg)
    (s s2 : Store) (b : Bool)
    (hinv : StoreInv cfg s) (hnf : 0 ≤ s.nextFresh)
    (hrun : BPlusTree.Insert cfg s k v fuel = some (s2, b)) :
    StoreInv cfg s2 ∧ 0 ≤ s2.nextFresh ∧
      (b = true → ∃ F, subtreeHasKV s2 k v s2.rootPageId F) := by
  simp only [BPlusTree.Insert] at hrun
  by_cases hroot : s.rootPageId = INVALID_PAGE_ID
  · rw [if_pos hroot] at hrun
    injection hrun with hp
    injection hp with h1 h2
    subst h1
    subst h2
    rcases hinv with ⟨hrid, hnone⟩ | ⟨d, ids0, hwf, hnd, hfr, hdom⟩
    · set lp : LeafPage := ((LeafPage.Init cfg.leafMax).SetSize 1).SetAt 0 k v with hlp
      set sN : Store := { (s.setPage s.nextFresh (BPage.leaf lp)) with
        rootPageId := s.nextFresh, nextFresh := s.nextFresh + 1 } with hsN
      have hlpsz : lp.size = 1 := by
        rw [hlp, LeafPage.SetAt_size]
        rfl
      have hlpmax : lp.maxSize = cfg.leafMax := by
        rw [hlp, LeafPage.SetAt_maxSize]
        rfl
      have hlparr : lp.arr 0 = (k, v) := by
        rw [hlp]
        exact LeafPage.SetAt_arr_self _ 0 k v le_rfl (by show (0:Int) < 1; omega)
      have hpgN : sN.pages s.nextFresh = some (BPage.leaf lp) := by
        show Function.update s.pages s.nextFresh (some (BPage.leaf lp)) s.nextFresh = _
        exact Function.update_same _ _ _
      have hpgN2 : (s.setPage s.nextFresh (BPage.leaf lp)).pages s.nextFresh
          = some (BPage.leaf lp) := hpgN
      have hwfN : TreeWF cfg sN s.nextFresh none none 0 [s.nextFresh] := by
        refine TreeWF.leaf s.nextFresh none none lp hpgN hlpmax ?_ ?_ ?_ ?_
        · rw [hlpsz]
        · rw [hlpsz]
          have := hcfg.1
          omega
        · intro i j hi hij hj
          rw [hlpsz] at hj
          exact absurd hij (by omega)
        · intro i hi0 hi1
          exact ⟨trivial, trivial⟩
      have hmemN : subtreeHasKV sN k v s.nextFresh 1 := by
        simp only [subtreeHasKV, hpgN, hpgN2]
        exact ⟨0, le_rfl, by rw [hlpsz]; omega, hlparr⟩
      refine ⟨Or.inr ⟨0, [s.nextFresh], hwfN, List.nodup_singleton _, ?_, ?_⟩, ?_,
        fun _ => ⟨1, hmemN⟩⟩
      · intro pid2 hpid2
        rw [List.mem_singleton] at hpid2
        subst hpid2
        show 0 ≤ s.nextFresh ∧ s.nextFresh < s.nextFresh + 1
        omega
      · intro pid2 page hpg
        have hpg2 : Function.update s.pages s.nextFresh (some (BPage.leaf lp)) pid2
            = some page := hpg
        by_cases hp2 : pid2 = s.nextFresh
        · subst hp2
          exact List.mem_singleton_self _
        · rw [Function.update_noteq hp2, hnone pid2] at hpg2
          exact Option.noConfusion hpg2
      · show (0:Int) ≤ s.nextFresh + 1
        omega
    · exfalso
      have hmem : s.rootPageId ∈ ids0 := by
        cases hwf with
        | leaf pid lo hi p hpage hmax hsz1 hsz2 hsorted hbounds =>
          exact List.mem_singleton_self _
        | internal pid lo hi q dd idf hpage hmax hsz1 hsz2 hsorted hkeys hchild =>
          exact List.mem_cons_self _ _
      have := hfr _ hmem
      rw [hroot] at this
      simp only [INVALID_PAGE_ID] at this
      omega
  · rw [if_neg hroot] at hrun
    rcases hinv with ⟨hrid, hnone⟩ | ⟨d, ids0, hwf, hnd, hfr, hdom⟩
    · exact absurd hrid hroot
    split at hrun
    · exact Option.noConfusion hrun
    next tr ctx leafPid hdesc =>
      split at hrun
      · next leafPage heq =>
        split at hrun
        · -- duplicate key: nothing changes
          injection hrun with hp
          injection hp with h1 h2
          subst h1
          subst h2
          exact ⟨Or.inr ⟨d, ids0, hwf, hnd, hfr, hdom⟩, hnf, fun hb => Bool.noConfusion hb⟩
        · next hdup =>
          have hfold : (leafShiftLoop (leafPage.IncreaseSize 1)
              (BPlusTree.BinaryFindLeaf leafPage k + 1) (leafPage.IncreaseSize 1).size
              ((leafPage.IncreaseSize 1).size
                - (BPlusTree.BinaryFindLeaf leafPage k + 1)).toNat).SetAt
              (BPlusTree.BinaryFindLeaf leafPage k + 1) k v =
              leafInsertResult leafPage (BPlusTree.BinaryFindLeaf leafPage k + 1) k v := rfl
          rw [hfold] at hrun
          obtain ⟨p0, wtail2, ext2, lof, hif, C2, hpleaf, hws, hsp, hleafWF, hperm0, hklo,
            hkhi2, hcarry0⟩ := insertDescent_spine cfg s k fuel d ids0 tr ctx leafPid hwf hdesc
          rw [heq] at hpleaf
          injection hpleaf with hpleaf2
          injection hpleaf2 with hpleaf3
          subst hpleaf3
          cases hleafWF with
          | leaf pid2 lo2 hi2 p2 hpage2 hmax2 hsz1b hsz2b hsortedb hboundsb =>
            rw [heq] at hpage2
            injection hpage2 with hp2i
            injection hp2i with hp3i
            subst hp3i
            obtain ⟨hs0, hs1, hlowF, hhighF⟩ :
                0 ≤ BPlusTree.BinaryFindLeaf leafPage k + 1 ∧
                BPlusTree.BinaryFindLeaf leafPage k + 1 ≤ leafPage.size ∧
                (∀ i, 0 ≤ i → i < BPlusTree.BinaryFindLeaf leafPage k + 1 →
                  leafPage.KeyAt i < k) ∧
                (∀ i, BPlusTree.BinaryFindLeaf leafPage k + 1 ≤ i → i < leafPage.size →
                  k < leafPage.KeyAt i) := by
              rcases binaryFindLeaf_spec leafPage k (by omega) hsortedb with
                ⟨hm1, hall⟩ | ⟨hb0, hb1, hb2, hb3⟩
              · rw [hm1]
                refine ⟨by omega, by omega, ?_, ?_⟩
                · intro i h0 h1
                  exact absurd h1 (by omega)
                · intro i h0 h1
                  exact hall i (by omega) h1
              · have hne2 : leafPage.KeyAt (BPlusTree.BinaryFindLeaf leafPage k) ≠ k := by
                  intro he
                  exact hdup ⟨by omega, by rw [he]; exact (comparator_eq_zero_iff k k).mpr rfl⟩
                have hlt2 : leafPage.KeyAt (BPlusTree.BinaryFindLeaf leafPage k) < k :=
                  lt_of_le_of_ne hb2 hne2
                refine ⟨by omega, by omega, ?_, ?_⟩
                · intro i h0 h1
                  rcases eq_or_lt_of_le (show i ≤ BPlusTree.BinaryFindLeaf leafPage k
                    by omega) with he | hl
                  · rw [he]
                    exact hlt2
                  · exact lt_trans (hsortedb i _ h0 hl hb1) hlt2
                · intro i h0 h1
                  exact hb3 i (by omega) h1
            set sl1 : Int := BPlusTree.BinaryFindLeaf leafPage k + 1 with hsl1v
            obtain ⟨hL3sz, hL3max, hL3next, hL3arr⟩ := leafInsertResult_spec leafPage sl1 k v hs0 hs1
            have hnotin : leafPid ∉ C2 := by
              have hndc : (leafPid :: C2).Nodup := (hperm0.nodup_iff).mp hnd
              exact (List.nodup_cons.mp hndc).1
            have hC2lt : ∀ x, x ∈ C2 → 0 ≤ x ∧ x < s.nextFresh := by
              intro x hx
              exact hfr x (hperm0.mem_iff.mpr (List.mem_cons_of_mem _ hx))
            have hfrL : 0 ≤ leafPid ∧ leafPid < s.nextFresh :=
              hfr leafPid (hperm0.mem_iff.mpr (List.mem_cons_self _ _))
            split at hrun
            · next hsmall =>
              -- room in the leaf: in-place insertion
              injection hrun with hp
              injection hp with h1 h2
              subst h1
              subst h2
              set sIns : Store :=
                s.setPage leafPid (BPage.leaf (leafInsertResult leafPage sl1 k v)) with hsIns
              have hpgI : sIns.pages leafPid
                  = some (BPage.leaf (leafInsertResult leafPage sl1 k v)) := by
                show Function.update s.pages leafPid _ leafPid = _
                exact Function.update_same _ _ _
              have hpgI2 : (s.setPage leafPid (BPage.leaf (leafInsertResult leafPage
                  sl1 k v))).pages leafPid
                  = some (BPage.leaf (leafInsertResult leafPage sl1 k v)) := hpgI
              have hagI : ∀ x, x ≠ leafPid → sIns.pages x = s.pages x := by
                intro x hx
                show Function.update s.pages leafPid _ x = s.pages x
                exact Function.update_noteq hx _ _
              have hszub : leafPage.size + 1 ≤ cfg.leafMax - 1 := by
                rw [hL3sz, hL3max, hmax2] at hsmall
                omega
              have hwfI : TreeWF cfg sIns leafPid lof hif 0 [leafPid] :=
                leafInsert_wf cfg sIns leafPid leafPage sl1 k v lof hif hpgI hmax2 hsz1b hszub
                  hs0 hs1 hsortedb hlowF hhighF hboundsb ⟨hklo, hkhi2⟩
              have hspI : SpinePath cfg sIns ((leafPid :: wtail2) ++ ext2) lof hif 0 C2 :=
                spinePath_agree cfg s sIns _ _ _ _ _ hsp
                  (fun x hx => hagI x (fun hc => hnotin (hc ▸ hx))) rfl
              obtain ⟨D, ids2, hwf2, hperm2⟩ := spine_graft cfg sIns _ _ _ _ _ hspI leafPid
                (wtail2 ++ ext2) rfl _ hwfI
              have hperm2b : List.Perm ids2 (leafPid :: C2) := by
                rw [← List.singleton_append]
                exact hperm2
              have hmemI : subtreeHasKV sIns k v leafPid 1 := by
                simp only [subtreeHasKV, hpgI, hpgI2]
                exact leafInsertResult_new_mem leafPage sl1 k v hs0 hs1
              obtain ⟨F, hmemRoot⟩ := spinePath_member_lift cfg sIns k v _ _ _ _ _ hspI leafPid
                (wtail2 ++ ext2) rfl hmemI
              refine ⟨Or.inr ⟨D, ids2, hwf2, ?_, ?_, ?_⟩, hnf, fun _ => ⟨F, hmemRoot⟩⟩
              · exact hperm2b.nodup_iff.mpr ((hperm0.nodup_iff).mp hnd)
              · intro x hx
                have hx3 : x ∈ ids0 := hperm0.mem_iff.mpr (hperm2b.mem_iff.mp hx)
                show 0 ≤ x ∧ x < s.nextFresh
                exact hfr x hx3
              · intro pid3 page hpg
                by_cases hpe : pid3 = leafPid
                · subst hpe
                  exact hperm2b.mem_iff.mpr (List.mem_cons_self _ _)
                · have hold : s.pages pid3 = some page := by
                    rw [← hagI pid3 hpe]
                    exact hpg
                  exact hperm2b.mem_iff.mpr (hperm0.mem_iff.mp (hdom pid3 page hold))
            · next hbig =>
              -- the leaf is full: split it and propagate the separator
              have hfull3 : (leafInsertResult leafPage sl1 k v).size = cfg.leafMax := by
                rw [hL3sz, hL3max, hmax2] at hbig
                rw [hL3sz]
                omega
              have hlpsz2 : leafPage.size + 1 = cfg.leafMax := by
                rw [← hL3sz]
                exact hfull3
              obtain ⟨L, N, heqsplit, hLsz, hLmax, hLnext, hLarr, hNsz, hNmax, hNnext, hNarr⟩ :=
                splitLeafStep_spec cfg
                  (s.setPage leafPid (BPage.leaf (leafInsertResult leafPage sl1 k v))) leafPid
                  (leafInsertResult leafPage sl1 k v)
              rw [heqsplit] at hrun
              split at hrun
              · exact Option.noConfusion hrun
              next s3 hIU =>
                injection hrun with hp
                injection hp with h1 h2
                subst h1
                subst h2
                have hIU2 : BPlusTree.Insert_Up cfg
                    { (((s.setPage leafPid (BPage.leaf (leafInsertResult leafPage sl1
                        k v))).setPage leafPid (BPage.leaf L)).setPage s.nextFresh
                        (BPage.leaf N)) with nextFresh := s.nextFresh + 1 }
                    (N.KeyAt 0) s.nextFresh ctx.header (leafPid :: wtail2) = some s3 := by
                  rw [← hws]
                  exact hIU
                set sSp : Store :=
                  { (((s.setPage leafPid (BPage.leaf (leafInsertResult leafPage sl1
                      k v))).setPage leafPid (BPage.leaf L)).setPage s.nextFresh
                      (BPage.leaf N)) with nextFresh := s.nextFresh + 1 } with hsSp
                have hpgL : sSp.pages leafPid = some (BPage.leaf L) := by
                  show Function.update (Function.update (Function.update s.pages leafPid _)
                    leafPid _) s.nextFresh _ leafPid = _
                  rw [Function.update_noteq (show leafPid ≠ s.nextFresh by omega),
                    Function.update_same]
                have hpgL2 : (((s.setPage leafPid (BPage.leaf (leafInsertResult leafPage sl1
                    k v))).setPage leafPid (BPage.leaf L)).setPage s.nextFresh
                    (BPage.leaf N)).pages leafPid = some (BPage.leaf L) := hpgL
                have hpgNw : sSp.pages s.nextFresh = some (BPage.leaf N) := by
                  show Function.update _ s.nextFresh _ s.nextFresh = _
                  exact Function.update_same _ _ _
                have hpgNw2 : (((s.setPage leafPid (BPage.leaf (leafInsertResult leafPage sl1
                    k v))).setPage leafPid (BPage.leaf L)).setPage s.nextFresh
                    (BPage.leaf N)).pages s.nextFresh = some (BPage.leaf N) := hpgNw
                have hagS : ∀ x, x ≠ leafPid → x ≠ s.nextFresh → sSp.pages x = s.pages x := by
                  intro x h1 h2
                  show Function.update (Function.update (Function.update s.pages leafPid _)
                    leafPid _) s.nextFresh _ x = s.pages x
                  rw [Function.update_noteq h2, Function.update_noteq h1,
                    Function.update_noteq h1]
                have hm2L : 2 ≤ cfg.leafMax := hcfg.1
                have hsorted3 : ∀ i j2, 0 ≤ i → i < j2 →
                    j2 < (leafInsertResult leafPage sl1 k v).size →
                    (leafInsertResult leafPage sl1 k v).KeyAt i <
                      (leafInsertResult leafPage sl1 k v).KeyAt j2 := by
                  intro i j2 h0 h1 h2
                  rw [hL3sz] at h2
                  exact leafInsertResult_sorted leafPage sl1 k v hs0 hs1 hsortedb hlowF hhighF
                    i j2 h0 h1 h2
                have hbounds3 : ∀ i, 0 ≤ i → i < (leafInsertResult leafPage sl1 k v).size →
                    lowOk lof ((leafInsertResult leafPage sl1 k v).KeyAt i) ∧
                    highOk hif ((leafInsertResult leafPage sl1 k v).KeyAt i) := by
                  intro i h0 h2
                  rw [hL3sz] at h2
                  exact leafInsertResult_bounds leafPage sl1 k v lof hif hs0 hs1 hboundsb
                    ⟨hklo, hkhi2⟩ i h0 h2
                have hLsz2 : L.size = (cfg.leafMax + 1) / 2 := by
                  rw [hLsz, hL3max, hmax2]
                have hLmax2 : L.maxSize = cfg.leafMax := by
                  rw [hLmax, hL3max, hmax2]
                have hNsz2 : N.size = cfg.leafMax - (cfg.leafMax + 1) / 2 := by
                  rw [hNsz, hfull3, hL3max, hmax2]
                have hNarr2 : ∀ i, 0 ≤ i → i < N.size →
                    N.arr i = (leafInsertResult leafPage sl1 k v).arr
                      ((cfg.leafMax + 1) / 2 + i) := by
                  intro i h0 h2
                  rw [hNsz2] at h2
                  have hthis := hNarr i h0 (by rw [hfull3, hL3max, hmax2]; exact h2)
                  rw [hL3max, hmax2] at hthis
                  exact hthis
                obtain ⟨hwfL2, hwfN2⟩ := splitLeaf_wf cfg sSp leafPid s.nextFresh
                  (leafInsertResult leafPage sl1 k v) L N lof hif hpgL hpgNw hfull3 hm2L
                  hLsz2 hLmax2 hLarr hNsz2 hNmax hNarr2 hsorted3 hbounds3
                have hsepN : N.KeyAt 0 =
                    (leafInsertResult leafPage sl1 k v).KeyAt ((cfg.leafMax + 1) / 2) := by
                  unfold LeafPage.KeyAt
                  rw [hNarr2 0 le_rfl (by rw [hNsz2]; omega), add_zero]
                have hstrictS : lowStrict lof (N.KeyAt 0) := by
                  rw [hsepN]
                  refine lowOk_lt_strict lof ((leafInsertResult leafPage sl1 k v).KeyAt 0) _
                    (hbounds3 0 le_rfl (by rw [hL3sz]; omega)).1 ?_
                  exact hsorted3 0 ((cfg.leafMax + 1) / 2) le_rfl (by omega)
                    (by rw [hfull3]; omega)
                have hkhiS : highOk hif (N.KeyAt 0) := by
                  rw [hsepN]
                  exact (hbounds3 ((cfg.leafMax + 1) / 2) (by omega)
                    (by rw [hfull3]; omega)).2
                have hspS : SpinePath cfg sSp ((leafPid :: wtail2) ++ ext2) lof hif 0 C2 :=
                  spinePath_agree cfg s sSp _ _ _ _ _ hsp
                    (fun x hx => hagS x (fun hc => hnotin (hc ▸ hx))
                      (fun hc => by have := hC2lt x hx; omega)) rfl
                have harr3 : (leafInsertResult leafPage sl1 k v).arr sl1 = (k, v) := by
                  rw [hL3arr sl1, if_pos rfl]
                have hmemS : subtreeHasKV sSp k v leafPid 1 ∨
                    subtreeHasKV sSp k v s.nextFresh 1 := by
                  by_cases hjc : sl1 < (cfg.leafMax + 1) / 2
                  · left
                    simp only [subtreeHasKV, hpgL, hpgL2]
                    refine ⟨sl1, hs0, by rw [hLsz2]; omega, ?_⟩
                    rw [hLarr sl1]
                    exact harr3
                  · right
                    simp only [subtreeHasKV, hpgNw, hpgNw2]
                    refine ⟨sl1 - (cfg.leafMax + 1) / 2, by omega, by rw [hNsz2]; omega, ?_⟩
                    rw [hNarr2 _ (by omega) (by rw [hNsz2]; omega)]
                    have hidx : (cfg.leafMax + 1) / 2 + (sl1 - (cfg.leafMax + 1) / 2) = sl1 := by
                      omega
                    rw [hidx]
                    exact harr3
                have hNodupS : (([leafPid] : List Int) ++
                    (([s.nextFresh] : List Int) ++ C2)).Nodup := by
                  show (leafPid :: s.nextFresh :: C2).Nodup
                  rw [List.nodup_cons, List.nodup_cons]
                  refine ⟨?_, ?_, ?_⟩
                  · intro hc
                    rcases List.mem_cons.mp hc with h1 | h1
                    · omega
                    · exact hnotin h1
                  · intro hc
                    have := hC2lt _ hc
                    omega
                  · exact ((hperm0.nodup_iff).mp hnd).of_cons
                have hFreshS : ∀ x, x ∈ ([leafPid] : List Int) ++
                    (([s.nextFresh] : List Int) ++ C2) → 0 ≤ x ∧ x < sSp.nextFresh := by
                  intro x hx
                  have hx2 : x ∈ leafPid :: s.nextFresh :: C2 := hx
                  show 0 ≤ x ∧ x < s.nextFresh + 1
                  rcases List.mem_cons.mp hx2 with h1 | h1
                  · omega
                  · rcases List.mem_cons.mp h1 with h2 | h2
                    · omega
                    · have := hC2lt _ h2
                      omega
                have hDomS : ∀ pid3 page, sSp.pages pid3 = some page →
                    pid3 ∈ ([leafPid] : List Int) ++ (([s.nextFresh] : List Int) ++ C2) := by
                  intro pid3 page hpg2
                  show pid3 ∈ leafPid :: s.nextFresh :: C2
                  by_cases he1 : pid3 = leafPid
                  · subst he1
                    exact List.mem_cons_self _ _
                  · by_cases he2 : pid3 = s.nextFresh
                    · subst he2
                      exact List.mem_cons_of_mem _ (List.mem_cons_self _ _)
                    · have hold : s.pages pid3 = some page := by
                        rw [← hagS pid3 he1 he2]
                        exact hpg2
                      have hin0 : pid3 ∈ leafPid :: C2 :=
                        hperm0.mem_iff.mp (hdom pid3 page hold)
                      rcases List.mem_cons.mp hin0 with h3 | h3
                      · exact absurd h3 he1
                      · exact List.mem_cons_of_mem _ (List.mem_cons_of_mem _ h3)
                have hcarryS : (ext2 = [] ∧ ctx.header = true) ∨
                    (∃ x pg, (leafPid :: wtail2).getLast? = some x ∧ sSp.pages x = some pg ∧
                      BPlusTree.Safe_Insert pg = true ∧ wtail2 ≠ []) := by
                  rcases hcarry0 with ⟨h1c, h2c⟩ | ⟨x, pg, hx, hxp, hxs⟩
                  · exact Or.inl ⟨h1c, h2c⟩
                  · have hwsr : ctx.writeSet = (leafPid :: wtail2).reverse := by
                      rw [← hws, List.reverse_reverse]
                    rw [hwsr, List.head?_reverse] at hx
                    cases wtail2 with
                    | nil =>
                      exfalso
                      rw [List.getLast?_singleton] at hx
                      injection hx with hxe
                      subst hxe
                      rw [heq] at hxp
                      injection hxp with hxp2
                      subst hxp2
                      have := (safe_insert_leaf leafPage).mp hxs
                      omega
                    | cons r rs =>
                      have hx2 : (r :: rs : List Int).getLast? = some x := by
                        rw [List.getLast?_cons_cons] at hx
                        exact hx
                      have hxmem : x ∈ (r :: rs : List Int) := mem_of_getLast_opt _ _ hx2
                      have hxC2 : x ∈ C2 := by
                        refine spinePath_tail_sub cfg s _ _ _ _ _ hsp x ?_
                        show x ∈ (r :: rs : List Int) ++ ext2
                        exact List.mem_append_left ext2 hxmem
                      refine Or.inr ⟨x, pg, hx, ?_, hxs, List.cons_ne_nil r rs⟩
                      rw [hagS x (fun hc => hnotin (hc ▸ hxC2))
                        (fun hc => by have := hC2lt x hxC2; omega)]
                      exact hxp
                obtain ⟨D, ids2, hwf2, hnd2, hfr2, hdom2, hmem2, hmono⟩ :=
                  insertUp_ok cfg k v hcfg wtail2 leafPid sSp (N.KeyAt 0) s.nextFresh
                    ctx.header ext2 lof hif 0 C2 [leafPid] [s.nextFresh] s3 hIU2 hspS hwfL2
                    hwfN2 hstrictS hkhiS hmemS hNodupS hFreshS hDomS
                    (by show (0:Int) ≤ s.nextFresh + 1; omega) hcarryS
                refine ⟨Or.inr ⟨D, ids2, hwf2, hnd2, hfr2, hdom2⟩, ?_, fun _ => hmem2⟩
                have hstep : sSp.nextFresh = s.nextFresh + 1 := rfl
                omega
      · simp at hrun

/-- Every store reachable from the empty tree by Insert calls satisfies the
global invariant and has a nonnegative allocation counter. -/
theorem reachable_inv (cfg : Cfg) (hcfg : CfgOk cfg) (s : Store) (hr : Reachable cfg s) :
    StoreInv cfg s ∧ 0 ≤ s.nextFresh := by
  induction hr with
  | empty => exact ⟨Or.inl ⟨rfl, fun _ => rfl⟩, le_rfl⟩
  | insert s s' k v fuel b hr hstep ih =>
    obtain ⟨h1, h2, _⟩ := insert_preserves cfg k v fuel hcfg s s' b ih.1 ih.2 hstep
    exact ⟨h1, h2⟩

/-- C8: in every tree state reachable from the empty tree by any sequence of
Insert operations (with valid fan-outs), the keys stored in every allocated
page are strictly ascending under the comparator — for internal pages over
slots 1 .. size - 1, ignoring the unused slot-0 key; in particular Insert
preserves this through leaf insertion, leaf split, internal back-insertion,
internal split, and root growth. -/
theorem C8_reachable_pages_sorted (cfg : Cfg) (s : Store) (hcfg : CfgOk cfg)
    (hr : Reachable cfg s) :
    ∀ pid page, s.pages pid = some page → pageSorted page := by
  obtain ⟨hinv, hnf⟩ := reachable_inv cfg hcfg s hr
  rcases hinv with ⟨hrid, hnone⟩ | ⟨d, ids, hwf, hnd, hfr, hdom⟩
  · intro pid page hpg
    rw [hnone pid] at hpg
    exact Option.noConfusion hpg
  · intro pid page hpg
    obtain ⟨page2, hpg2, hsorted⟩ :=
      treeWF_pages_sorted cfg s _ _ _ _ _ hwf pid (hdom pid page hpg)
    rw [hpg] at hpg2
    injection hpg2 with he
    subst he
    exact hsorted

/-- Witness for C8 at a concrete input: the configuration of the spec's
scenario is valid, the one-insert tree is reachable, and the theorem applies. -/
theorem C8_witness : CfgOk cfgS5 ∧
    ∀ pid page, demoTreeC1.pages pid = some page → pageSorted page :=
  ⟨⟨by decide, by decide⟩,
    C8_reachable_pages_sorted cfgS5 demoTreeC1 ⟨by decide, by decide⟩
      (Reachable.insert emptyStore demoTreeC1 7 7 20 true Reachable.empty rfl)⟩

/-- C4: for every tree state reachable by a sequence of inserts (with valid
fan-outs) and every key k and value v, if Insert(k, v) returns true then a
subsequent GetValue(k) returns true with result vector exactly [v]. -/
theorem C4_insert_getvalue (cfg : Cfg) (s : Store) (k v : Int) (fuel : Nat) (s2 : Store)
    (hcfg : CfgOk cfg) (hr : Reachable cfg s)
    (hrun : BPlusTree.Insert cfg s k v fuel = some (s2, true)) :
    ∃ fuel2, BPlusTree.GetValue s2 k fuel2 = some (true, [v]) := by
  obtain ⟨hinv, hnf⟩ := reachable_inv cfg hcfg s hr
  obtain ⟨hinv2, hnf2, hmem⟩ := insert_preserves cfg k v fuel hcfg s s2 true hinv hnf hrun
  obtain ⟨F, hm⟩ := hmem rfl
  rcases hinv2 with ⟨hrid, hnone⟩ | ⟨d, ids, hwf, hnd, hfr, hdom⟩
  · exfalso
    cases F with
    | zero => exact hm
    | succ n =>
      simp only [subtreeHasKV, hnone s2.rootPageId] at hm
  · have hrootmem : s2.rootPageId ∈ ids := by
      cases hwf with
      | leaf pid lo hi p hpage hmax hsz1 hsz2 hsorted hbounds =>
        exact List.mem_singleton_self _
      | internal pid lo hi q dd idf hpage hmax hsz1 hsz2 hsorted hkeys hchild =>
        exact List.mem_cons_self _ _
    have hrootne : ¬ s2.rootPageId = INVALID_PAGE_ID := by
      have := hfr _ hrootmem
      simp only [INVALID_PAGE_ID]
      omega
    refine ⟨d + 1, ?_⟩
    simp only [BPlusTree.GetValue]
    rw [if_neg hrootne]
    exact getValueLoop_finds cfg s2 k v s2.rootPageId none none d ids hwf F hm

/-- Witness for C4 at a concrete input: inserting 7 into the empty tree
returns true and GetValue(7) afterwards reports a hit with exactly [7]. -/
theorem C4_witness : CfgOk cfgS5 ∧ Reachable cfgS5 emptyStore ∧
    BPlusTree.Insert cfgS5 emptyStore 7 7 20 = some (demoTreeC1, true) ∧
    ∃ fuel2, BPlusTree.GetValue demoTreeC1 7 fuel2 = some (true, [7]) :=
  ⟨⟨by decide, by decide⟩, Reachable.empty, rfl,
    C4_insert_getvalue cfgS5 emptyStore 7 7 20 demoTreeC1 ⟨by decide, by decide⟩
      Reachable.empty rfl⟩
